import Mathlib

/-! Topology construction in `BlockChainNetworkSim.cc`.

A shallow embedding of the topology part of `main` in
`src/BlockChainNetworkSim.cc`: the generator of a random topology
(lines 441-489), the resolution of the two descriptions (lines 504-525),
`stringSplit` (lines 49-62), the link and connection parsers and the wiring
loops (lines 779-951), and `main` itself as the sequence of its checks followed
by the installation loop (lines 353-1044).

Host and router counts are natural numbers (the source rejects
`numberOfNodes < 2` and `numberOfRouters < 0` before any of this code runs);
the value read by `stoi` is an `Int` in the range of a 32-bit `int`.
-/

namespace BlockChainNetworkSim

/-! ## The topology generator (lines 441-489) -/

/-- The inner map of `allLinks`, an `unordered_map<int,int>` whose value always
equals its key: the list of its keys, in insertion order. -/
abbrev KeySet := List Nat

/-- The assignment `m[k] = k`: a new key is added, an existing one stays. -/
def setKey (m : KeySet) (k : Nat) : KeySet :=
  if k ∈ m then m else m ++ [k]

/-- The assignment `allLinks[a][b] = b`. -/
def setLink (allLinks : Nat → KeySet) (a b : Nat) : Nat → KeySet :=
  fun x => if x = a then setKey (allLinks a) b else allLinks x

/-- The text `"n" + to_string(a) + "-n" + to_string(b) + ","` appended to
`links` for one edge. -/
def linkText (a b : Nat) : String :=
  "n" ++ toString a ++ "-n" ++ toString b ++ ","

/-- The variables of the generator: the string `links`, the table `allLinks`,
and the edges in the order in which their text was appended to `links`. -/
structure GenState where
  /-- The string `links`. -/
  links : String
  /-- The table `allLinks`: node number to the nodes connected to it. -/
  allLinks : Nat → KeySet
  /-- One pair per text appended to `links`, oldest first. -/
  emitted : List (Nat × Nat)

/-- The state at line 445: `links = ""`, `allLinks` empty. -/
def GenState.init : GenState :=
  { links := "", allLinks := fun _ => [], emitted := [] }

/-- Record the edge `a`-`b`: append its text to `links` and set
`allLinks[a][b]` and `allLinks[b][a]` (lines 450-452, 456-458, 477-481). -/
def addLink (s : GenState) (a b : Nat) : GenState :=
  { links := s.links ++ linkText a b
    allLinks := setLink (setLink s.allLinks a b) b a
    emitted := s.emitted ++ [(a, b)] }

/-- The body of the first loop (lines 448-460) for node `i`. -/
def ringStep (numberOfNodes : Nat) (s : GenState) (i : Nat) : GenState :=
  if i = numberOfNodes - 1 then
    if 0 ∈ s.allLinks i then s else addLink s i 0
  else
    if i + 1 ∈ s.allLinks i then s else addLink s i (i + 1)

/-- The first loop (lines 445-462): `i` runs from `0` to `numberOfNodes - 1`. -/
def ringLoop (numberOfNodes : Nat) : GenState :=
  (List.range numberOfNodes).foldl (ringStep numberOfNodes) GenState.init

/-- Lines 471-476: draw `rand() % numberOfNodes` until the value is neither
`i`, nor the successor of `i`, nor a key of `nodesToConnectTo`. The list holds
the values `rand()` returns, in order; the result is the accepted value and the
draws left, or `none` when the draws run out first. -/
def drawNeighbour (numberOfNodes i : Nat) (nodesToConnectTo : KeySet) :
    List Nat → Option (Nat × List Nat)
  | [] => none
  | x :: rest =>
    let randomInt := x % numberOfNodes
    if randomInt = i ∨ randomInt = (i + 1) % numberOfNodes ∨ randomInt ∈ nodesToConnectTo then
      drawNeighbour numberOfNodes i nodesToConnectTo rest
    else some (randomInt, rest)

/-- The loop `while (j < minConnectionsPerNode)` of lines 469-483 for node `i`.
The result is the state reached and the draws left, `none` when the draws ran
out inside the loop, which then has not finished. The first argument bounds the
number of iterations; `connectNode` passes `minConnectionsPerNode - j`, which is
exactly the number the loop makes. -/
def connectLoop (numberOfNodes minConnectionsPerNode i : Nat) :
    Nat → Nat → KeySet → GenState → List Nat → GenState × Option (List Nat)
  | 0, j, _, s, draws => (s, if j < minConnectionsPerNode then none else some draws)
  | fuel + 1, j, nodesToConnectTo, s, draws =>
    if j < minConnectionsPerNode then
      match drawNeighbour numberOfNodes i nodesToConnectTo draws with
      | none => (s, none)
      | some (randomInt, rest) =>
        connectLoop numberOfNodes minConnectionsPerNode i fuel (j + 1)
          (setKey nodesToConnectTo randomInt) (addLink s i randomInt) rest
    else (s, some draws)

/-- The body of the second loop (lines 465-484) for node `i`. -/
def connectNode (numberOfNodes minConnectionsPerNode i : Nat) (s : GenState)
    (draws : List Nat) : GenState × Option (List Nat) :=
  if minConnectionsPerNode > 2 then
    let nodesToConnectTo := s.allLinks i
    let j := nodesToConnectTo.length
    connectLoop numberOfNodes minConnectionsPerNode i (minConnectionsPerNode - j) j
      nodesToConnectTo s draws
  else (s, some draws)

/-- The second loop (lines 463-486) over the nodes given, in order. -/
def connectAll (numberOfNodes minConnectionsPerNode : Nat) :
    List Nat → GenState → List Nat → GenState × Option (List Nat)
  | [], s, draws => (s, some draws)
  | i :: more, s, draws =>
    match connectNode numberOfNodes minConnectionsPerNode i s draws with
    | (s1, none) => (s1, none)
    | (s1, some rest) => connectAll numberOfNodes minConnectionsPerNode more s1 rest

/-- A run of the generator on a finite sequence of draws. -/
structure GenResult where
  /-- The variables when the run ended or the draws ran out. -/
  state : GenState
  /-- Whether line 487 was reached with the draws given. -/
  finished : Bool

/-- The generator, lines 441-487: both loops, then `links.erase(links.size()-1)`
removes the last comma. `draws` are the values returned by `rand()`, in order;
when they run out inside the rejection loop the run is not finished and the
state is the one reached so far. -/
def generate (numberOfNodes minConnectionsPerNode : Nat) (draws : List Nat) : GenResult :=
  match connectAll numberOfNodes minConnectionsPerNode (List.range numberOfNodes)
      (ringLoop numberOfNodes) draws with
  | (s, none) => { state := s, finished := false }
  | (s, some _) => { state := { s with links := s.links.dropRight 1 }, finished := true }

/-- The checks of lines 425-438 on a supplied `minConnectionsPerNode`. -/
def validMinConnections (numberOfNodes minConnectionsPerNode : Nat) : Prop :=
  (numberOfNodes ≠ 2 → 2 ≤ minConnectionsPerNode) ∧
  (numberOfNodes = 2 → 1 ≤ minConnectionsPerNode) ∧
  minConnectionsPerNode < numberOfNodes

/-- Two hosts are linked by an edge of the list, in either orientation. -/
def Linked (numberOfNodes : Nat) (edges : List (Nat × Nat)) (a b : Nat) : Prop :=
  a < numberOfNodes ∧ b < numberOfNodes ∧ ((a, b) ∈ edges ∨ (b, a) ∈ edges)

/-- Every pair of hosts is joined by a path of edges through hosts. -/
def Connected (numberOfNodes : Nat) (edges : List (Nat × Nat)) : Prop :=
  ∀ a b, a < numberOfNodes → b < numberOfNodes →
    Relation.ReflTransGen (Linked numberOfNodes edges) a b

/-- The number of edges of the list that have `h` as an endpoint. -/
def degree (edges : List (Nat × Nat)) (h : Nat) : Nat :=
  (edges.filter (fun e => decide (e.1 = h ∨ e.2 = h))).length

/-- The table `allLinks` and the emitted edges describe the same simple graph. -/
structure GenInv (s : GenState) : Prop where
  adj : ∀ a b, b ∈ s.allLinks a ↔ ((a, b) ∈ s.emitted ∨ (b, a) ∈ s.emitted)
  deg : ∀ h, degree s.emitted h = (s.allLinks h).length
  noloop : ∀ e ∈ s.emitted, e.1 ≠ e.2
  nodup : s.emitted.Pairwise (fun e f => e ≠ f ∧ e ≠ (f.2, f.1))

/-- The later state has every key and at least the size of the earlier one. -/
def Extends (s t : GenState) : Prop :=
  (∀ h x, x ∈ s.allLinks h → x ∈ t.allLinks h) ∧
  (∀ h, (s.allLinks h).length ≤ (t.allLinks h).length)

/-- The table `allLinks` after the first `k` rounds of the first loop. -/
def ringAdj (k h : Nat) : KeySet :=
  if k = 0 then [] else if h = 0 then [1] else if h < k then [h - 1, h + 1]
  else if h = k then [k - 1] else []

/-! ## `stringSplit` (lines 49-62) -/

/-- The characters `operator>>` treats as white space (`isspace` in the C
locale): space, tab, line feed, vertical tab, form feed, carriage return. -/
def isSpace (c : Char) : Bool :=
  c = ' ' || c = '\t' || c = '\n' || c = '\x0b' || c = '\x0c' || c = '\r'

/-- The loop `while (stringStream >> temp) subStrings.push_back(temp)`: the
maximal runs of characters that are not white space, in order. `cur` is the
run being read. -/
def extractWords : List Char → List Char → List String
  | cur, [] => if cur = [] then [] else [String.mk cur]
  | cur, c :: rest =>
    if isSpace c then
      if cur = [] then extractWords [] rest else String.mk cur :: extractWords [] rest
    else extractWords (cur ++ [c]) rest

/-- The function `stringSplit`: replace every separator by a space, then read
the words of the string. -/
def stringSplit (str : String) (separator : Char) : List String :=
  extractWords [] (str.data.map (fun c => if c = separator then ' ' else c))

/-! ## `std::stoi` -/

/-- The two exceptions `std::stoi` throws. -/
inductive StoiError where
  | invalidArgument
  | outOfRange
  deriving DecidableEq, Repr

/-- The largest value of an `int`. -/
def intMax : Int := 2147483647

/-- The smallest value of an `int`. -/
def intMin : Int := -2147483648

/-- The value of a run of decimal digits. -/
def digitsValue (digits : List Char) : Nat :=
  digits.foldl (fun acc c => 10 * acc + (c.toNat - 48)) 0

/-- The number read from the text left after the sign: the value of the longest
run of leading digits, negated after a minus sign; no digit at all is
`invalid_argument`, a value that does not fit an `int` is `out_of_range`. What
follows the digits is ignored. -/
def stoiDigits (negative : Bool) (text : List Char) : Except StoiError Int :=
  let digits := text.takeWhile Char.isDigit
  if digits = [] then .error .invalidArgument
  else
    let value : Int := if negative then -(digitsValue digits : Int) else (digitsValue digits : Int)
    if value < intMin ∨ intMax < value then .error .outOfRange else .ok value

/-- The call `std::stoi(str)` in base ten: leading white space is skipped, one
sign is accepted, then `stoiDigits` reads the number. -/
def stoi (str : List Char) : Except StoiError Int :=
  match str.dropWhile isSpace with
  | '-' :: text => stoiDigits true text
  | '+' :: text => stoiDigits false text
  | text => stoiDigits false text

/-! ## The link and connection parsers (lines 796-851 and 909-943) -/

/-- The ways in which reading a description stops the run. The first four are
the `return 1` paths; the last two are not: an exception nobody catches, and a
read past the end of `nodesVector`. -/
inductive Failure where
  /-- "... description in incorrect format": more than two sub-tokens, or a
  first character that is not an accepted kind. -/
  | format
  /-- "Incorrect links description": `stoi` threw `invalid_argument`. -/
  | nonNumeric
  /-- "Incorrect node number ..." or "Incorrect router number ...". -/
  | range
  /-- "Cannot create a link between a node and itself" (or router). -/
  | selfLoop
  /-- An exception that no handler catches (`std::out_of_range`). -/
  | uncaughtException
  /-- The expression `nodesVector[i]` with `i` not below the size. -/
  | undefinedRead
  deriving DecidableEq, Repr

deriving instance DecidableEq for Except

/-- Addition of two `int` values, wrapping around on overflow. -/
def addInt32 (x y : Int) : Int :=
  (x + y + 2147483648) % 4294967296 - 2147483648

/-- The bytes of the UTF-8 encoding of a character, each byte written as the
character with that code (below 256): one byte below 128 for an ASCII
character, else a leading byte from 192 up followed by continuation bytes
between 128 and 191. -/
def charBytes (c : Char) : List Char :=
  let v := c.toNat
  if v < 128 then [c]
  else if v < 2048 then [Char.ofNat (192 + v / 64 % 32), Char.ofNat (128 + v % 64)]
  else if v < 65536 then
    [Char.ofNat (224 + v / 4096 % 16), Char.ofNat (128 + v / 64 % 64),
      Char.ofNat (128 + v % 64)]
  else
    [Char.ofNat (240 + v / 262144 % 8), Char.ofNat (128 + v / 4096 % 64),
      Char.ofNat (128 + v / 64 % 64), Char.ofNat (128 + v % 64)]

/-- The elements of a `std::string`: a `std::string` is a sequence of bytes,
and a `String` here is the text these bytes encode. Only `substr(1,-1)` and
`[0]` address a single byte; comparing strings, splitting at an ASCII separator
or at white space, and reading a number from the start of a string give the
same result on the text and on its bytes. -/
def bytes (s : String) : List Char :=
  s.data.flatMap charBytes

/-- Lines 805-812 and 918-925: `stoi(nodesVector[i].substr(1,-1))` with the
handler for `invalid_argument`. `substr(1,-1)` drops the first byte of the
sub-token; on an empty string it throws. -/
def readIndex (sub : String) : Except Failure Int :=
  match bytes sub with
  | [] => .error .uncaughtException
  | _ :: nodeNumberString =>
    match stoi nodeNumberString with
    | .error .invalidArgument => .error .nonNumeric
    | .error .outOfRange => .error .uncaughtException
    | .ok value => .ok value

/-- The byte `nodesVector[i][0]` (the terminating zero for an empty string). -/
def kindChar (sub : String) : Char :=
  (bytes sub).headD (Char.ofNat 0)

/-- Lines 805-840, one round of the `for` loop of the link parser on the
sub-token `nodesVector[i]`: the flat index stored in `values[i]`. -/
def linkEndpoint (numberOfNodes numberOfRouters : Nat) (sub : String) : Except Failure Nat :=
  match readIndex sub with
  | .error e => .error e
  | .ok value =>
    if kindChar sub = 'n' then
      if value ≥ (numberOfNodes : Int) ∨ value < 0 then .error .range
      else .ok value.toNat
    else if kindChar sub = 'r' then
      let value := addInt32 value numberOfNodes
      if value ≥ addInt32 numberOfNodes numberOfRouters ∨ value < (numberOfNodes : Int) then
        .error .range
      else .ok value.toNat
    else .error .format

/-- Lines 918-937, one round of the `for` loop of the connection parser: only
the kind `n` is accepted. -/
def connectionEndpoint (numberOfNodes : Nat) (sub : String) : Except Failure Nat :=
  match readIndex sub with
  | .error e => .error e
  | .ok value =>
    if kindChar sub = 'n' then
      if value ≥ (numberOfNodes : Int) ∨ value < 0 then .error .range
      else .ok value.toNat
    else .error .format

/-- The read `nodesVector[i]` followed by the body of the `for` loop: the
vector is not checked to have an element `i`. -/
def endpointAt (body : String → Except Failure Nat) (nodesVector : List String) (i : Nat) :
    Except Failure Nat :=
  match nodesVector.get? i with
  | none => .error .undefinedRead
  | some sub => body sub

/-- Lines 796-851 (and 909-943 with the body of the connection parser): split
the token on `-`, reject more than two sub-tokens, read `values[0]` and then
`values[1]`, reject equal values. -/
def parseToken (body : String → Except Failure Nat) (token : String) :
    Except Failure (Nat × Nat) :=
  let nodesVector := stringSplit token '-'
  if nodesVector.length > 2 then .error .format
  else
    match endpointAt body nodesVector 0 with
    | .error e => .error e
    | .ok value0 =>
      match endpointAt body nodesVector 1 with
      | .error e => .error e
      | .ok value1 =>
        if value0 = value1 then .error .selfLoop else .ok (value0, value1)

/-- The link parser on one element of `linkSubStrings`. -/
def parseLink (numberOfNodes numberOfRouters : Nat) (token : String) :
    Except Failure (Nat × Nat) :=
  parseToken (linkEndpoint numberOfNodes numberOfRouters) token

/-- The connection parser on one element of `bcConnectionsVector`. -/
def parseConnection (numberOfNodes : Nat) (token : String) : Except Failure (Nat × Nat) :=
  parseToken (connectionEndpoint numberOfNodes) token

/-- The edges of a list of tokens, in order, or the failure of the first token
that has one. -/
def parseAll (parse : String → Except Failure (Nat × Nat)) :
    List String → Except Failure (List (Nat × Nat))
  | [] => .ok []
  | token :: more =>
    match parse token with
    | .error e => .error e
    | .ok edge =>
      match parseAll parse more with
      | .error e => .error e
      | .ok edges => .ok (edge :: edges)

/-! ## The two descriptions (lines 504-525) -/

/-- The variables `links`, `bcConnections` and `same`. -/
structure Descriptions where
  links : String
  bcConnections : String
  same : Bool
  deriving DecidableEq, Repr

/-- Lines 504-525, one assignment after the other: `same` is set by comparing
the two strings, then an empty string is replaced. -/
def resolveDescriptions (links bcConnections : String) : Descriptions :=
  let d : Descriptions := { links := links, bcConnections := bcConnections, same := true }
  let d := if d.links ≠ d.bcConnections then { d with same := false } else d
  let d :=
    if d.links = "" then
      let d := { d with same := true }
      if d.bcConnections = "" then
        let d := { d with links := "n0-n1" }
        { d with links := d.bcConnections }
      else { d with links := d.bcConnections }
    else d
  if d.bcConnections = "" then
    let d := { d with same := true }
    { d with bcConnections := d.links }
  else d

/-! ## Wiring and neighbour resolution (lines 770-951) -/

/-- Modelled from the spec: `Ipv4AddressHelper` belongs to ns-3 and is not part
of this source file; section 4.4 describes it as a monotonically advancing pool
that hands out one address per call of `Assign`. An address is the number
`Ipv4Address::Get` returns, and `nextAddress` is the one the next call hands
out. The base set at line 791 is 10.0.0.0. -/
def firstAddress : Nat := 167772160

/-- The tables filled while the topology is built. -/
structure Wiring where
  /-- `nodeConnections.at(h)`: the addresses host `h` connects to. -/
  nodeConnections : Nat → List Nat
  /-- `nodeIps.at(v)`: the addresses node or router `v` owns, oldest first. -/
  nodeIps : Nat → List Nat
  /-- `ipNodeNumberMap`: address to the number of its owner. -/
  ipNodeNumberMap : Nat → Option Nat
  /-- The address the next `ipv4.Assign` hands out. -/
  nextAddress : Nat

/-- Lines 770-791: every vector empty, the map empty, the pool at its base. -/
def Wiring.init : Wiring :=
  { nodeConnections := fun _ => []
    nodeIps := fun _ => []
    ipNodeNumberMap := fun _ => none
    nextAddress := firstAddress }

/-- The call `table.at(v).push_back(address)`. -/
def pushAt (table : Nat → List Nat) (v address : Nat) : Nat → List Nat :=
  fun x => if x = v then table v ++ [address] else table x

/-- The assignment `ipNodeNumberMap[address] = v`. -/
def setOwner (map : Nat → Option Nat) (address v : Nat) : Nat → Option Nat :=
  fun x => if x = address then some v else map x

/-- Lines 879-897 for one parsed link: two calls of `Assign`, then the three
tables are updated. -/
def wireLink (same : Bool) (w : Wiring) (values : Nat × Nat) : Wiring :=
  let interface1 := w.nextAddress
  let interface2 := w.nextAddress + 1
  let nodeConnections :=
    if same then pushAt (pushAt w.nodeConnections values.1 interface2) values.2 interface1
    else w.nodeConnections
  { nodeConnections := nodeConnections
    nodeIps := pushAt (pushAt w.nodeIps values.1 interface1) values.2 interface2
    ipNodeNumberMap := setOwner (setOwner w.ipNodeNumberMap interface1 values.1) interface2 values.2
    nextAddress := w.nextAddress + 2 }

/-- The loop of lines 793-898 over `linkSubStrings`: each token is parsed and,
when accepted, wired before the next token is looked at. -/
def wireLinks (numberOfNodes numberOfRouters : Nat) (same : Bool) :
    List String → Wiring → Except Failure Wiring
  | [], w => .ok w
  | token :: more, w =>
    match parseLink numberOfNodes numberOfRouters token with
    | .error e => .error e
    | .ok values => wireLinks numberOfNodes numberOfRouters same more (wireLink same w values)

/-- Lines 946-947 for one parsed connection: each end gets the first address of
the other; `nodeIps.at(v).at(0)` throws when `v` owns no address. -/
def connectPair (w : Wiring) (values : Nat × Nat) : Except Failure Wiring :=
  match w.nodeIps values.2 with
  | [] => .error .uncaughtException
  | ip1 :: _ =>
    match w.nodeIps values.1 with
    | [] => .error .uncaughtException
    | ip0 :: _ =>
      .ok { w with
        nodeConnections := pushAt (pushAt w.nodeConnections values.1 ip1) values.2 ip0 }

/-- The loop of lines 906-950 over `bcConnectionsVector`. -/
def resolveConnections (numberOfNodes : Nat) : List String → Wiring → Except Failure Wiring
  | [], w => .ok w
  | token :: more, w =>
    match parseConnection numberOfNodes token with
    | .error e => .error e
    | .ok values =>
      match connectPair w values with
      | .error e => .error e
      | .ok w1 => resolveConnections numberOfNodes more w1

/-- Lines 504-525, 604-606 and 770-951: the descriptions are resolved and
split, every link is wired, and, when `same` is false, the connections are
resolved afterwards. No per-link delays or data rates are supplied. -/
def buildTopology (numberOfNodes numberOfRouters : Nat) (links bcConnections : String) :
    Except Failure Wiring :=
  let d := resolveDescriptions links bcConnections
  let linkSubStrings := stringSplit d.links ','
  let bcConnectionsVector := stringSplit d.bcConnections ','
  match wireLinks numberOfNodes numberOfRouters d.same linkSubStrings Wiring.init with
  | .error e => .error e
  | .ok w =>
    if d.same then .ok w
    else resolveConnections numberOfNodes bcConnectionsVector w

/-- The hosts at the other end of the edges that have `h` as an endpoint, one
entry per edge, in the order of the edges. -/
def partners (edges : List (Nat × Nat)) (h : Nat) : List Nat :=
  edges.filterMap (fun e => if e.1 = h then some e.2 else if e.2 = h then some e.1 else none)

/-! ## Predicates used to state the properties of the parsers -/

/-- The text starts with a decimal digit. -/
def digitFirst (text : List Char) : Bool :=
  match text with
  | c :: _ => c.isDigit
  | [] => false

/-- After leading white space and at most one sign the text starts with a
decimal digit. -/
def startsNumeral (text : List Char) : Bool :=
  match text.dropWhile isSpace with
  | '-' :: rest => digitFirst rest
  | '+' :: rest => digitFirst rest
  | rest => digitFirst rest

/-- Every address a node owns is mapped back to that node and was handed out
before `nextAddress`. -/
def OwnersRecorded (w : Wiring) : Prop :=
  ∀ v a, a ∈ w.nodeIps v → w.ipNodeNumberMap a = some v ∧ a < w.nextAddress

/-! ## The command line values and `main` (lines 219-1063) -/

/-- The variables `cmd.Parse` fills, with the defaults of lines 226-273. A
`double` is a rational number: the code only compares it with zero. -/
structure Config where
  numberOfNodes : Int := 2
  numberOfRouters : Int := 0
  links : String := ""
  bcConnections : String := ""
  topology : Int := 1
  minConnectionsPerNode : Int := -1
  delays : String := ""
  dataRates : String := ""
  nodeLongitudes : String := ""
  nodeLatitudes : String := ""
  nodeLocations : String := ""
  nodeIpAddresses : String := ""
  routerLongitudes : String := ""
  routerLatitudes : String := ""
  routerLocations : String := ""
  routerIpAddresses : String := ""
  protocol : String := "TCP"
  endTime : Int := 500
  getDataTimeout : Int := 30
  hashPowers : String := ""
  blockChainType : String := "bitcoin"
  compactBlocks : Int := 1
  numberTransactionsBlock : Int := 0
  blockSize : Int := 500
  blockReward : Rat := 100000
  averageBlockMineInterval : Rat := 20
  transactions : Int := 1
  transactionSize : Int := 100
  transactionFee : Rat := 25
  averageTransactionCreationInterval : Rat := 2
  testGetDataTimeoutAttacker : Int := -1
  testGetDataTimeoutVictim : Int := -1
  testForks : Int := 0
  testOrphanBlock : Int := 0
  testCompactBlockTransaction : Int := 0

/-- Why `main` stops before the simulation. The first three are `return 1`
paths. -/
inductive Stop where
  /-- A value outside its domain (lines 354-377, 529-601, 725-734). -/
  | config
  /-- The minimum number of connections is not allowed (lines 425-438), or a
  comma separated list has the wrong number of elements (lines 625-719). -/
  | constraint
  /-- A description is rejected, or reading it leaves the defined paths. -/
  | description (f : Failure)
  /-- The generator is still in its rejection loop when the draws run out. -/
  | generating
  deriving DecidableEq, Repr

/-- Lines 353-377: the protocol, the two counts and the topology number. The
result is the flag `TCP`. -/
def checkBasics (cfg : Config) : Except Stop Bool :=
  if cfg.protocol ≠ "TCP" ∧ cfg.protocol ≠ "tcp" ∧ cfg.protocol ≠ "UDP" ∧ cfg.protocol ≠ "udp" then
    .error .config
  else if cfg.numberOfNodes < 2 then .error .config
  else if cfg.numberOfRouters < 0 then .error .config
  else if cfg.topology > 9 ∨ cfg.topology < 1 then .error .config
  else .ok (decide (¬ (cfg.protocol = "UDP" ∨ cfg.protocol = "udp")))

/-- One provided topology: the four assignments of a branch of lines 381-421. -/
def Config.withTopology (cfg : Config) (numberOfNodes numberOfRouters : Int)
    (links bcConnections : String) : Config :=
  { cfg with
    numberOfNodes := numberOfNodes
    numberOfRouters := numberOfRouters
    links := links
    bcConnections := bcConnections }

/-- Lines 380-422: a topology number other than 1 replaces the counts and the
two descriptions. -/
def applyTopology (cfg : Config) : Config :=
  if cfg.topology = 2 then cfg.withTopology 2 1 "n0-r0,r0-n1" "n0-n1"
  else if cfg.topology = 3 then cfg.withTopology 2 3 "n0-r0,r0-r1,r1-n1,n0-r2,r2-n1" "n0-n1"
  else if cfg.topology = 4 then
    cfg.withTopology 5 1 "n0-r0,n1-r0,n2-r0,n3-r0,n4-r0" "n0-n1,n1-n2,n2-n3,n3-n4,n4-n0"
  else if cfg.topology = 5 then
    cfg.withTopology 8 3 "n0-r2,n1-r1,n2-r0,n3-r0,n4-r0,n5-r1,n6-r2,n7-r2,r0-r1,r1-r2"
      "n0-n6,n4-n5,n5-n1,n3-n5,n5-n6,n6-n2,n6-n7"
  else if cfg.topology = 6 then
    cfg.withTopology 13 0
      "n0-n4,n1-n5,n2-n6,n3-n4,n4-n5,n5-n6,n6-n7,n4-n8,n5-n9,n6-n10,n10-n11,n10-n12"
      "n0-n4,n1-n5,n2-n6,n3-n4,n4-n5,n5-n6,n6-n7,n4-n8,n5-n9,n6-n10,n10-n11,n10-n12"
  else if cfg.topology = 7 then
    cfg.withTopology 13 0
      "n0-n4,n1-n5,n2-n6,n3-n4,n4-n5,n5-n6,n6-n7,n4-n8,n5-n9,n6-n10,n10-n11,n10-n12,n9-n10,n8-n12"
      "n0-n4,n1-n5,n2-n6,n3-n4,n4-n5,n5-n6,n6-n7,n4-n8,n5-n9,n6-n10,n10-n11,n10-n12,n9-n10,n8-n12"
  else if cfg.topology = 8 then
    cfg.withTopology 21 0
      "n0-n4,n1-n5,n2-n6,n3-n4,n4-n5,n5-n6,n6-n7,n4-n8,n5-n9,n6-n10,n10-n11,n10-n12,n0-n1,n3-n13,n13-n14,n13-n8,n11-n15,n8-n16,n14-n16,n16-n15,n3-n17,n17-n18,n18-n19,n19-n14,n20-n0,n20-n16,n8-n12,n9-n10"
      "n0-n4,n1-n5,n2-n6,n3-n4,n4-n5,n5-n6,n6-n7,n4-n8,n5-n9,n6-n10,n10-n11,n10-n12,n0-n1,n3-n13,n13-n14,n13-n8,n11-n15,n8-n16,n14-n16,n16-n15,n3-n17,n17-n18,n18-n19,n19-n14,n20-n0,n20-n16,n8-n12,n9-n10"
  else if cfg.topology = 9 then
    cfg.withTopology 21 25
      "r0-r4,r1-r5,r2-r6,r3-r4,r4-r5,r5-r6,r6-r7,r4-r8,r5-r9,r6-r10,r10-r11,r10-r12,r3-r13,r14-r3,r3-r15,r12-r16,r12-r17,r9-r18,r9-r19,r8-r20,r8-r21,r22-r13,r23-r13,r13-r24,n0-n15,r24-n1,n2-r23,n3-r14,r22-n4,r21-n5,n6-r0,r23-n7,r9-n8,r18-n9,n10-r1,r16-n11,r20-n12,n13-r2,r11-n14,r17-n15,r22-n16,r7-n17,r2-n18,r24-n19,r16-n20"
      "n0-n4,n1-n5,n2-n6,n3-n4,n4-n5,n5-n6,n6-n7,n4-n8,n5-n9,n6-n10,n10-n11,n10-n12,n0-n1,n3-n13,n13-n14,n13-n8,n11-n15,n8-n16,n14-n16,n16-n15,n3-n17,n17-n18,n18-n19,n19-n14,n20-n0,n20-n16,n8-n12,n9-n10"
  else cfg

/-- Lines 425-438: the three tests on a supplied `minConnectionsPerNode`; true
when one of them stops the run. -/
def minConnectionsRejected (numberOfNodes minConnectionsPerNode : Int) : Bool :=
  if numberOfNodes ≠ 2 ∧ minConnectionsPerNode < 2 then true
  else if numberOfNodes = 2 ∧ minConnectionsPerNode < 1 then true
  else if minConnectionsPerNode ≥ numberOfNodes then true
  else false

/-- Lines 424-438. -/
def checkMinConnections (cfg : Config) : Except Stop Unit :=
  if cfg.minConnectionsPerNode > -1 then
    if minConnectionsRejected cfg.numberOfNodes cfg.minConnectionsPerNode then .error .constraint
    else .ok ()
  else .ok ()

/-- Lines 440-502: with a supplied `minConnectionsPerNode` the generator runs,
its text becomes `links` and `bcConnections`, and `numberOfRouters` becomes
zero. -/
def applyGenerator (cfg : Config) (draws : List Nat) : Except Stop Config :=
  if cfg.minConnectionsPerNode > -1 then
    let run := generate cfg.numberOfNodes.toNat cfg.minConnectionsPerNode.toNat draws
    if run.finished then
      .ok { cfg with
        links := run.state.links
        bcConnections := run.state.links
        numberOfRouters := 0 }
    else .error .generating
  else .ok cfg

/-- Lines 527-601: the attacker and victim numbers, the blockchain type and
the signs and sizes of the numeric values, in the order of the source. -/
def checkParameters (cfg : Config) : Except Stop Unit :=
  if ¬ (cfg.testGetDataTimeoutAttacker < 0 ∧ cfg.testGetDataTimeoutVictim < 0) ∧
      (cfg.testGetDataTimeoutAttacker < 0 ∨
        cfg.testGetDataTimeoutAttacker ≥ cfg.numberOfNodes) then .error .config
  else if ¬ (cfg.testGetDataTimeoutAttacker < 0 ∧ cfg.testGetDataTimeoutVictim < 0) ∧
      (cfg.testGetDataTimeoutVictim < 0 ∨
        cfg.testGetDataTimeoutVictim ≥ cfg.numberOfNodes) then .error .config
  else if ¬ (cfg.testGetDataTimeoutAttacker < 0 ∧ cfg.testGetDataTimeoutVictim < 0) ∧
      cfg.testGetDataTimeoutAttacker = cfg.testGetDataTimeoutVictim then .error .config
  else if cfg.blockChainType ≠ "bitcoin" then .error .config
  else if cfg.endTime ≤ 0 then .error .config
  else if cfg.numberTransactionsBlock < 0 then .error .config
  else if cfg.blockSize < 0 then .error .config
  else if cfg.transactionSize < 0 then .error .config
  else if cfg.transactionSize > cfg.blockSize then .error .config
  else if cfg.transactionFee < 0 then .error .config
  else if cfg.getDataTimeout ≤ 0 then .error .config
  else if cfg.averageBlockMineInterval ≤ 0 then .error .config
  else if cfg.averageTransactionCreationInterval ≤ 0 then .error .config
  else if cfg.blockReward ≤ 0 then .error .config
  else .ok ()

/-- One test of lines 625-708: a list that was given must have `expected`
elements. -/
def lengthMismatch (text : String) (expected : Int) : Bool :=
  decide (text.length > 0 ∧ ((stringSplit text ',').length : Int) ≠ expected)

/-- Lines 624-708: the lengths of the comma separated lists, and latitudes
given without longitudes or the reverse. -/
def checkVectors (cfg : Config) (numberOfLinks : Nat) : Except Stop Unit :=
  if lengthMismatch cfg.delays numberOfLinks then .error .constraint
  else if lengthMismatch cfg.dataRates numberOfLinks then .error .constraint
  else if lengthMismatch cfg.nodeLocations cfg.numberOfNodes then .error .constraint
  else if lengthMismatch cfg.nodeLatitudes cfg.numberOfNodes then .error .constraint
  else if lengthMismatch cfg.nodeLongitudes cfg.numberOfNodes then .error .constraint
  else if lengthMismatch cfg.routerLocations cfg.numberOfRouters then .error .constraint
  else if lengthMismatch cfg.routerLatitudes cfg.numberOfRouters then .error .constraint
  else if lengthMismatch cfg.routerLongitudes cfg.numberOfRouters then .error .constraint
  else if cfg.nodeLatitudes.length > 0 ∧ cfg.nodeLongitudes.length = 0 then .error .constraint
  else if cfg.nodeLongitudes.length > 0 ∧ cfg.nodeLatitudes.length = 0 then .error .constraint
  else if cfg.routerLatitudes.length > 0 ∧ cfg.routerLongitudes.length = 0 then
    .error .constraint
  else if cfg.routerLongitudes.length > 0 ∧ cfg.routerLatitudes.length = 0 then
    .error .constraint
  else if lengthMismatch cfg.nodeIpAddresses cfg.numberOfNodes then .error .constraint
  else if lengthMismatch cfg.routerIpAddresses cfg.numberOfRouters then .error .constraint
  else .ok ()

/-- The loop of lines 720-738 over the elements of `hashPowersVector`: each is
read with `stoi`, must not be negative, is appended to `hashPowersIntsVector`
and added to `totalHashPower`. -/
def readHashPowers : List String → List Int → Int → Except Stop (List Int × Int)
  | [], hashPowersIntsVector, totalHashPower => .ok (hashPowersIntsVector, totalHashPower)
  | text :: more, hashPowersIntsVector, totalHashPower =>
    match stoi text.data with
    | .error .invalidArgument => .error .config
    | .error .outOfRange => .error (.description .uncaughtException)
    | .ok power =>
      if power < 0 then .error .config
      else readHashPowers more (hashPowersIntsVector ++ [power]) (addInt32 totalHashPower power)

/-- Lines 713-746: the hash power of every node and their total; ten for each
node when none is given. -/
def hashPowersOf (cfg : Config) : Except Stop (List Int × Int) :=
  if cfg.hashPowers.length > 0 then
    if ((stringSplit cfg.hashPowers ',').length : Int) ≠ cfg.numberOfNodes then .error .constraint
    else readHashPowers (stringSplit cfg.hashPowers ',') [] 0
  else
    .ok ((List.range cfg.numberOfNodes.toNat).foldl
      (fun acc _ => (acc.1 ++ [10], addInt32 acc.2 10)) ([], 0))

/-- Lines 770-951 on the resolved descriptions: every link is wired and, when
`same` is false, the connections are resolved afterwards. -/
def wireTopology (numberOfNodes numberOfRouters : Nat) (d : Descriptions) :
    Except Failure Wiring :=
  match wireLinks numberOfNodes numberOfRouters d.same (stringSplit d.links ',') Wiring.init with
  | .error e => .error e
  | .ok w =>
    if d.same then .ok w
    else resolveConnections numberOfNodes (stringSplit d.bcConnections ',') w

/-- The arguments of one call of `installBCS` (lines 1014-1042), without the
node container and the port, which are the same in every call. -/
structure InstallCall where
  neighbourIps : List Nat
  ip : String
  nodeNumber : Nat
  ipNodeNumberMap : Nat → Option Nat
  tcp : Bool
  blockChainType : String
  numberOfNodes : Int
  hashPower : Int
  totalHashPower : Int
  simulateTransactions : Bool
  endTime : Int
  numberTransactionsBlock : Int
  blockSize : Int
  transactionSize : Int
  transactionFee : Rat
  useCompactBlocks : Bool
  testForks : Bool
  testOrphanBlock : Bool
  testCompactBlockTransaction : Bool
  getDataTimeout : Int
  averageBlockMineInterval : Rat
  averageTransactionCreationInterval : Rat
  blockReward : Rat
  testGetDataTimeoutVictim : Int
  testGetDataTimeout : Bool

/-- Lines 993-995: a victim that was not given becomes the number of nodes. -/
def victimOf (cfg : Config) : Int :=
  if cfg.testGetDataTimeoutVictim < 0 then cfg.numberOfNodes else cfg.testGetDataTimeoutVictim

/-- The body of the loop of lines 999-1044 for node `h`. -/
def installCall (cfg : Config) (tcp : Bool) (hashPowers : List Int × Int) (w : Wiring)
    (h : Nat) : InstallCall :=
  { neighbourIps := w.nodeConnections h
    ip := if cfg.nodeIpAddresses.length ≠ 0 then
        ((stringSplit cfg.nodeIpAddresses ',').get? h).getD "" else ""
    nodeNumber := h
    ipNodeNumberMap := w.ipNodeNumberMap
    tcp := tcp
    blockChainType := cfg.blockChainType
    numberOfNodes := cfg.numberOfNodes
    hashPower := (hashPowers.1.get? h).getD 0
    totalHashPower := hashPowers.2
    simulateTransactions := decide (cfg.transactions ≠ 0)
    endTime := cfg.endTime
    numberTransactionsBlock := cfg.numberTransactionsBlock
    blockSize := cfg.blockSize
    transactionSize := cfg.transactionSize
    transactionFee := cfg.transactionFee
    useCompactBlocks := decide (cfg.compactBlocks ≠ 0)
    testForks := decide (cfg.testForks ≠ 0)
    testOrphanBlock := decide (cfg.testOrphanBlock ≠ 0)
    testCompactBlockTransaction := decide (cfg.testCompactBlockTransaction ≠ 0)
    getDataTimeout := cfg.getDataTimeout
    averageBlockMineInterval := cfg.averageBlockMineInterval
    averageTransactionCreationInterval := cfg.averageTransactionCreationInterval
    blockReward := cfg.blockReward
    testGetDataTimeoutVictim := victimOf cfg
    testGetDataTimeout := decide (cfg.testGetDataTimeoutAttacker = (h : Int)) }

/-- What a run of `main` does: the calls of `installBCS` it makes, in order,
and how it ends (`ok` is the `return 0` of line 1063). -/
structure Run where
  installs : List InstallCall
  exit : Except Stop Unit

/-- A run that stops before any call of `installBCS`. -/
def Run.stopped (s : Stop) : Run :=
  { installs := [], exit := .error s }

/-- The function `main` from line 353 on. `draws` are the values `rand()`
returns. Each step is tried in the order of the source and the first that fails
ends the run; the loop of lines 998-1044 comes last. -/
def main (cfg : Config) (draws : List Nat) : Run :=
  match checkBasics cfg with
  | .error s => Run.stopped s
  | .ok tcp =>
    let cfg := applyTopology cfg
    match checkMinConnections cfg with
    | .error s => Run.stopped s
    | .ok _ =>
      match applyGenerator cfg draws with
      | .error s => Run.stopped s
      | .ok cfg =>
        let d := resolveDescriptions cfg.links cfg.bcConnections
        match checkParameters cfg with
        | .error s => Run.stopped s
        | .ok _ =>
          match checkVectors cfg (stringSplit d.links ',').length with
          | .error s => Run.stopped s
          | .ok _ =>
            match hashPowersOf cfg with
            | .error s => Run.stopped s
            | .ok hashPowers =>
              match wireTopology cfg.numberOfNodes.toNat cfg.numberOfRouters.toNat d with
              | .error f => Run.stopped (.description f)
              | .ok w =>
                { installs :=
                    (List.range cfg.numberOfNodes.toNat).map (installCall cfg tcp hashPowers w)
                  exit := .ok () }

/-! ## Predicates and functions used to state the properties of the wiring -/

/-- The text of one edge in a description: `n<a>-n<b>`. -/
def edgeText (e : Nat × Nat) : String :=
  "n" ++ toString e.1 ++ "-n" ++ toString e.2

/-- The edges of the ring over `n` hosts, in the order of the first loop. -/
def ringEdges (n : Nat) : List (Nat × Nat) :=
  (List.range (n - 1)).map (fun i => (i, i + 1)) ++ [(n - 1, 0)]

/-- The text of `links` is the texts of the emitted edges, one after the
other. -/
def LinksWritten (s : GenState) : Prop :=
  s.links = String.join (s.emitted.map (fun e => linkText e.1 e.2))

/-- The addresses the wiring loop gives to node `v` for a list of links, in
order, when the pool stands at `next`: the first endpoint of a link gets the
first of its two addresses, the second endpoint the second. -/
def ownedAddresses (next : Nat) : List (Nat × Nat) → Nat → List Nat
  | [], _ => []
  | e :: more, v =>
    (if e.1 = v then [next] else []) ++ (if e.2 = v then [next + 1] else []) ++
      ownedAddresses (next + 2) more v

/-- The address node `v` gets at its first occurrence in the list of links,
when the pool stands at `next`. -/
def primaryAddress (next : Nat) : List (Nat × Nat) → Nat → Option Nat
  | [], _ => none
  | e :: more, v =>
    if e.1 = v then some next
    else if e.2 = v then some (next + 1)
    else primaryAddress (next + 2) more v

/-- For node `v`, the address given to the other endpoint of each of its links,
in the order of the links, when the pool stands at `next`. -/
def partnerAddresses (next : Nat) : List (Nat × Nat) → Nat → List Nat
  | [], _ => []
  | e :: more, v =>
    (if e.1 = v then [next + 1] else []) ++ (if e.2 = v then [next] else []) ++
      partnerAddresses (next + 2) more v

/-- The values of `interface1` and `interface2` in each round of the wiring
loop (lines 881-882), one pair per link, in order. -/
def addressLog (same : Bool) : List (Nat × Nat) → Wiring → List (Nat × Nat)
  | [], _ => []
  | e :: more, w =>
    (w.nextAddress, w.nextAddress + 1) :: addressLog same more (wireLink same w e)

/-- The address of an endpoint of link number `j`: the first endpoint when
`second` is false, the second otherwise. -/
def addressOf (log : List (Nat × Nat)) (j : Nat) (second : Bool) : Option Nat :=
  (log.get? j).map (fun p => if second then p.2 else p.1)

/-- Every sub-token of every token of the description is of kind `n`. -/
def HostOnly (description : String) : Prop :=
  ∀ t ∈ stringSplit description ',', ∀ s ∈ stringSplit t '-', kindChar s = 'n'

/-! ## Predicates used to state the properties of the run -/

/-- One of the values tested at lines 552-601 is outside its domain: the
transaction is larger than the block, a size, the number of transactions of a
block or the fee is negative, or a time, a mean interval or the reward is not
positive. -/
def ParametersInvalid (cfg : Config) : Prop :=
  cfg.transactionSize > cfg.blockSize ∨ cfg.blockSize < 0 ∨ cfg.transactionSize < 0 ∨
  cfg.numberTransactionsBlock < 0 ∨ cfg.transactionFee < 0 ∨ cfg.endTime ≤ 0 ∨
  cfg.getDataTimeout ≤ 0 ∨ cfg.averageBlockMineInterval ≤ 0 ∨
  cfg.averageTransactionCreationInterval ≤ 0 ∨ cfg.blockReward ≤ 0

/-- The values tested at lines 552-601 are all inside their domains. -/
def ParametersValid (cfg : Config) : Prop :=
  0 ≤ cfg.transactionSize ∧ cfg.transactionSize ≤ cfg.blockSize ∧ 0 ≤ cfg.blockSize ∧
  0 ≤ cfg.numberTransactionsBlock ∧ 0 ≤ cfg.transactionFee ∧ 0 < cfg.endTime ∧
  0 < cfg.getDataTimeout ∧ 0 < cfg.averageBlockMineInterval ∧
  0 < cfg.averageTransactionCreationInterval ∧ 0 < cfg.blockReward

/-- Two configurations with the same values for everything that lines 380-502
leave alone: all but the two counts and the two descriptions. -/
def SameParameters (a b : Config) : Prop :=
  a.endTime = b.endTime ∧ a.numberTransactionsBlock = b.numberTransactionsBlock ∧
  a.blockSize = b.blockSize ∧ a.transactionSize = b.transactionSize ∧
  a.transactionFee = b.transactionFee ∧ a.getDataTimeout = b.getDataTimeout ∧
  a.averageBlockMineInterval = b.averageBlockMineInterval ∧
  a.averageTransactionCreationInterval = b.averageTransactionCreationInterval ∧
  a.blockReward = b.blockReward ∧ a.hashPowers = b.hashPowers ∧
  a.testGetDataTimeoutAttacker = b.testGetDataTimeoutAttacker ∧
  a.testGetDataTimeoutVictim = b.testGetDataTimeoutVictim ∧
  a.blockChainType = b.blockChainType

/-- Every endpoint of every overlay edge is an endpoint of some physical edge. -/
def Covered (physical overlay : List (Nat × Nat)) : Prop :=
  ∀ e ∈ overlay, (∃ p ∈ physical, p.1 = e.1 ∨ p.2 = e.1) ∧
    (∃ p ∈ physical, p.1 = e.2 ∨ p.2 = e.2)

instance (physical overlay : List (Nat × Nat)) : Decidable (Covered physical overlay) := by
  unfold Covered
  infer_instance

/-- Both descriptions pass their parser, the overlay edges are covered by the
physical ones, and the construction of the topology returns. -/
def wellFormed (numberOfNodes numberOfRouters : Nat) (links bcConnections : String) : Bool :=
  match parseAll (parseLink numberOfNodes numberOfRouters) (stringSplit links ','),
      parseAll (parseConnection numberOfNodes) (stringSplit bcConnections ','),
      buildTopology numberOfNodes numberOfRouters links bcConnections with
  | .ok physical, .ok overlay, .ok _ => decide (Covered physical overlay)
  | _, _, _ => false

/-- The provided topology with number `k`, on the default values. -/
def preset (k : Int) : Config := applyTopology { topology := k }

/-- A character that `stringSplit` never puts in a substring: the separator or
a white space character. -/
def delimiter (separator : Char) (c : Char) : Bool :=
  c = separator || isSpace c

/-- The maximal runs of characters of the string that are not delimiters, in
order: the pieces between delimiters, the empty pieces left out. This follows
the words of the statement, to be compared with `stringSplit`. -/
def maximalRuns (separator : Char) (str : String) : List String :=
  ((str.data.splitOnP (delimiter separator)).filter (fun run => !run.isEmpty)).map String.mk

/-- The string has no white space, no separator at either end and no two
separators in a row. -/
def Separated (separator : Char) (str : String) : Prop :=
  (∀ c ∈ str.data, isSpace c = false) ∧
  str.data.head? ≠ some separator ∧
  str.data.getLast? ≠ some separator ∧
  str.data.Chain' (fun a b => ¬ (a = separator ∧ b = separator))

/-- Every node has the next node of the ring among the keys of its entry of
`allLinks`. -/
def RingKeys (numberOfNodes : Nat) (s : GenState) : Prop :=
  ∀ i, i < numberOfNodes → (i + 1) % numberOfNodes ∈ s.allLinks i

/-- Both endpoints of every edge written so far are node numbers. -/
def EmittedBelow (numberOfNodes : Nat) (s : GenState) : Prop :=
  ∀ e ∈ s.emitted, e.1 < numberOfNodes ∧ e.2 < numberOfNodes

/-! ## Invariants of the generator -/

theorem mem_setKey (m : KeySet) (k x : Nat) : x ∈ setKey m k ↔ x ∈ m ∨ x = k := by
  unfold setKey
  split
  · constructor
    · intro h; exact Or.inl h
    · rintro (h | h)
      · exact h
      · subst h; assumption
  · simp

theorem length_setKey_new (m : KeySet) (k : Nat) (h : k ∉ m) :
    (setKey m k).length = m.length + 1 := by
  simp [setKey, h]

theorem length_setKey_le (m : KeySet) (k : Nat) : m.length ≤ (setKey m k).length := by
  unfold setKey
  split <;> simp

theorem addLink_allLinks (s : GenState) (a b h : Nat) (hab : a ≠ b) :
    (addLink s a b).allLinks h =
      if h = b then setKey (s.allLinks b) a
      else if h = a then setKey (s.allLinks a) b else s.allLinks h := by
  have hba : b ≠ a := fun e => hab e.symm
  simp only [addLink, setLink]
  by_cases h1 : h = b
  · simp [h1, hba]
  · simp [h1]

theorem addLink_emitted (s : GenState) (a b : Nat) :
    (addLink s a b).emitted = s.emitted ++ [(a, b)] := rfl

theorem degree_append_one (edges : List (Nat × Nat)) (a b h : Nat) :
    degree (edges ++ [(a, b)]) h = degree edges h + (if a = h ∨ b = h then 1 else 0) := by
  unfold degree
  rw [List.filter_append, List.length_append]
  by_cases c : a = h ∨ b = h
  · simp [List.filter, c]
  · simp [List.filter, c]

theorem GenInv.symm {s : GenState} (hs : GenInv s) (a b : Nat) (h : b ∈ s.allLinks a) :
    a ∈ s.allLinks b := by
  rw [hs.adj] at h ⊢
  exact h.symm

theorem genInv_init : GenInv GenState.init where
  adj := by intro a b; simp [GenState.init]
  deg := by intro h; simp [GenState.init, degree]
  noloop := by intro e he; simp [GenState.init] at he
  nodup := by simp [GenState.init]

theorem genInv_addLink {s : GenState} (hs : GenInv s) (a b : Nat) (hab : a ≠ b)
    (hnew : b ∉ s.allLinks a) : GenInv (addLink s a b) := by
  have hnew2 : a ∉ s.allLinks b := fun h => hnew (hs.symm b a h)
  have hE : (a, b) ∉ s.emitted ∧ (b, a) ∉ s.emitted := by
    have := (hs.adj a b).not.mp hnew
    push_neg at this
    exact this
  constructor
  · intro x y
    rw [addLink_allLinks s a b x hab, addLink_emitted]
    simp only [List.mem_append, List.mem_singleton, Prod.mk.injEq]
    by_cases h1 : x = b
    · subst h1
      rw [if_pos rfl, mem_setKey, hs.adj]
      constructor
      · rintro (h | h)
        · rcases h with h | h
          · exact Or.inl (Or.inl h)
          · exact Or.inr (Or.inl h)
        · exact Or.inr (Or.inr ⟨h, rfl⟩)
      · rintro ((h | ⟨h, h2⟩) | (h | ⟨h, _⟩))
        · exact Or.inl (Or.inl h)
        · exact absurd h.symm hab
        · exact Or.inl (Or.inr h)
        · exact Or.inr h
    · rw [if_neg h1]
      by_cases h2 : x = a
      · subst h2
        rw [if_pos rfl, mem_setKey, hs.adj]
        constructor
        · rintro (h | h)
          · rcases h with h | h
            · exact Or.inl (Or.inl h)
            · exact Or.inr (Or.inl h)
          · exact Or.inl (Or.inr ⟨rfl, h⟩)
        · rintro ((h | ⟨_, h⟩) | (h | ⟨_, h⟩))
          · exact Or.inl (Or.inl h)
          · exact Or.inr h
          · exact Or.inl (Or.inr h)
          · exact absurd h h1
      · rw [if_neg h2, hs.adj]
        constructor
        · rintro (h | h)
          · exact Or.inl (Or.inl h)
          · exact Or.inr (Or.inl h)
        · rintro ((h | ⟨h, _⟩) | (h | ⟨_, h⟩))
          · exact Or.inl h
          · exact absurd h h2
          · exact Or.inr h
          · exact absurd h h1
  · intro h
    rw [addLink_allLinks s a b h hab, addLink_emitted, degree_append_one, hs.deg]
    by_cases h1 : h = b
    · subst h1
      rw [if_pos rfl, length_setKey_new _ _ hnew2, if_pos (Or.inr rfl)]
    · rw [if_neg h1]
      by_cases h2 : h = a
      · subst h2
        rw [if_pos rfl, length_setKey_new _ _ hnew, if_pos (Or.inl rfl)]
      · rw [if_neg h2, if_neg]
        · rfl
        · rintro (e | e)
          · exact h2 e.symm
          · exact h1 e.symm
  · intro e he
    rw [addLink_emitted, List.mem_append, List.mem_singleton] at he
    rcases he with he | he
    · exact hs.noloop e he
    · subst he; exact hab
  · rw [addLink_emitted, List.pairwise_append]
    refine ⟨hs.nodup, List.pairwise_singleton _ _, ?_⟩
    intro e he f hf
    rw [List.mem_singleton] at hf
    subst hf
    constructor
    · intro e1; subst e1; exact hE.1 he
    · intro e1; subst e1; exact hE.2 he

theorem Extends.refl (s : GenState) : Extends s s :=
  ⟨fun _ _ h => h, fun _ => le_rfl⟩

theorem Extends.trans {s t u : GenState} (h1 : Extends s t) (h2 : Extends t u) :
    Extends s u :=
  ⟨fun h x hx => h2.1 h x (h1.1 h x hx), fun h => le_trans (h1.2 h) (h2.2 h)⟩

theorem setLink_mem (m : Nat → KeySet) (a b h x : Nat) (hx : x ∈ m h) :
    x ∈ setLink m a b h := by
  unfold setLink
  split
  · rename_i e; subst e; exact (mem_setKey _ _ _).mpr (Or.inl hx)
  · exact hx

theorem setLink_length (m : Nat → KeySet) (a b h : Nat) :
    (m h).length ≤ (setLink m a b h).length := by
  unfold setLink
  split
  · rename_i e; subst e; exact length_setKey_le _ _
  · exact le_rfl

theorem extends_addLink (s : GenState) (a b : Nat) : Extends s (addLink s a b) :=
  ⟨fun _ _ hx => setLink_mem _ _ _ _ _ (setLink_mem _ _ _ _ _ hx),
   fun h => le_trans (setLink_length _ a b h) (setLink_length _ b a h)⟩

theorem ring_rounds (n k : Nat) (hk : k + 1 ≤ n) :
    GenInv ((List.range k).foldl (ringStep n) GenState.init) ∧
    ((List.range k).foldl (ringStep n) GenState.init).allLinks = ringAdj k := by
  induction k with
  | zero =>
    refine ⟨genInv_init, ?_⟩
    funext h
    simp [GenState.init, ringAdj]
  | succ k ih =>
    obtain ⟨inv, hA⟩ := ih (by omega)
    rw [List.range_succ, List.foldl_append]
    simp only [List.foldl_cons, List.foldl_nil]
    generalize (List.range k).foldl (ringStep n) GenState.init = s at inv hA
    have hne : k ≠ n - 1 := by omega
    have hnot : k + 1 ∉ s.allLinks k := by
      rw [hA]; unfold ringAdj
      split_ifs <;> simp <;> omega
    have hstep : ringStep n s k = addLink s k (k + 1) := by
      unfold ringStep
      rw [if_neg hne, if_neg hnot]
    rw [hstep]
    refine ⟨genInv_addLink inv k (k + 1) (by omega) hnot, ?_⟩
    funext h
    rw [addLink_allLinks s k (k + 1) h (by omega), hA]
    unfold ringAdj setKey
    by_cases h1 : h = k + 1
    · subst h1; simp
    · rw [if_neg h1]
      by_cases h2 : h = k
      · subst h2
        by_cases h3 : h = 0
        · subst h3; simp
        · have : ¬ (h + 1 = h - 1) := by omega
          simp [h3, this]
      · rw [if_neg h2]
        by_cases h3 : k = 0
        · subst h3
          have : ¬ h < 1 := by omega
          simp [h2, h1, this]
        · have e1 : (h < k + 1) = (h < k) := by
            apply propext; constructor <;> intro <;> omega
          simp [h3, h2, h1, e1]

theorem ringLoop_eq (n : Nat) (hn : 1 ≤ n) :
    ringLoop n =
      ringStep n ((List.range (n - 1)).foldl (ringStep n) GenState.init) (n - 1) := by
  unfold ringLoop
  obtain ⟨m, rfl⟩ : ∃ m, n = m + 1 := ⟨n - 1, by omega⟩
  rw [List.range_succ, List.foldl_append]
  rfl

theorem ringStep_inv (n : Nat) (s : GenState) (i : Nat) (hs : GenInv s) (hn : 2 ≤ n) :
    GenInv (ringStep n s i) := by
  unfold ringStep
  split_ifs with h1 h2 h3
  · exact hs
  · exact genInv_addLink hs i 0 (by omega) h2
  · exact hs
  · exact genInv_addLink hs i (i + 1) (by omega) h3

theorem ringStep_extends (n : Nat) (s : GenState) (i : Nat) : Extends s (ringStep n s i) := by
  unfold ringStep
  split_ifs
  · exact Extends.refl s
  · exact extends_addLink s i 0
  · exact Extends.refl s
  · exact extends_addLink s i (i + 1)

theorem ringLoop_inv (n : Nat) (hn : 2 ≤ n) : GenInv (ringLoop n) := by
  rw [ringLoop_eq n (by omega)]
  exact ringStep_inv n _ (n - 1) (ring_rounds n (n - 1) (by omega)).1 hn

theorem ringLoop_succ_mem (n i : Nat) (hi : i + 1 < n) : i + 1 ∈ (ringLoop n).allLinks i := by
  rw [ringLoop_eq n (by omega)]
  apply (ringStep_extends n _ (n - 1)).1
  rw [(ring_rounds n (n - 1) (by omega)).2]
  unfold ringAdj
  have h0 : ¬ (n - 1 = 0) := by omega
  have h1 : i < n - 1 := by omega
  by_cases h2 : i = 0
  · simp [h0, h2]
  · simp [h0, h2, h1]

theorem ringLoop_length (n h : Nat) (hn : 3 ≤ n) (hh : h < n) :
    ((ringLoop n).allLinks h).length = 2 := by
  rw [ringLoop_eq n (by omega)]
  obtain ⟨-, hA⟩ := ring_rounds n (n - 1) (by omega)
  generalize (List.range (n - 1)).foldl (ringStep n) GenState.init = s at hA
  have hnot : 0 ∉ s.allLinks (n - 1) := by
    rw [hA]; unfold ringAdj
    split_ifs <;> simp <;> omega
  have hstep : ringStep n s (n - 1) = addLink s (n - 1) 0 := by
    unfold ringStep
    rw [if_pos rfl, if_neg hnot]
  rw [hstep, addLink_allLinks s (n - 1) 0 h (by omega), hA]
  unfold ringAdj setKey
  have h0 : ¬ (n - 1 = 0) := by omega
  by_cases h1 : h = 0
  · subst h1
    have : ¬ (n - 1 = 1) := by omega
    simp [h0, this]
  · by_cases h2 : h = n - 1
    · have : ¬ (0 = n - 1 - 1) := by omega
      simp [h0, h1, h2, this]
    · have : h < n - 1 := by omega
      simp [h0, h1, h2, this]

theorem drawNeighbour_spec (n i : Nat) (keys : KeySet) (draws : List Nat) (r : Nat)
    (rest : List Nat) (h : drawNeighbour n i keys draws = some (r, rest)) :
    r ≠ i ∧ r ≠ (i + 1) % n ∧ r ∉ keys := by
  induction draws with
  | nil => simp [drawNeighbour] at h
  | cons x more ih =>
    simp only [drawNeighbour] at h
    split at h
    · exact ih h
    · rename_i hc
      simp only [Option.some.injEq, Prod.mk.injEq] at h
      rw [← h.1]
      push_neg at hc
      exact hc

theorem connectLoop_spec (n d i : Nat) (fuel j : Nat) (keys : KeySet) (s : GenState)
    (draws : List Nat) (hs : GenInv s) (hkeys : keys = s.allLinks i) (hj : j = keys.length) :
    GenInv (connectLoop n d i fuel j keys s draws).1 ∧
    Extends s (connectLoop n d i fuel j keys s draws).1 ∧
    ((connectLoop n d i fuel j keys s draws).2.isSome →
      d ≤ ((connectLoop n d i fuel j keys s draws).1.allLinks i).length) := by
  induction fuel generalizing j keys s draws with
  | zero =>
    simp only [connectLoop]
    refine ⟨hs, Extends.refl s, ?_⟩
    split
    · simp
    · intro _; rw [← hkeys, ← hj]; omega
  | succ fuel ih =>
    simp only [connectLoop]
    split
    · split
      · exact ⟨hs, Extends.refl s, by simp⟩
      · rename_i r more hdraw
        obtain ⟨hri, -, hrk⟩ := drawNeighbour_spec n i keys draws r more hdraw
        have hnew : r ∉ s.allLinks i := by rw [← hkeys]; exact hrk
        have hinv := genInv_addLink hs i r (fun e => hri e.symm) hnew
        have hk2 : setKey keys r = (addLink s i r).allLinks i := by
          rw [addLink_allLinks s i r i (fun e => hri e.symm), if_neg (fun e => hri e.symm),
            if_pos rfl, hkeys]
        have hj2 : j + 1 = (setKey keys r).length := by
          rw [length_setKey_new _ _ hrk, hj]
        obtain ⟨a, b, c⟩ := ih (j + 1) (setKey keys r) (addLink s i r) more hinv hk2 hj2
        exact ⟨a, (extends_addLink s i r).trans b, c⟩
    · exact ⟨hs, Extends.refl s, fun _ => by rw [← hkeys, ← hj]; omega⟩

theorem connectNode_spec (n d i : Nat) (s : GenState) (draws : List Nat) (hs : GenInv s) :
    GenInv (connectNode n d i s draws).1 ∧ Extends s (connectNode n d i s draws).1 ∧
    ((connectNode n d i s draws).2.isSome → 2 < d →
      d ≤ ((connectNode n d i s draws).1.allLinks i).length) := by
  unfold connectNode
  split
  · obtain ⟨a, b, c⟩ := connectLoop_spec n d i (d - (s.allLinks i).length)
      (s.allLinks i).length (s.allLinks i) s draws hs rfl rfl
    exact ⟨a, b, fun h _ => c h⟩
  · rename_i hd
    exact ⟨hs, Extends.refl s, fun _ h2 => absurd h2 hd⟩

theorem connectAll_spec (n d : Nat) (nodes : List Nat) (s : GenState) (draws : List Nat)
    (hs : GenInv s) :
    GenInv (connectAll n d nodes s draws).1 ∧ Extends s (connectAll n d nodes s draws).1 ∧
    ((connectAll n d nodes s draws).2.isSome → 2 < d →
      ∀ i ∈ nodes, d ≤ ((connectAll n d nodes s draws).1.allLinks i).length) := by
  induction nodes generalizing s draws with
  | nil =>
    simp only [connectAll]
    exact ⟨hs, Extends.refl s, fun _ _ i hi => by simp at hi⟩
  | cons i more ih =>
    obtain ⟨a1, b1, c1⟩ := connectNode_spec n d i s draws hs
    simp only [connectAll]
    split
    · rename_i s1 hnode
      rw [hnode] at a1 b1
      exact ⟨a1, b1, by simp⟩
    · rename_i s1 r1 hnode
      rw [hnode] at a1 b1 c1
      obtain ⟨a2, b2, c2⟩ := ih s1 r1 a1
      refine ⟨a2, b1.trans b2, fun hfin hd x hx => ?_⟩
      rcases List.mem_cons.mp hx with e | hx
      · subst e
        exact le_trans (c1 rfl hd) (b2.2 x)
      · exact c2 hfin hd x hx

theorem connectAll_small (n d : Nat) (hd : d ≤ 2) (nodes : List Nat) (s : GenState)
    (draws : List Nat) : connectAll n d nodes s draws = (s, some draws) := by
  induction nodes with
  | nil => rfl
  | cons i more ih =>
    have : connectNode n d i s draws = (s, some draws) := by
      unfold connectNode
      rw [if_neg (by omega)]
    simp only [connectAll, this, ih]

/-- The table and the edges `generate` returns are those the second loop
reached; only the text of `links` is changed afterwards. -/
theorem generate_state (n d : Nat) (draws : List Nat) :
    (generate n d draws).state.allLinks =
        (connectAll n d (List.range n) (ringLoop n) draws).1.allLinks ∧
    (generate n d draws).state.emitted =
        (connectAll n d (List.range n) (ringLoop n) draws).1.emitted ∧
    (generate n d draws).finished =
        (connectAll n d (List.range n) (ringLoop n) draws).2.isSome := by
  unfold generate
  split
  · rename_i s h; rw [h]; exact ⟨rfl, rfl, rfl⟩
  · rename_i s r h; rw [h]; exact ⟨rfl, rfl, rfl⟩

theorem generate_inv (n d : Nat) (draws : List Nat) (hn : 2 ≤ n) :
    GenInv (generate n d draws).state ∧ Extends (ringLoop n) (generate n d draws).state ∧
      ((generate n d draws).finished = true → 2 < d →
        ∀ i, i < n → d ≤ ((generate n d draws).state.allLinks i).length) := by
  obtain ⟨hA, hE, hF⟩ := generate_state n d draws
  obtain ⟨a, b, c⟩ := connectAll_spec n d (List.range n) (ringLoop n) draws (ringLoop_inv n hn)
  refine ⟨⟨?_, ?_, ?_, ?_⟩, ⟨?_, ?_⟩, ?_⟩
  · intro x y; rw [hA, hE]; exact a.adj x y
  · intro x; rw [hA, hE]; exact a.deg x
  · rw [hE]; exact a.noloop
  · rw [hE]; exact a.nodup
  · rw [hA]; exact b.1
  · rw [hA]; exact b.2
  · intro hfin hd i hi
    rw [hA]
    exact c (by rw [← hF]; exact hfin) hd i (List.mem_range.mpr hi)

theorem generate_small (n d : Nat) (draws : List Nat) (hd : d ≤ 2) :
    (generate n d draws).state.allLinks = (ringLoop n).allLinks ∧
    (generate n d draws).state.emitted = (ringLoop n).emitted := by
  obtain ⟨hA, hE, -⟩ := generate_state n d draws
  rw [hA, hE, connectAll_small n d hd]
  exact ⟨rfl, rfl⟩

theorem linked_symm (n : Nat) (edges : List (Nat × Nat)) (a b : Nat)
    (h : Linked n edges a b) : Linked n edges b a :=
  ⟨h.2.1, h.1, h.2.2.symm⟩

theorem reach_from_zero (n : Nat) (edges : List (Nat × Nat))
    (hring : ∀ i, i + 1 < n → Linked n edges i (i + 1)) (k : Nat) (hk : k < n) :
    Relation.ReflTransGen (Linked n edges) 0 k := by
  induction k with
  | zero => exact Relation.ReflTransGen.refl
  | succ k ih => exact Relation.ReflTransGen.tail (ih (by omega)) (hring k hk)

theorem connected_of_ring (n : Nat) (edges : List (Nat × Nat))
    (hring : ∀ i, i + 1 < n → Linked n edges i (i + 1)) : Connected n edges := by
  intro a b ha hb
  have h1 := reach_from_zero n edges hring a ha
  have h2 := reach_from_zero n edges hring b hb
  have hsymm : Symmetric (Linked n edges) := fun x y h => linked_symm n edges x y h
  exact Relation.ReflTransGen.trans (Relation.ReflTransGen.symmetric hsymm h1) h2

/-- C1. Generator connectivity: for at least two hosts, a valid minimum degree
and any sequence of draws with which generation finishes, every two hosts are
joined by a path of generated edges. -/
theorem generator_connected (numberOfNodes minConnectionsPerNode : Nat) (draws : List Nat)
    (hn : 2 ≤ numberOfNodes)
    (_hd : validMinConnections numberOfNodes minConnectionsPerNode)
    (_hfin : (generate numberOfNodes minConnectionsPerNode draws).finished = true) :
    Connected numberOfNodes (generate numberOfNodes minConnectionsPerNode draws).state.emitted := by
  obtain ⟨inv, ext, -⟩ := generate_inv numberOfNodes minConnectionsPerNode draws hn
  apply connected_of_ring
  intro i hi
  refine ⟨by omega, hi, ?_⟩
  exact (inv.adj i (i + 1)).mp (ext.1 i (i + 1) (ringLoop_succ_mem numberOfNodes i hi))

theorem generator_connected_witness :
    (generate 4 3 [0, 1, 2, 3, 4, 5, 6, 7]).finished = true ∧
      Connected 4 (generate 4 3 [0, 1, 2, 3, 4, 5, 6, 7]).state.emitted :=
  ⟨by decide, generator_connected 4 3 [0, 1, 2, 3, 4, 5, 6, 7] (by decide)
    ⟨by decide, by decide, by decide⟩ (by decide)⟩

theorem degree_single (i : Nat) (hi : i < 2) : degree [(0, 1)] i = 1 := by
  interval_cases i <;> decide

/-- C2. Generator minimum degree: when generation finishes every host has at
least `minConnectionsPerNode` generated edges; with a minimum of two and more
than two hosts every host has exactly two; with two hosts there is a single
edge and each host has degree one. -/
theorem generator_min_degree (numberOfNodes minConnectionsPerNode : Nat) (draws : List Nat)
    (hn : 2 ≤ numberOfNodes)
    (hd : validMinConnections numberOfNodes minConnectionsPerNode)
    (hfin : (generate numberOfNodes minConnectionsPerNode draws).finished = true) :
    (∀ i, i < numberOfNodes →
      minConnectionsPerNode ≤
        degree (generate numberOfNodes minConnectionsPerNode draws).state.emitted i) ∧
    (minConnectionsPerNode = 2 → 2 < numberOfNodes → ∀ i, i < numberOfNodes →
      degree (generate numberOfNodes minConnectionsPerNode draws).state.emitted i = 2) ∧
    (numberOfNodes = 2 →
      (generate numberOfNodes minConnectionsPerNode draws).state.emitted.length = 1 ∧
      ∀ i, i < numberOfNodes →
        degree (generate numberOfNodes minConnectionsPerNode draws).state.emitted i = 1) := by
  obtain ⟨inv, -, big⟩ := generate_inv numberOfNodes minConnectionsPerNode draws hn
  obtain ⟨v1, v2, v3⟩ := hd
  have two : numberOfNodes = 2 →
      (generate numberOfNodes minConnectionsPerNode draws).state.emitted = [(0, 1)] := by
    intro e
    subst e
    exact (generate_small 2 minConnectionsPerNode draws (by omega)).2
  have ring : minConnectionsPerNode ≤ 2 → 2 < numberOfNodes → ∀ i, i < numberOfNodes →
      degree (generate numberOfNodes minConnectionsPerNode draws).state.emitted i = 2 := by
    intro hsmall h3 i hi
    rw [inv.deg, (generate_small numberOfNodes minConnectionsPerNode draws hsmall).1]
    exact ringLoop_length numberOfNodes i (by omega) hi
  refine ⟨?_, ?_, ?_⟩
  · intro i hi
    by_cases hbig : 2 < minConnectionsPerNode
    · rw [inv.deg]
      exact big hfin hbig i hi
    · by_cases h2 : numberOfNodes = 2
      · rw [two h2, degree_single i (by omega)]
        omega
      · rw [ring (by omega) (by omega) i hi]
        omega
  · intro e h3 i hi
    exact ring (by omega) h3 i hi
  · intro e
    rw [two e]
    exact ⟨rfl, fun i hi => degree_single i (by omega)⟩

theorem generator_min_degree_witness :
    (generate 4 3 [0, 1, 2, 3, 4, 5, 6, 7]).finished = true ∧
    (∀ i, i < 4 → 3 ≤ degree (generate 4 3 [0, 1, 2, 3, 4, 5, 6, 7]).state.emitted i) :=
  ⟨by decide, (generator_min_degree 4 3 [0, 1, 2, 3, 4, 5, 6, 7] (by decide)
    ⟨by decide, by decide, by decide⟩ (by decide)).1⟩

/-- C5. No generated edge joins a host to itself and no two generated edges
join the same pair of hosts, in either orientation; this holds for the edges
emitted with any sequence of draws, whether or not the run has finished. -/
theorem generator_simple (numberOfNodes minConnectionsPerNode : Nat) (draws : List Nat)
    (hn : 2 ≤ numberOfNodes)
    (_hd : validMinConnections numberOfNodes minConnectionsPerNode) :
    (∀ e ∈ (generate numberOfNodes minConnectionsPerNode draws).state.emitted, e.1 ≠ e.2) ∧
    (generate numberOfNodes minConnectionsPerNode draws).state.emitted.Pairwise
      (fun e f => e ≠ f ∧ e ≠ (f.2, f.1)) := by
  obtain ⟨inv, -, -⟩ := generate_inv numberOfNodes minConnectionsPerNode draws hn
  exact ⟨inv.noloop, inv.nodup⟩

theorem generator_simple_witness :
    (generate 5 3 [0, 1, 2, 3, 4, 5, 6, 7]).state.emitted.Pairwise
      (fun e f => e ≠ f ∧ e ≠ (f.2, f.1)) :=
  (generator_simple 5 3 [0, 1, 2, 3, 4, 5, 6, 7] (by decide)
    ⟨by decide, by decide, by decide⟩).2

/-! ## Characters and bytes -/

theorem toNat_ofNat_byte (k : Nat) (h : k < 256) : (Char.ofNat k).toNat = k := by
  have hv : k.isValidChar := Or.inl (by omega)
  unfold Char.ofNat
  rw [dif_pos hv]
  simp only [Char.ofNatAux, Char.toNat, UInt32.toNat]
  simp

theorem digit_ascii (c : Char) (h : c.isDigit = true) : c.toNat < 128 := by
  simp only [Char.isDigit, Bool.and_eq_true, decide_eq_true_eq] at h
  have h2 := h.2
  rw [UInt32.le_def] at h2
  have h3 : c.val.toBitVec.toNat ≤ (UInt32.toBitVec 57).toNat := BitVec.le_def.mp h2
  have h4 : (UInt32.toBitVec 57).toNat = 57 := rfl
  show c.val.toBitVec.toNat < 128
  omega

/-- A byte or character from 128 up is none of the characters `stoi` and the
parsers look for. -/
theorem high_char (c : Char) (h : 128 ≤ c.toNat) :
    isSpace c = false ∧ c.isDigit = false ∧ c ≠ '-' ∧ c ≠ '+' ∧ c ≠ 'n' ∧ c ≠ 'r' := by
  have hne : ∀ a : Char, a.toNat < 128 → c ≠ a := by
    intro a ha e
    rw [e] at h
    omega
  refine ⟨?_, ?_, hne _ (by decide), hne _ (by decide), hne _ (by decide), hne _ (by decide)⟩
  · simp only [isSpace, Bool.or_eq_false_iff, decide_eq_false_iff_not]
    exact ⟨⟨⟨⟨⟨hne _ (by decide), hne _ (by decide)⟩, hne _ (by decide)⟩, hne _ (by decide)⟩,
      hne _ (by decide)⟩, hne _ (by decide)⟩
  · cases hd : c.isDigit with
    | false => rfl
    | true =>
      have := digit_ascii c hd
      omega

theorem charBytes_ascii (c : Char) (h : c.toNat < 128) : charBytes c = [c] := by
  simp only [charBytes, h, if_true]

theorem charBytes_high (c : Char) (h : 128 ≤ c.toNat) :
    ∃ b b1 more, charBytes c = b :: b1 :: more ∧ 128 ≤ b.toNat ∧ 128 ≤ b1.toNat := by
  have h0 : ¬ c.toNat < 128 := by omega
  simp only [charBytes, h0, if_false]
  split_ifs
  all_goals
    refine ⟨_, _, _, rfl, ?_, ?_⟩ <;>
    · rw [toNat_ofNat_byte _ (by omega)]
      omega

/-- The first byte of a character: the character itself when it is ASCII, a
byte from 128 up otherwise. -/
theorem charBytes_head (c : Char) :
    ∃ b more, charBytes c = b :: more ∧ (c.toNat < 128 → b = c ∧ more = []) ∧
      (128 ≤ c.toNat → 128 ≤ b.toNat) := by
  by_cases h : c.toNat < 128
  · exact ⟨c, [], charBytes_ascii c h, fun _ => ⟨rfl, rfl⟩, fun h2 => by omega⟩
  · obtain ⟨b, b1, more, e, hb, -⟩ := charBytes_high c (by omega)
    exact ⟨b, b1 :: more, e, fun h2 => absurd h2 h, fun _ => hb⟩

theorem space_ascii (c : Char) (h : isSpace c = true) : c.toNat < 128 := by
  by_contra hc
  rw [(high_char c (by omega)).1] at h
  cases h

theorem dropWhile_bytes (l : List Char) :
    (l.flatMap charBytes).dropWhile isSpace = (l.dropWhile isSpace).flatMap charBytes := by
  induction l with
  | nil => rfl
  | cons c rest ih =>
    rw [List.flatMap_cons]
    by_cases hs : isSpace c = true
    · rw [charBytes_ascii c (space_ascii c hs)]
      simp only [List.singleton_append, List.dropWhile, hs]
      exact ih
    · have hs2 : isSpace c = false := by simpa using hs
      obtain ⟨b, more, e, h1, h2⟩ := charBytes_head c
      have hb : isSpace b = false := by
        by_cases hc : c.toNat < 128
        · rw [(h1 hc).1]; exact hs2
        · exact (high_char b (h2 (by omega))).1
      rw [e]
      simp only [List.cons_append, List.dropWhile, hb, hs2]
      rw [List.flatMap_cons, e]
      rfl

theorem takeWhile_bytes (l : List Char) :
    (l.flatMap charBytes).takeWhile Char.isDigit = l.takeWhile Char.isDigit := by
  induction l with
  | nil => rfl
  | cons c rest ih =>
    rw [List.flatMap_cons]
    by_cases hd : c.isDigit = true
    · rw [charBytes_ascii c (digit_ascii c hd)]
      simp only [List.singleton_append, List.takeWhile, hd]
      exact congrArg (List.cons c) ih
    · have hd2 : c.isDigit = false := by simpa using hd
      obtain ⟨b, more, e, h1, h2⟩ := charBytes_head c
      have hb : b.isDigit = false := by
        by_cases hc : c.toNat < 128
        · rw [(h1 hc).1]; exact hd2
        · exact (high_char b (h2 (by omega))).2.1
      rw [e]
      simp only [List.cons_append, List.takeWhile, hb, hd2]

theorem stoiDigits_bytes (negative : Bool) (l : List Char) :
    stoiDigits negative (l.flatMap charBytes) = stoiDigits negative l := by
  unfold stoiDigits
  rw [takeWhile_bytes]

theorem stoi_head (c : Char) (t : List Char) (hs : isSpace c = false) (hm : c ≠ '-')
    (hp : c ≠ '+') : stoi (c :: t) = stoiDigits false (c :: t) := by
  unfold stoi
  simp only [List.dropWhile, hs]
  split
  · rename_i h; simp only [List.cons.injEq] at h; exact absurd h.1 hm
  · rename_i h; simp only [List.cons.injEq] at h; exact absurd h.1 hp
  · rfl

theorem dropWhile_head (l : List Char) (c : Char) (rest : List Char)
    (h : l.dropWhile isSpace = c :: rest) : isSpace c = false := by
  induction l with
  | nil => cases h
  | cons x more ih =>
    by_cases hx : isSpace x = true
    · simp only [List.dropWhile, hx] at h
      exact ih h
    · have hx2 : isSpace x = false := by simpa using hx
      simp only [List.dropWhile, hx2, List.cons.injEq] at h
      rw [← h.1]
      exact hx2

theorem stoi_dropWhile (l : List Char) : stoi (l.dropWhile isSpace) = stoi l := by
  have e : (l.dropWhile isSpace).dropWhile isSpace = l.dropWhile isSpace := by
    cases hl : l.dropWhile isSpace with
    | nil => rfl
    | cons c rest =>
      simp only [List.dropWhile, dropWhile_head l c rest hl]
  unfold stoi
  rw [e]

/-- Reading a number from the start of a text gives the same result on the
text and on its bytes. -/
theorem stoi_bytes (l : List Char) : stoi (l.flatMap charBytes) = stoi l := by
  rw [← stoi_dropWhile (l.flatMap charBytes), ← stoi_dropWhile l, dropWhile_bytes]
  cases hl : l.dropWhile isSpace with
  | nil => rfl
  | cons c rest =>
    have hs : isSpace c = false := dropWhile_head l c rest hl
    rw [List.flatMap_cons]
    by_cases hm : c = '-'
    · subst hm
      have e : charBytes '-' = ['-'] := charBytes_ascii _ (by decide)
      rw [e]
      have k : ∀ t : List Char, stoi ('-' :: t) = stoiDigits true t := by
        intro t
        unfold stoi
        simp only [List.dropWhile, hs]
      rw [List.singleton_append, k, k, stoiDigits_bytes]
    · by_cases hp : c = '+'
      · subst hp
        have e : charBytes '+' = ['+'] := charBytes_ascii _ (by decide)
        rw [e]
        have k : ∀ t : List Char, stoi ('+' :: t) = stoiDigits false t := by
          intro t
          unfold stoi
          simp only [List.dropWhile, hs]
        rw [List.singleton_append, k, k, stoiDigits_bytes]
      · obtain ⟨b, more, e, h1, h2⟩ := charBytes_head c
        have hb : isSpace b = false ∧ b ≠ '-' ∧ b ≠ '+' := by
          by_cases hc : c.toNat < 128
          · rw [(h1 hc).1]; exact ⟨hs, hm, hp⟩
          · have := high_char b (h2 (by omega))
            exact ⟨this.1, this.2.2.1, this.2.2.2.1⟩
        rw [stoi_head c rest hs hm hp, e, List.cons_append,
          stoi_head b _ hb.1 hb.2.1 hb.2.2, ← List.cons_append, ← e, ← List.flatMap_cons,
          stoiDigits_bytes]

theorem bytes_mk (c : Char) (text : List Char) :
    bytes (String.mk (c :: text)) = charBytes c ++ text.flatMap charBytes := rfl

/-- After a byte from 128 up no number can be read. -/
theorem stoi_high (b : Char) (t : List Char) (h : 128 ≤ b.toNat) :
    stoi (b :: t) = .error .invalidArgument := by
  obtain ⟨hs, hd, hm, hp, -, -⟩ := high_char b h
  rw [stoi_head b t hs hm hp]
  simp only [stoiDigits, List.takeWhile, hd, if_true]

/-! ## The parsers -/

theorem takeWhile_digits_append (digits tail : List Char)
    (hd : ∀ c ∈ digits, c.isDigit = true) (ht : digitFirst tail = false) :
    (digits ++ tail).takeWhile Char.isDigit = digits := by
  induction digits with
  | nil =>
    cases tail with
    | nil => rfl
    | cons c rest =>
      simp only [digitFirst] at ht
      simp [List.takeWhile, ht]
  | cons c rest ih =>
    have hc : c.isDigit = true := hd c (List.mem_cons_self _ _)
    rw [List.cons_append, List.takeWhile_cons, hc, if_pos rfl,
      ih (fun x hx => hd x (List.mem_cons_of_mem _ hx))]

theorem takeWhile_digits_self (digits : List Char) (hd : ∀ c ∈ digits, c.isDigit = true) :
    digits.takeWhile Char.isDigit = digits := by
  have := takeWhile_digits_append digits [] hd rfl
  rwa [List.append_nil] at this

theorem stoiDigits_append (negative : Bool) (digits tail : List Char)
    (hd : ∀ c ∈ digits, c.isDigit = true) (ht : digitFirst tail = false) :
    stoiDigits negative (digits ++ tail) = stoiDigits negative digits := by
  unfold stoiDigits
  rw [takeWhile_digits_append digits tail hd ht, takeWhile_digits_self digits hd]

theorem takeWhile_nil_iff (text : List Char) :
    text.takeWhile Char.isDigit = [] ↔ digitFirst text = false := by
  cases text with
  | nil => simp [digitFirst]
  | cons c rest =>
    by_cases hc : c.isDigit = true
    · simp [List.takeWhile, digitFirst, hc]
    · simp [List.takeWhile, digitFirst, hc]

theorem stoiDigits_invalid_iff (negative : Bool) (text : List Char) :
    stoiDigits negative text = .error .invalidArgument ↔ digitFirst text = false := by
  unfold stoiDigits
  rw [← takeWhile_nil_iff]
  by_cases h : text.takeWhile Char.isDigit = []
  · simp [h]
  · simp only [h, if_false, iff_false]
    split_ifs <;> simp

theorem stoi_invalid_iff (text : List Char) :
    stoi text = .error .invalidArgument ↔ startsNumeral text = false := by
  unfold stoi startsNumeral
  split <;> simp only [stoiDigits_invalid_iff]

theorem digit_not_space (c : Char) (h : c.isDigit = true) : isSpace c = false := by
  simp only [isSpace, Bool.or_eq_false_iff, decide_eq_false_iff_not]
  refine ⟨⟨⟨⟨⟨?_, ?_⟩, ?_⟩, ?_⟩, ?_⟩, ?_⟩ <;>
  · intro hc
    rw [hc] at h
    exact absurd h (by decide)

theorem stoi_digits_append (digits tail : List Char) (hne : digits ≠ [])
    (hd : ∀ c ∈ digits, c.isDigit = true) (ht : digitFirst tail = false) :
    stoi (digits ++ tail) = stoi digits ∧ stoi ('+' :: (digits ++ tail)) = stoi digits := by
  obtain ⟨c, rest, rfl⟩ := List.exists_cons_of_ne_nil hne
  have hc : c.isDigit = true := hd c (List.mem_cons_self _ _)
  have hs : isSpace c = false := digit_not_space c hc
  have hminus : c ≠ '-' := by
    intro e; rw [e] at hc; exact absurd hc (by decide)
  have hplus : c ≠ '+' := by
    intro e; rw [e] at hc; exact absurd hc (by decide)
  have key : ∀ t : List Char, stoi (c :: t) = stoiDigits false (c :: t) := by
    intro t
    unfold stoi
    simp only [List.dropWhile, hs]
    split
    · rename_i h; simp only [List.cons.injEq] at h; exact absurd h.1 hminus
    · rename_i h; simp only [List.cons.injEq] at h; exact absurd h.1 hplus
    · rfl
  constructor
  · rw [List.cons_append, key, key, ← List.cons_append, stoiDigits_append false _ _ hd ht]
  · have : stoi ('+' :: (c :: rest ++ tail)) = stoiDigits false (c :: rest ++ tail) := by
      unfold stoi
      have : isSpace '+' = false := by decide
      simp only [List.dropWhile, this]
    rw [this, key, stoiDigits_append false _ _ hd ht]

theorem stoi_bounds (text : List Char) (i : Int) (h : stoi text = .ok i) :
    intMin ≤ i ∧ i ≤ intMax := by
  have key : ∀ (neg : Bool) (t : List Char), stoiDigits neg t = .ok i → intMin ≤ i ∧ i ≤ intMax := by
    intro neg t ht
    unfold stoiDigits at ht
    by_cases h1 : List.takeWhile Char.isDigit t = []
    · simp [h1] at ht
    · simp only [h1, if_false] at ht
      generalize (if neg = true then -(digitsValue (List.takeWhile Char.isDigit t) : Int)
        else (digitsValue (List.takeWhile Char.isDigit t) : Int)) = v at ht
      by_cases hb : v < intMin ∨ intMax < v
      · simp [hb] at ht
      · simp only [hb, if_false, Except.ok.injEq] at ht
        rw [← ht]
        push_neg at hb
        exact hb
  unfold stoi at h
  split at h <;> exact key _ _ h

theorem readIndex_mk (kind : Char) (text : List Char) (hk : kind.toNat < 128) :
    readIndex (String.mk (kind :: text)) =
      match stoi text with
      | .error .invalidArgument => .error .nonNumeric
      | .error .outOfRange => .error .uncaughtException
      | .ok value => .ok value := by
  unfold readIndex
  rw [bytes_mk, charBytes_ascii kind hk]
  simp only [List.singleton_append, stoi_bytes]

theorem kindChar_mk (kind : Char) (text : List Char) (hk : kind.toNat < 128) :
    kindChar (String.mk (kind :: text)) = kind := by
  unfold kindChar
  rw [bytes_mk, charBytes_ascii kind hk]
  rfl

/-- A sub-token that starts with a character outside ASCII: the text after its
first byte starts with a continuation byte, where `stoi` reads no number. -/
theorem readIndex_high (kind : Char) (text : List Char) (hk : 128 ≤ kind.toNat) :
    readIndex (String.mk (kind :: text)) = .error .nonNumeric := by
  obtain ⟨b, b1, more, e, -, h1⟩ := charBytes_high kind hk
  unfold readIndex
  rw [bytes_mk, e]
  simp only [List.cons_append, stoi_high b1 _ h1]

theorem readIndex_nonNumeric_iff (kind : Char) (text : List Char) (hk : kind.toNat < 128) :
    readIndex (String.mk (kind :: text)) = .error .nonNumeric ↔ startsNumeral text = false := by
  rw [readIndex_mk kind text hk, ← stoi_invalid_iff]
  split
  · rename_i h; simp [h]
  · rename_i h; simp [h]
  · rename_i h; simp [h]

theorem readIndex_bounds (sub : String) (i : Int) (h : readIndex sub = .ok i) :
    intMin ≤ i ∧ i ≤ intMax := by
  unfold readIndex at h
  split at h
  · simp at h
  · split at h
    · simp at h
    · simp at h
    · rename_i v hv
      simp only [Except.ok.injEq] at h
      rw [← h]
      exact stoi_bounds _ v hv

theorem linkEndpoint_nonNumeric_iff (nH nR : Nat) (sub : String) :
    linkEndpoint nH nR sub = .error .nonNumeric ↔ readIndex sub = .error .nonNumeric := by
  unfold linkEndpoint
  split
  · rename_i e he; simp [he]
  · rename_i v hv
    simp only [hv]
    split_ifs <;> simp

theorem connectionEndpoint_nonNumeric_iff (nH : Nat) (sub : String) :
    connectionEndpoint nH sub = .error .nonNumeric ↔ readIndex sub = .error .nonNumeric := by
  unfold connectionEndpoint
  split
  · rename_i e he; simp [he]
  · rename_i v hv
    simp only [hv]
    split_ifs <;> simp

/-! ## Decimal numerals written by `std::to_string` and read by `std::stoi` -/

theorem digitChar_spec (k : Nat) (hk : k < 10) :
    (Nat.digitChar k).isDigit = true ∧ (Nat.digitChar k).toNat - 48 = k := by
  interval_cases k <;> decide

theorem digitsValue_snoc (xs : List Char) (c : Char) :
    digitsValue (xs ++ [c]) = 10 * digitsValue xs + (c.toNat - 48) := by
  unfold digitsValue
  rw [List.foldl_append]
  rfl

theorem toDigitsCore_spec (fuel n : Nat) (ds : List Char) (h : n < fuel) :
    ∃ xs, Nat.toDigitsCore 10 fuel n ds = xs ++ ds ∧ xs ≠ [] ∧
      (∀ c ∈ xs, c.isDigit = true) ∧ digitsValue xs = n := by
  induction fuel generalizing n ds with
  | zero => omega
  | succ fuel ih =>
    obtain ⟨hd, hv⟩ := digitChar_spec (n % 10) (Nat.mod_lt _ (by decide))
    rw [Nat.toDigitsCore.eq_2]
    by_cases h0 : n / 10 = 0
    · rw [if_pos h0]
      refine ⟨[Nat.digitChar (n % 10)], rfl, by simp, ?_, ?_⟩
      · intro c hc
        rw [List.mem_singleton] at hc
        rw [hc]; exact hd
      · have := digitsValue_snoc [] (Nat.digitChar (n % 10))
        rw [List.nil_append] at this
        rw [this, hv]
        simp only [digitsValue, List.foldl_nil]
        omega
    · rw [if_neg h0]
      obtain ⟨xs, e, -, hall, hval⟩ := ih (n / 10) (Nat.digitChar (n % 10) :: ds) (by omega)
      refine ⟨xs ++ [Nat.digitChar (n % 10)], ?_, by simp, ?_, ?_⟩
      · rw [e, List.append_assoc]; rfl
      · intro c hc
        rcases List.mem_append.mp hc with hc | hc
        · exact hall c hc
        · rw [List.mem_singleton] at hc
          rw [hc]; exact hd
      · rw [digitsValue_snoc, hval, hv]
        omega

theorem toString_digits (n : Nat) :
    (toString n).data ≠ [] ∧ (∀ c ∈ (toString n).data, c.isDigit = true) ∧
      digitsValue (toString n).data = n := by
  obtain ⟨xs, e, hne, hall, hval⟩ := toDigitsCore_spec (n + 1) n [] (by omega)
  have : (toString n).data = xs := by
    rw [List.append_nil] at e
    exact e
  rw [this]
  exact ⟨hne, hall, hval⟩

theorem stoi_digit_head (c : Char) (t : List Char) (hc : c.isDigit = true) :
    stoi (c :: t) = stoiDigits false (c :: t) := by
  have hs : isSpace c = false := digit_not_space c hc
  have hminus : c ≠ '-' := by
    intro e; rw [e] at hc; exact absurd hc (by decide)
  have hplus : c ≠ '+' := by
    intro e; rw [e] at hc; exact absurd hc (by decide)
  unfold stoi
  simp only [List.dropWhile, hs]
  split
  · rename_i h; simp only [List.cons.injEq] at h; exact absurd h.1 hminus
  · rename_i h; simp only [List.cons.injEq] at h; exact absurd h.1 hplus
  · rfl

theorem stoi_toString (i : Nat) (h : (i : Int) ≤ intMax) :
    stoi (toString i).data = .ok (i : Int) := by
  obtain ⟨hne, hall, hval⟩ := toString_digits i
  generalize (toString i).data = ds at hne hall hval
  obtain ⟨c, rest, rfl⟩ := List.exists_cons_of_ne_nil hne
  rw [stoi_digit_head c rest (hall c (List.mem_cons_self _ _))]
  unfold stoiDigits
  rw [takeWhile_digits_self _ hall]
  have h1 : ¬ ((i : Int) < intMin ∨ intMax < (i : Int)) := by
    simp only [intMin, intMax] at h ⊢
    omega
  simp only [hval, List.cons_ne_nil, if_false, Bool.false_eq_true, h1]

theorem readIndex_numeral (kind : String) (c : Char) (hk : kind.data = [c])
    (hc : c.toNat < 128) (i : Nat) (h : (i : Int) ≤ intMax) :
    readIndex (kind ++ toString i) = .ok (i : Int) ∧ kindChar (kind ++ toString i) = c := by
  have e : kind ++ toString i = String.mk (c :: (toString i).data) := by
    apply String.ext
    rw [String.data_append, hk]
    rfl
  rw [e, readIndex_mk c _ hc, kindChar_mk c _ hc]
  simp only [stoi_toString i h]
  trivial

theorem parseToken_ok_iff (body : String → Except Failure Nat) (token : String) (a b : Nat) :
    parseToken body token = .ok (a, b) ↔
      ∃ s0 s1, stringSplit token '-' = [s0, s1] ∧ body s0 = .ok a ∧ body s1 = .ok b ∧ a ≠ b := by
  unfold parseToken
  generalize stringSplit token '-' = nodesVector
  match nodesVector with
  | [] => simp [endpointAt]
  | [s0] =>
    simp only [endpointAt, List.length_singleton, List.get?]
    cases body s0 <;> simp
  | [s0, s1] =>
    have hlen : ¬ ([s0, s1].length > 2) := by simp
    simp only [hlen, if_false, endpointAt, List.get?]
    constructor
    · intro h
      refine ⟨s0, s1, rfl, ?_⟩
      cases h0 : body s0 with
      | error e => rw [h0] at h; simp at h
      | ok v0 =>
        cases h1 : body s1 with
        | error e => rw [h0, h1] at h; simp at h
        | ok v1 =>
          rw [h0, h1] at h
          simp only at h
          split_ifs at h with hv
          simp only [Except.ok.injEq, Prod.mk.injEq] at h
          obtain ⟨rfl, rfl⟩ := h
          exact ⟨rfl, rfl, hv⟩
    · rintro ⟨t0, t1, ht, ha, hb, hab⟩
      simp only [List.cons.injEq, and_true] at ht
      obtain ⟨rfl, rfl⟩ := ht
      rw [ha, hb]
      simp [hab]
  | s0 :: s1 :: s2 :: more =>
    simp

theorem parseToken_selfLoop (body : String → Except Failure Nat) (token s0 s1 : String)
    (v : Nat) (hsplit : stringSplit token '-' = [s0, s1]) (h0 : body s0 = .ok v)
    (h1 : body s1 = .ok v) : parseToken body token = .error .selfLoop := by
  unfold parseToken
  rw [hsplit]
  simp [endpointAt, List.get?, h0, h1]

theorem linkEndpoint_host (nH nR : Nat) (sub : String) (i : Int) (hi : readIndex sub = .ok i)
    (hk : kindChar sub = 'n') :
    linkEndpoint nH nR sub = if 0 ≤ i ∧ i < nH then .ok i.toNat else .error .range := by
  unfold linkEndpoint
  simp only [hi, hk, if_true]
  by_cases h : 0 ≤ i ∧ i < nH
  · rw [if_pos h, if_neg (by omega)]
  · rw [if_neg h, if_pos (by omega)]

theorem linkEndpoint_router (nH nR : Nat) (hsum : (nH : Int) + nR ≤ intMax) (sub : String)
    (i : Int) (hi : readIndex sub = .ok i) (hk : kindChar sub = 'r') :
    linkEndpoint nH nR sub = if 0 ≤ i ∧ i < nR then .ok (nH + i.toNat) else .error .range := by
  obtain ⟨lo, hi2⟩ := readIndex_bounds sub i hi
  unfold intMin at lo
  unfold intMax at hi2 hsum
  unfold linkEndpoint
  have hn : ¬ (('r' : Char) = 'n') := by decide
  simp only [hi, hk, hn, if_true, if_false]
  unfold addInt32
  by_cases h : 0 ≤ i ∧ i < nR
  · rw [if_pos h, if_neg (by omega)]
    congr 1
    omega
  · rw [if_neg h, if_pos (by omega)]

/-- C7, the code at a token with a single sub-token: the size check of lines
798 and 911 only rejects more than two sub-tokens, so for `"n0"` the loop reads
`nodesVector[1]`, which does not exist, instead of reporting a format error;
for `"-"` there is no sub-token at all and `nodesVector[0]` is read. A token
with three sub-tokens is rejected with the format error. -/
theorem single_subtoken_read_past_end :
    parseLink 2 0 "n0" = .error .undefinedRead ∧
    parseConnection 2 "n0" = .error .undefinedRead ∧
    parseLink 2 0 "-" = .error .undefinedRead ∧
    parseLink 3 0 "n0-n1-n2" = .error .format ∧
    parseConnection 3 "n0-n1-n2" = .error .format := by
  decide

/-- C8 fails as stated: the sub-tokens `n1x` and `n+1` are accepted and read
as host 1, although `1x` and `+1` are not decimal numerals. -/
theorem trailing_text_accepted :
    parseLink 2 0 "n1x-n0" = .ok (1, 0) ∧ parseLink 2 0 "n+1-n0" = .ok (1, 0) ∧
    parseConnection 2 "n1x-n0" = .ok (1, 0) ∧ parseConnection 2 "n+1-n0" = .ok (1, 0) := by
  decide

theorem linkEndpoint_error (nH nR : Nat) (sub : String) (e : Failure)
    (h : readIndex sub = .error e) : linkEndpoint nH nR sub = .error e := by
  unfold linkEndpoint
  rw [h]

theorem connectionEndpoint_error (nH : Nat) (sub : String) (e : Failure)
    (h : readIndex sub = .error e) : connectionEndpoint nH sub = .error e := by
  unfold connectionEndpoint
  rw [h]

theorem endpoint_trailing (nH nR : Nat) (kind : Char) (digits tail : List Char)
    (hne : digits ≠ []) (hd : ∀ c ∈ digits, c.isDigit = true) (ht : digitFirst tail = false) :
    linkEndpoint nH nR (String.mk (kind :: (digits ++ tail)))
        = linkEndpoint nH nR (String.mk (kind :: digits)) ∧
    linkEndpoint nH nR (String.mk (kind :: '+' :: (digits ++ tail)))
        = linkEndpoint nH nR (String.mk (kind :: digits)) ∧
    connectionEndpoint nH (String.mk (kind :: (digits ++ tail)))
        = connectionEndpoint nH (String.mk (kind :: digits)) ∧
    connectionEndpoint nH (String.mk (kind :: '+' :: (digits ++ tail)))
        = connectionEndpoint nH (String.mk (kind :: digits)) := by
  by_cases hk : kind.toNat < 128
  · obtain ⟨e1, e2⟩ := stoi_digits_append digits tail hne hd ht
    have r1 : readIndex (String.mk (kind :: (digits ++ tail)))
        = readIndex (String.mk (kind :: digits)) := by
      rw [readIndex_mk _ _ hk, readIndex_mk _ _ hk, e1]
    have r2 : readIndex (String.mk (kind :: '+' :: (digits ++ tail)))
        = readIndex (String.mk (kind :: digits)) := by
      rw [readIndex_mk _ _ hk, readIndex_mk _ _ hk, e2]
    have k1 : kindChar (String.mk (kind :: (digits ++ tail)))
        = kindChar (String.mk (kind :: digits)) := by
      rw [kindChar_mk _ _ hk, kindChar_mk _ _ hk]
    have k2 : kindChar (String.mk (kind :: '+' :: (digits ++ tail)))
        = kindChar (String.mk (kind :: digits)) := by
      rw [kindChar_mk _ _ hk, kindChar_mk _ _ hk]
    unfold linkEndpoint connectionEndpoint
    rw [r1, r2, k1, k2]
    exact ⟨rfl, rfl, rfl, rfl⟩
  · have hh : ∀ text, readIndex (String.mk (kind :: text)) = .error .nonNumeric :=
      fun text => readIndex_high kind text (by omega)
    rw [linkEndpoint_error _ _ _ _ (hh _), linkEndpoint_error _ _ _ _ (hh _),
      linkEndpoint_error _ _ _ _ (hh _), connectionEndpoint_error _ _ _ (hh _),
      connectionEndpoint_error _ _ _ (hh _), connectionEndpoint_error _ _ _ (hh _)]
    exact ⟨rfl, rfl, rfl, rfl⟩

/-- C8 as amended: a sub-token whose first character is one byte (ASCII) is
rejected as a non-numeric index exactly when the text after that character
does not start, after white space and at most one sign, with a decimal digit;
a sub-token whose first character takes several bytes is always rejected as a
non-numeric index, the text after its first byte starting with a continuation
byte; when the text after the first character is a run of digits followed by
something that is not a digit, or the same after a plus sign, the sub-token is
read exactly like the one with the digits alone. -/
theorem non_numeric_index (numberOfNodes numberOfRouters : Nat) (kind : Char) :
    (kind.toNat < 128 → ∀ text : List Char,
      (linkEndpoint numberOfNodes numberOfRouters (String.mk (kind :: text))
          = .error .nonNumeric ↔ startsNumeral text = false) ∧
      (connectionEndpoint numberOfNodes (String.mk (kind :: text))
          = .error .nonNumeric ↔ startsNumeral text = false)) ∧
    (128 ≤ kind.toNat → ∀ text : List Char,
      linkEndpoint numberOfNodes numberOfRouters (String.mk (kind :: text))
          = .error .nonNumeric ∧
      connectionEndpoint numberOfNodes (String.mk (kind :: text)) = .error .nonNumeric) ∧
    (∀ digits tail : List Char, digits ≠ [] → (∀ c ∈ digits, c.isDigit = true) →
      digitFirst tail = false →
      linkEndpoint numberOfNodes numberOfRouters (String.mk (kind :: (digits ++ tail)))
          = linkEndpoint numberOfNodes numberOfRouters (String.mk (kind :: digits)) ∧
      linkEndpoint numberOfNodes numberOfRouters (String.mk (kind :: '+' :: (digits ++ tail)))
          = linkEndpoint numberOfNodes numberOfRouters (String.mk (kind :: digits)) ∧
      connectionEndpoint numberOfNodes (String.mk (kind :: (digits ++ tail)))
          = connectionEndpoint numberOfNodes (String.mk (kind :: digits)) ∧
      connectionEndpoint numberOfNodes (String.mk (kind :: '+' :: (digits ++ tail)))
          = connectionEndpoint numberOfNodes (String.mk (kind :: digits))) := by
  refine ⟨fun hk text => ?_, fun hk text => ?_, fun digits tail hne hd ht =>
    endpoint_trailing _ _ kind digits tail hne hd ht⟩
  · rw [linkEndpoint_nonNumeric_iff, connectionEndpoint_nonNumeric_iff,
      readIndex_nonNumeric_iff kind text hk]
    exact ⟨Iff.rfl, Iff.rfl⟩
  · exact ⟨linkEndpoint_error _ _ _ _ (readIndex_high kind text hk),
      connectionEndpoint_error _ _ _ (readIndex_high kind text hk)⟩

theorem non_numeric_index_witness :
    linkEndpoint 2 0 (String.mk ('n' :: (['1'] ++ ['x']))) = linkEndpoint 2 0 (String.mk ['n', '1']) ∧
    (linkEndpoint 2 0 (String.mk ['n', 'x'])
      = .error .nonNumeric ↔ startsNumeral ['x'] = false) ∧
    linkEndpoint 2 0 (String.mk ['é', '0']) = .error .nonNumeric :=
  ⟨((non_numeric_index 2 0 'n').2.2 ['1'] ['x'] (by decide) (by decide) (by decide)).1,
   ((non_numeric_index 2 0 'n').1 (by decide) ['x']).1,
   ((non_numeric_index 2 0 'é').2.1 (by decide) ['0']).1⟩

theorem linkEndpoint_host_numeral (nH nR i : Nat) (h : (i : Int) ≤ intMax) :
    linkEndpoint nH nR ("n" ++ toString i) = if i < nH then .ok i else .error .range := by
  obtain ⟨hr, hk⟩ := readIndex_numeral "n" 'n' rfl (by decide) i h
  rw [linkEndpoint_host nH nR _ i hr hk]
  by_cases c : i < nH
  · rw [if_pos c, if_pos ⟨by omega, by omega⟩, Int.toNat_ofNat]
  · rw [if_neg c, if_neg (by omega)]

/-- C10. A token whose two sub-tokens normalise to the same flat index is
rejected with the self-loop error, by the link parser and by the connection
parser; the two endpoints of an accepted edge differ; host `i` and router `i`
are different nodes, so a token joining them is accepted. -/
theorem self_loop_rejected (numberOfNodes numberOfRouters : Nat) :
    (∀ token s0 s1 v, stringSplit token '-' = [s0, s1] →
      linkEndpoint numberOfNodes numberOfRouters s0 = .ok v →
      linkEndpoint numberOfNodes numberOfRouters s1 = .ok v →
      parseLink numberOfNodes numberOfRouters token = .error .selfLoop) ∧
    (∀ token s0 s1 v, stringSplit token '-' = [s0, s1] →
      connectionEndpoint numberOfNodes s0 = .ok v →
      connectionEndpoint numberOfNodes s1 = .ok v →
      parseConnection numberOfNodes token = .error .selfLoop) ∧
    (∀ token a b, parseLink numberOfNodes numberOfRouters token = .ok (a, b) → a ≠ b) ∧
    (∀ token a b, parseConnection numberOfNodes token = .ok (a, b) → a ≠ b) ∧
    (∀ token s0 s1 i, (numberOfNodes : Int) + numberOfRouters ≤ intMax →
      stringSplit token '-' = [s0, s1] →
      kindChar s0 = 'n' → readIndex s0 = .ok i → kindChar s1 = 'r' → readIndex s1 = .ok i →
      0 ≤ i → i < numberOfNodes → i < numberOfRouters →
      parseLink numberOfNodes numberOfRouters token
        = .ok (i.toNat, numberOfNodes + i.toNat)) := by
  refine ⟨?_, ?_, ?_, ?_, ?_⟩
  · intro token s0 s1 v hs h0 h1
    exact parseToken_selfLoop _ token s0 s1 v hs h0 h1
  · intro token s0 s1 v hs h0 h1
    exact parseToken_selfLoop _ token s0 s1 v hs h0 h1
  · intro token a b h
    obtain ⟨_, _, -, -, -, hab⟩ := (parseToken_ok_iff _ token a b).mp h
    exact hab
  · intro token a b h
    obtain ⟨_, _, -, -, -, hab⟩ := (parseToken_ok_iff _ token a b).mp h
    exact hab
  · intro token s0 s1 i hsum hs k0 r0 k1 r1 h0 hn hr
    apply (parseToken_ok_iff _ token _ _).mpr
    refine ⟨s0, s1, hs, ?_, ?_, by omega⟩
    · rw [linkEndpoint_host _ _ s0 i r0 k0, if_pos ⟨h0, hn⟩]
    · rw [linkEndpoint_router _ _ hsum s1 i r1 k1, if_pos ⟨h0, hr⟩]

theorem self_loop_rejected_witness :
    parseLink 2 2 "n0-n0" = .error .selfLoop ∧ parseLink 2 2 "r1-r1" = .error .selfLoop ∧
    parseConnection 2 "n1-n1" = .error .selfLoop ∧ parseLink 2 2 "n0-r0" = .ok (0, 2) :=
  ⟨(self_loop_rejected 2 2).1 "n0-n0" "n0" "n0" 0 (by decide) (by decide) (by decide),
   (self_loop_rejected 2 2).1 "r1-r1" "r1" "r1" 3 (by decide) (by decide) (by decide),
   (self_loop_rejected 2 2).2.1 "n1-n1" "n1" "n1" 1 (by decide) (by decide) (by decide),
   (self_loop_rejected 2 2).2.2.2.2 "n0-r0" "n0" "r0" 0 (by decide) (by decide) (by decide)
     (by decide) (by decide) (by decide) (by decide) (by decide) (by decide)⟩

/-! ## Wiring and neighbour resolution -/

theorem pushAt_apply (table : Nat → List Nat) (v address x : Nat) :
    pushAt table v address x = if x = v then table v ++ [address] else table x := rfl

theorem ownersRecorded_init : OwnersRecorded Wiring.init := by
  intro v a h
  simp [Wiring.init] at h

theorem ownersRecorded_wireLink (same : Bool) (w : Wiring) (values : Nat × Nat)
    (hw : OwnersRecorded w) : OwnersRecorded (wireLink same w values) := by
  intro v a h
  simp only [wireLink, pushAt_apply] at h
  simp only [wireLink, setOwner]
  have old : ∀ u, a ∈ w.nodeIps u →
      (if a = w.nextAddress + 1 then some values.2
        else if a = w.nextAddress then some values.1 else w.ipNodeNumberMap a) = some u ∧
      a < w.nextAddress + 2 := by
    intro u hu
    obtain ⟨h1, h2⟩ := hw u a hu
    rw [if_neg (by omega), if_neg (by omega)]
    exact ⟨h1, by omega⟩
  by_cases h2 : v = values.2
  · rw [if_pos h2] at h
    rcases List.mem_append.mp h with h | h
    · by_cases h1 : values.2 = values.1
      · rw [if_pos h1] at h
        rcases List.mem_append.mp h with h | h
        · have := old _ h
          rw [h2]
          rw [h1] at this ⊢
          exact this
        · rw [List.mem_singleton] at h
          rw [h, if_neg (by omega), if_pos rfl, h2, h1]
          exact ⟨rfl, by omega⟩
      · rw [if_neg h1] at h
        rw [h2]; exact old _ h
    · rw [List.mem_singleton] at h
      rw [h, if_pos rfl, h2]
      exact ⟨rfl, by omega⟩
  · rw [if_neg h2] at h
    by_cases h1 : v = values.1
    · rw [if_pos h1] at h
      rcases List.mem_append.mp h with h | h
      · rw [h1]; exact old _ h
      · rw [List.mem_singleton] at h
        rw [h, if_neg (by omega), if_pos rfl, h1]
        exact ⟨rfl, by omega⟩
    · rw [if_neg h1] at h
      exact old _ h

theorem wireLinks_different (nH nR : Nat) (tokens : List String) (w w1 : Wiring)
    (hw : OwnersRecorded w) (h : wireLinks nH nR false tokens w = .ok w1) :
    OwnersRecorded w1 ∧ w1.nodeConnections = w.nodeConnections := by
  induction tokens generalizing w with
  | nil =>
    simp only [wireLinks, Except.ok.injEq] at h
    rw [← h]
    exact ⟨hw, rfl⟩
  | cons token more ih =>
    simp only [wireLinks] at h
    split at h
    · simp at h
    · rename_i values hv
      obtain ⟨a, b⟩ := ih (wireLink false w values) (ownersRecorded_wireLink false w values hw) h
      exact ⟨a, b⟩

theorem partners_cons (e : Nat × Nat) (edges : List (Nat × Nat)) (h : Nat) :
    partners (e :: edges) h = partners [e] h ++ partners edges h := by
  unfold partners
  simp only [List.filterMap_cons, List.filterMap_nil]
  split <;> simp

theorem degree_eq_partners (edges : List (Nat × Nat)) (h : Nat) :
    degree edges h = (partners edges h).length := by
  induction edges with
  | nil => rfl
  | cons e more ih =>
    rw [partners_cons, List.length_append, ← ih]
    unfold degree partners
    by_cases h1 : e.1 = h
    · simp [List.filter, h1]; omega
    · by_cases h2 : e.2 = h
      · simp [List.filter, h1, h2]; omega
      · simp [List.filter, h1, h2]

theorem connectPair_spec (w w1 : Wiring) (a b : Nat) (hab : a ≠ b) (hw : OwnersRecorded w)
    (h : connectPair w (a, b) = .ok w1) :
    w1.nodeIps = w.nodeIps ∧ w1.ipNodeNumberMap = w.ipNodeNumberMap ∧
    w1.nextAddress = w.nextAddress ∧
    ∀ x, (w1.nodeConnections x).map w.ipNodeNumberMap =
      (w.nodeConnections x).map w.ipNodeNumberMap ++ (partners [(a, b)] x).map some := by
  unfold connectPair at h
  simp only at h
  split at h
  · simp at h
  · rename_i ip1 rest1 hb
    split at h
    · simp at h
    · rename_i ip0 rest0 ha
      simp only [Except.ok.injEq] at h
      rw [← h]
      refine ⟨rfl, rfl, rfl, ?_⟩
      intro x
      have m1 : w.ipNodeNumberMap ip1 = some b := (hw b ip1 (by rw [hb]; simp)).1
      have m0 : w.ipNodeNumberMap ip0 = some a := (hw a ip0 (by rw [ha]; simp)).1
      have hba : b ≠ a := fun e => hab e.symm
      simp only [pushAt_apply, partners, List.filterMap_cons, List.filterMap_nil]
      by_cases hx : x = b
      · subst hx
        simp [hba, m0, hab]
      · by_cases hx2 : x = a
        · subst hx2
          simp [hx, m1]
        · have e1 : ¬ a = x := fun e => hx2 e.symm
          have e2 : ¬ b = x := fun e => hx e.symm
          simp [hx, hx2, e1, e2]

theorem resolveConnections_spec (nH : Nat) (tokens : List String) (w w1 : Wiring)
    (hw : OwnersRecorded w) (h : resolveConnections nH tokens w = .ok w1) :
    ∃ edges, parseAll (parseConnection nH) tokens = .ok edges ∧
      w1.ipNodeNumberMap = w.ipNodeNumberMap ∧
      ∀ x, (w1.nodeConnections x).map w.ipNodeNumberMap =
        (w.nodeConnections x).map w.ipNodeNumberMap ++ (partners edges x).map some := by
  induction tokens generalizing w with
  | nil =>
    simp only [resolveConnections, Except.ok.injEq] at h
    rw [← h]
    exact ⟨[], rfl, rfl, fun x => by simp [partners]⟩
  | cons token more ih =>
    simp only [resolveConnections] at h
    split at h
    · simp at h
    · rename_i values hv
      split at h
      · simp at h
      · rename_i w2 hc
        obtain ⟨a, b⟩ := values
        have hab : a ≠ b := by
          obtain ⟨_, _, -, -, -, hab⟩ := (parseToken_ok_iff _ token a b).mp hv
          exact hab
        obtain ⟨e1, e2, e3, e4⟩ := connectPair_spec w w2 a b hab hw hc
        have hw2 : OwnersRecorded w2 := by
          intro v x hx
          rw [e1] at hx
          rw [e2, e3]
          exact hw v x hx
        obtain ⟨edges, p1, p2, p3⟩ := ih w2 hw2 h
        refine ⟨(a, b) :: edges, ?_, ?_, ?_⟩
        · simp only [parseAll, hv, p1]
        · rw [p2, e2]
        · intro x
          have := p3 x
          rw [e2] at this
          rw [this, e4 x, partners_cons (a, b) edges x, List.map_append, List.append_assoc]

/-- C3, the code where a link has a router endpoint and `same` is true: with
two hosts, one router, the links `n0-r0,r0-n1` and no connections given, `same`
is true and the neighbour list of host 0 is the single address 10.0.0.1, which
the reverse map gives to node 2, the router; the specification has it empty. -/
theorem router_address_in_neighbours :
    (resolveDescriptions "n0-r0,r0-n1" "").same = true ∧
    (buildTopology 2 1 "n0-r0,r0-n1" "").map
        (fun w => (w.nodeConnections 0, w.ipNodeNumberMap 167772161, w.nodeConnections 1,
          w.ipNodeNumberMap 167772162))
      = .ok ([167772161], some 2, [167772162], some 2) := by
  decide

/-- C4. When `same` is false and the topology is built, the connection tokens
parse to a list of edges, and for every host the neighbour list has as many
entries as the host has edges in that list, the entries being, through the
reverse address map, the hosts at the other end of those edges, in order. -/
theorem neighbours_resolve_to_partners (numberOfNodes numberOfRouters : Nat)
    (links bcConnections : String) (w : Wiring)
    (hsame : (resolveDescriptions links bcConnections).same = false)
    (h : buildTopology numberOfNodes numberOfRouters links bcConnections = .ok w) :
    ∃ overlay,
      parseAll (parseConnection numberOfNodes)
        (stringSplit (resolveDescriptions links bcConnections).bcConnections ',')
          = .ok overlay ∧
      ∀ host, (w.nodeConnections host).length = degree overlay host ∧
        (w.nodeConnections host).map w.ipNodeNumberMap = (partners overlay host).map some := by
  unfold buildTopology at h
  simp only [hsame] at h
  split at h
  · simp at h
  · rename_i w0 hwire
    simp only [Bool.false_eq_true, if_false] at h
    obtain ⟨inv0, nc0⟩ := wireLinks_different _ _ _ _ w0 ownersRecorded_init hwire
    obtain ⟨edges, p1, p2, p3⟩ := resolveConnections_spec _ _ w0 w inv0 h
    refine ⟨edges, p1, fun host => ?_⟩
    have key := p3 host
    rw [nc0, ← p2] at key
    simp only [Wiring.init, List.map_nil, List.nil_append] at key
    refine ⟨?_, key⟩
    rw [degree_eq_partners]
    have := congrArg List.length key
    simpa using this

theorem neighbours_resolve_to_partners_witness :
    ∃ w, buildTopology 2 1 "n0-r0,r0-n1" "n0-n1" = .ok w ∧
      (w.nodeConnections 0).map w.ipNodeNumberMap = [some 1] := by
  refine ⟨_, rfl, ?_⟩
  obtain ⟨overlay, h1, h2⟩ := neighbours_resolve_to_partners 2 1 "n0-r0,r0-n1" "n0-n1" _
    (by decide) rfl
  have e : overlay = [(0, 1)] := by
    have : parseAll (parseConnection 2)
        (stringSplit (resolveDescriptions "n0-r0,r0-n1" "n0-n1").bcConnections ',')
          = .ok [(0, 1)] := by decide
    rw [this] at h1
    simp only [Except.ok.injEq] at h1
    exact h1.symm
  rw [(h2 0).2, e]
  decide

/-- C6, the code when neither description is given: line 517 overwrites the
default `n0-n1` that line 516 has just stored, so both descriptions stay empty;
no link is made, and the two hosts own no address and have no neighbour. The
specification has the single edge `n0-n1`. -/
theorem default_edge_lost :
    resolveDescriptions "" "" = { links := "", bcConnections := "", same := true } ∧
    stringSplit (resolveDescriptions "" "").links ',' = [] ∧
    (buildTopology 2 0 "" "").map
        (fun w => (w.nodeConnections 0, w.nodeConnections 1, w.nodeIps 0, w.nodeIps 1,
          w.nextAddress))
      = .ok ([], [], [], [], firstAddress) := by
  decide

/-! ## The two descriptions and the minimum number of connections -/

theorem resolveDescriptions_cases (links bcConnections : String) :
    ((resolveDescriptions links bcConnections).same = true ↔
      links = bcConnections ∨ links = "" ∨ bcConnections = "") ∧
    (links = "" → bcConnections ≠ "" →
      (resolveDescriptions links bcConnections).links = bcConnections ∧
      (resolveDescriptions links bcConnections).bcConnections = bcConnections) ∧
    (bcConnections = "" → links ≠ "" →
      (resolveDescriptions links bcConnections).links = links ∧
      (resolveDescriptions links bcConnections).bcConnections = links) ∧
    (links ≠ "" → bcConnections ≠ "" →
      (resolveDescriptions links bcConnections).links = links ∧
      (resolveDescriptions links bcConnections).bcConnections = bcConnections) ∧
    ((resolveDescriptions links bcConnections).links =
        (resolveDescriptions links bcConnections).bcConnections ↔
      (resolveDescriptions links bcConnections).same = true) := by
  by_cases h1 : links = ""
  · by_cases h2 : bcConnections = ""
    · subst h1; subst h2
      simp [resolveDescriptions]
    · subst h1
      have h3 : ¬ ("" = bcConnections) := fun e => h2 e.symm
      simp [resolveDescriptions, h2, h3]
  · by_cases h2 : bcConnections = ""
    · subst h2
      simp [resolveDescriptions, h1]
    · by_cases h3 : links = bcConnections
      · subst h3
        simp [resolveDescriptions, h1]
      · simp [resolveDescriptions, h1, h2, h3]

/-- C19. The flag `same` is decided by comparing the two strings: after lines
504-525 it is true exactly when the two supplied descriptions are identical or
at least one of them is empty; a single empty description is replaced by the
other; two descriptions that are both given are left unchanged; and the final
two descriptions are equal exactly when `same` is true. -/
theorem same_flag (links bcConnections : String) :
    ((resolveDescriptions links bcConnections).same = true ↔
      links = bcConnections ∨ links = "" ∨ bcConnections = "") ∧
    (links = "" → bcConnections ≠ "" →
      (resolveDescriptions links bcConnections).links = bcConnections ∧
      (resolveDescriptions links bcConnections).bcConnections = bcConnections) ∧
    (bcConnections = "" → links ≠ "" →
      (resolveDescriptions links bcConnections).links = links ∧
      (resolveDescriptions links bcConnections).bcConnections = links) ∧
    (links ≠ "" → bcConnections ≠ "" →
      (resolveDescriptions links bcConnections).links = links ∧
      (resolveDescriptions links bcConnections).bcConnections = bcConnections) ∧
    ((resolveDescriptions links bcConnections).links =
        (resolveDescriptions links bcConnections).bcConnections ↔
      (resolveDescriptions links bcConnections).same = true) :=
  resolveDescriptions_cases links bcConnections

theorem same_flag_witness :
    (resolveDescriptions "" "n0-n1").links = "n0-n1" ∧
    (resolveDescriptions "" "n0-n1").bcConnections = "n0-n1" :=
  (same_flag "" "n0-n1").2.1 rfl (by decide)

theorem minConnectionsRejected_iff (n d : Int) (hn : 2 ≤ n) :
    minConnectionsRejected n d = true ↔ (n > 2 ∧ d < 2) ∨ (n = 2 ∧ d < 1) ∨ d ≥ n := by
  unfold minConnectionsRejected
  split_ifs with h1 h2 h3
  · simp only [true_iff]; left; omega
  · simp only [true_iff]; right; left; exact h2
  · simp only [true_iff]; right; right; exact h3
  · simp only [Bool.false_eq_true, false_iff]
    omega

theorem applyTopology_nodes (cfg : Config) (h : 2 ≤ cfg.numberOfNodes) :
    2 ≤ (applyTopology cfg).numberOfNodes := by
  unfold applyTopology
  split_ifs <;> first | exact h | (simp only [Config.withTopology]; decide)

theorem checkBasics_ok (cfg : Config) (tcp : Bool) (h : checkBasics cfg = .ok tcp) :
    2 ≤ cfg.numberOfNodes ∧ 0 ≤ cfg.numberOfRouters ∧ 1 ≤ cfg.topology ∧ cfg.topology ≤ 9 := by
  unfold checkBasics at h
  split_ifs at h
  omega

theorem applyTopology_minConnections (cfg : Config) :
    (applyTopology cfg).minConnectionsPerNode = cfg.minConnectionsPerNode := by
  unfold applyTopology
  split_ifs <;> rfl

/-- C13. With a supplied minimum number of connections (not negative) the run
stops at the checks of lines 425-438, whatever the draws, exactly when there are
more than two nodes and the minimum is below 2, or two nodes and the minimum is
below 1, or the minimum is not below the number of nodes; otherwise the checks
pass, the minimum is valid for the generator, and the generator is run on the
draws: the run goes on when it finishes and is still generating when the draws
run out. -/
theorem min_connections_checked (cfg : Config) (tcp : Bool)
    (hbasic : checkBasics cfg = .ok tcp) (hd : 0 ≤ cfg.minConnectionsPerNode) :
    (checkMinConnections (applyTopology cfg) = .error .constraint ↔
      ((applyTopology cfg).numberOfNodes > 2 ∧ cfg.minConnectionsPerNode < 2) ∨
      ((applyTopology cfg).numberOfNodes = 2 ∧ cfg.minConnectionsPerNode < 1) ∨
      cfg.minConnectionsPerNode ≥ (applyTopology cfg).numberOfNodes) ∧
    (checkMinConnections (applyTopology cfg) = .error .constraint →
      ∀ draws, (main cfg draws).exit = .error .constraint ∧ (main cfg draws).installs = []) ∧
    (checkMinConnections (applyTopology cfg) ≠ .error .constraint →
      checkMinConnections (applyTopology cfg) = .ok () ∧
      validMinConnections (applyTopology cfg).numberOfNodes.toNat
        cfg.minConnectionsPerNode.toNat ∧
      ∀ draws,
        ((generate (applyTopology cfg).numberOfNodes.toNat
            cfg.minConnectionsPerNode.toNat draws).finished = true →
          ∃ cfg1, applyGenerator (applyTopology cfg) draws = .ok cfg1) ∧
        ((generate (applyTopology cfg).numberOfNodes.toNat
            cfg.minConnectionsPerNode.toNat draws).finished = false →
          applyGenerator (applyTopology cfg) draws = .error .generating)) := by
  have hn : 2 ≤ (applyTopology cfg).numberOfNodes :=
    applyTopology_nodes cfg (checkBasics_ok cfg tcp hbasic).1
  have hm := applyTopology_minConnections cfg
  have hgt : (applyTopology cfg).minConnectionsPerNode > -1 := by omega
  have key := minConnectionsRejected_iff (applyTopology cfg).numberOfNodes
    cfg.minConnectionsPerNode hn
  have hcheck : checkMinConnections (applyTopology cfg) =
      if minConnectionsRejected (applyTopology cfg).numberOfNodes cfg.minConnectionsPerNode
      then .error .constraint else .ok () := by
    unfold checkMinConnections
    rw [if_pos hgt, hm]
  refine ⟨?_, ?_, ?_⟩
  · rw [hcheck, ← key]
    split_ifs with h <;> simp [h]
  · intro hrej draws
    unfold main
    rw [hbasic]
    simp only [hrej]
    exact ⟨rfl, rfl⟩
  · intro hnot
    have hacc : ¬ minConnectionsRejected (applyTopology cfg).numberOfNodes
        cfg.minConnectionsPerNode = true := by
      intro h
      apply hnot
      rw [hcheck, if_pos h]
    refine ⟨by rw [hcheck, if_neg hacc], ?_, ?_⟩
    · rw [key] at hacc
      unfold validMinConnections
      omega
    · intro draws
      unfold applyGenerator
      rw [if_pos hgt, hm]
      constructor
      · intro hfin
        simp only [hfin, if_true]
        exact ⟨_, rfl⟩
      · intro hfin
        simp only [hfin, Bool.false_eq_true, if_false]

theorem min_connections_checked_witness :
    (main { numberOfNodes := 5, minConnectionsPerNode := 5 } []).exit = .error .constraint ∧
    (main { numberOfNodes := 5, minConnectionsPerNode := 5 } []).installs = [] :=
  (min_connections_checked { numberOfNodes := 5, minConnectionsPerNode := 5 } true
    (by decide) (by decide)).2.1 (by decide) []

/-! ## Sub-tokens of an unknown kind -/

theorem wireLinks_ok_tokens (nH nR : Nat) (same : Bool) (tokens : List String) (w w1 : Wiring)
    (h : wireLinks nH nR same tokens w = .ok w1) :
    ∀ t ∈ tokens, ∃ e, parseLink nH nR t = .ok e := by
  induction tokens generalizing w with
  | nil => intro t ht; simp at ht
  | cons token more ih =>
    simp only [wireLinks] at h
    split at h
    · simp at h
    · rename_i values hv
      intro t ht
      rcases List.mem_cons.mp ht with rfl | ht
      · exact ⟨values, hv⟩
      · exact ih _ h t ht

theorem resolveConnections_ok_tokens (nH : Nat) (tokens : List String) (w w1 : Wiring)
    (h : resolveConnections nH tokens w = .ok w1) :
    ∀ t ∈ tokens, ∃ e, parseConnection nH t = .ok e := by
  induction tokens generalizing w with
  | nil => intro t ht; simp at ht
  | cons token more ih =>
    simp only [resolveConnections] at h
    split at h
    · simp at h
    · rename_i values hv
      split at h
      · simp at h
      · rename_i w2 hc
        intro t ht
        rcases List.mem_cons.mp ht with rfl | ht
        · exact ⟨values, hv⟩
        · exact ih _ h t ht

theorem buildTopology_eq (nH nR : Nat) (links bcConnections : String) :
    buildTopology nH nR links bcConnections =
      wireTopology nH nR (resolveDescriptions links bcConnections) := rfl

theorem wireTopology_ok (nH nR : Nat) (d : Descriptions) (w : Wiring)
    (h : wireTopology nH nR d = .ok w) :
    (∀ t ∈ stringSplit d.links ',', ∃ e, parseLink nH nR t = .ok e) ∧
    (d.same = false → ∀ t ∈ stringSplit d.bcConnections ',', ∃ e, parseConnection nH t = .ok e) := by
  unfold wireTopology at h
  split at h
  · simp at h
  · rename_i w0 hw0
    refine ⟨wireLinks_ok_tokens _ _ _ _ _ _ hw0, fun hs => ?_⟩
    rw [hs] at h
    simp only [Bool.false_eq_true, if_false] at h
    exact resolveConnections_ok_tokens _ _ _ _ h

theorem dropRight_one_snoc (l : List Char) (c : Char) :
    (String.mk (l ++ [c])).dropRight 1 = String.mk l := by
  have hv : Substring.ValidFor [] ((c :: l.reverse).reverse ++ []) []
      (String.mk (l ++ [c])).toSubstring := by
    have := String.validFor_toSubstring (String.mk (l ++ [c]))
    simpa using this
  have hp := hv.prevn 1
  have hb : (String.mk (l ++ [c])).toSubstring.bsize = String.utf8Len (c :: l.reverse) := by
    have := (String.validFor_toSubstring (String.mk (l ++ [c]))).bsize
    rw [this]
    simp [String.utf8Len_reverse, Nat.add_comm]
  have hres : Substring.ValidFor [] l [c] ((String.mk (l ++ [c])).toSubstring.dropRight 1) := by
    refine Substring.ValidFor.of_eq _ ?_ ?_ ?_
    · simp [Substring.dropRight, String.toSubstring]
    · simp [Substring.dropRight, String.toSubstring]
    · simp only [Substring.dropRight]
      rw [hb, hp]
      simp [String.toSubstring]
  unfold String.dropRight
  exact hres.toString

theorem dropRight_comma (s : String) : (s ++ ",").dropRight 1 = s := by
  have : s ++ "," = String.mk (s.data ++ [',']) := rfl
  rw [this, dropRight_one_snoc]

theorem linkText_eq (a b : Nat) : linkText a b = edgeText (a, b) ++ "," := rfl

theorem join_with_commas (acc : String) (first : String) (more : List String) :
    (List.map (fun t => t ++ ",") (first :: more)).foldl (fun r t => r ++ t) acc =
      String.intercalate.go (acc ++ first) "," more ++ "," := by
  induction more generalizing acc first with
  | nil =>
    simp only [List.map_cons, List.map_nil, List.foldl_cons, List.foldl_nil,
      String.intercalate.go, String.append_assoc]
  | cons second rest ih =>
    rw [List.map_cons, List.foldl_cons, ih]
    simp only [String.intercalate.go, String.append_assoc]

theorem join_linkText (edges : List (Nat × Nat)) (hne : edges ≠ []) :
    String.join (edges.map (fun e => linkText e.1 e.2)) =
      String.intercalate "," (edges.map edgeText) ++ "," := by
  obtain ⟨e, more, rfl⟩ := List.exists_cons_of_ne_nil hne
  have hmap : List.map (fun e => linkText e.1 e.2) (e :: more) =
      List.map (fun t => t ++ ",") (List.map edgeText (e :: more)) := by
    rw [List.map_map]
    rfl
  unfold String.join
  rw [hmap, List.map_cons, join_with_commas]
  simp only [String.intercalate, List.map_cons]
  congr 2

theorem string_join_snoc (l : List String) (t : String) :
    String.join (l ++ [t]) = String.join l ++ t := by
  unfold String.join
  rw [List.foldl_append]
  rfl

theorem linksWritten_init : LinksWritten GenState.init := rfl

theorem linksWritten_addLink (s : GenState) (a b : Nat) (h : LinksWritten s) :
    LinksWritten (addLink s a b) := by
  unfold LinksWritten at h ⊢
  simp only [addLink, List.map_append, List.map_cons, List.map_nil]
  rw [string_join_snoc, h]

/-- A property of the generator state that recording an edge keeps holds after
any number of rounds of the first loop. -/
theorem ringRounds_keeps (P : GenState → Prop) (hadd : ∀ s a b, P s → P (addLink s a b))
    (n : Nat) (rounds : List Nat) (s : GenState) (hs : P s) :
    P (rounds.foldl (ringStep n) s) := by
  induction rounds generalizing s with
  | nil => exact hs
  | cons i more ih =>
    rw [List.foldl_cons]
    apply ih
    unfold ringStep
    split_ifs
    · exact hs
    · exact hadd _ _ _ hs
    · exact hs
    · exact hadd _ _ _ hs

theorem connectLoop_keeps (P : GenState → Prop) (hadd : ∀ s a b, P s → P (addLink s a b))
    (n d i fuel j : Nat) (keys : KeySet) (s : GenState) (draws : List Nat) (hs : P s) :
    P (connectLoop n d i fuel j keys s draws).1 := by
  induction fuel generalizing j keys s draws with
  | zero => simp only [connectLoop]; exact hs
  | succ fuel ih =>
    simp only [connectLoop]
    split
    · split
      · exact hs
      · exact ih _ _ _ _ (hadd _ _ _ hs)
    · exact hs

theorem connectAll_keeps (P : GenState → Prop) (hadd : ∀ s a b, P s → P (addLink s a b))
    (n d : Nat) (nodes : List Nat) (s : GenState) (draws : List Nat) (hs : P s) :
    P (connectAll n d nodes s draws).1 := by
  induction nodes generalizing s draws with
  | nil => exact hs
  | cons i more ih =>
    have hnode : P (connectNode n d i s draws).1 := by
      unfold connectNode
      split
      · exact connectLoop_keeps P hadd _ _ _ _ _ _ _ _ hs
      · exact hs
    simp only [connectAll]
    split
    · rename_i s1 h1
      rw [h1] at hnode
      exact hnode
    · rename_i s1 r1 h1
      rw [h1] at hnode
      exact ih _ _ hnode

theorem generate_links (n d : Nat) (draws : List Nat) (hn : 2 ≤ n)
    (hfin : (generate n d draws).finished = true) :
    (generate n d draws).state.links =
      String.intercalate "," ((generate n d draws).state.emitted.map edgeText) := by
  have hw : LinksWritten (connectAll n d (List.range n) (ringLoop n) draws).1 :=
    connectAll_keeps LinksWritten linksWritten_addLink n d _ _ draws
      (ringRounds_keeps LinksWritten linksWritten_addLink n _ _ linksWritten_init)
  have hne : (generate n d draws).state.emitted ≠ [] := by
    have hlink := (generate_inv n d draws hn).2.1.1 0 1 (ringLoop_succ_mem n 0 (by omega))
    have hadj := ((generate_inv n d draws hn).1.adj 0 1).mp hlink
    intro he
    rw [he] at hadj
    simp at hadj
  have hE := (generate_state n d draws).2.1
  rw [hE] at hne ⊢
  unfold generate at hfin ⊢
  split at hfin
  · simp at hfin
  · rename_i s r hs
    rw [hs] at hw hne ⊢
    simp only at hw hne ⊢
    unfold LinksWritten at hw
    rw [hw, join_linkText _ hne, dropRight_comma]

theorem ring_rounds_emitted (n k : Nat) (hk : k + 1 ≤ n) :
    ((List.range k).foldl (ringStep n) GenState.init).emitted =
      (List.range k).map (fun i => (i, i + 1)) := by
  induction k with
  | zero => rfl
  | succ k ih =>
    obtain ⟨-, hA⟩ := ring_rounds n k (by omega)
    have ih2 := ih (by omega)
    rw [List.range_succ, List.foldl_append, List.map_append]
    simp only [List.foldl_cons, List.foldl_nil, List.map_cons, List.map_nil]
    generalize (List.range k).foldl (ringStep n) GenState.init = s at hA ih2
    have hne : k ≠ n - 1 := by omega
    have hnot : k + 1 ∉ s.allLinks k := by
      rw [hA]; unfold ringAdj
      split_ifs <;> simp <;> omega
    have hstep : ringStep n s k = addLink s k (k + 1) := by
      unfold ringStep
      rw [if_neg hne, if_neg hnot]
    rw [hstep, addLink_emitted, ih2]

theorem ringLoop_emitted (n : Nat) (hn : 3 ≤ n) : (ringLoop n).emitted = ringEdges n := by
  rw [ringLoop_eq n (by omega)]
  obtain ⟨-, hA⟩ := ring_rounds n (n - 1) (by omega)
  have hE := ring_rounds_emitted n (n - 1) (by omega)
  generalize (List.range (n - 1)).foldl (ringStep n) GenState.init = s at hA hE
  have hnot : 0 ∉ s.allLinks (n - 1) := by
    rw [hA]; unfold ringAdj
    split_ifs <;> simp <;> omega
  have hstep : ringStep n s (n - 1) = addLink s (n - 1) 0 := by
    unfold ringStep
    rw [if_pos rfl, if_neg hnot]
  rw [hstep, addLink_emitted, hE]
  rfl

/-- C15. With more than two hosts and a minimum of two connections the
generator finishes on any draws without using one, and emits exactly the ring
`n0-n1, n1-n2, ..., n(k-1)-n0`: these edges in this order, `links` being their
texts joined by commas with no comma at the end, one edge per host, every host
with degree two. For five hosts the text is `n0-n1,n1-n2,n2-n3,n3-n4,n4-n0`. -/
theorem ring_description (numberOfNodes : Nat) (draws : List Nat) (hn : 2 < numberOfNodes) :
    (generate numberOfNodes 2 draws).finished = true ∧
    (connectAll numberOfNodes 2 (List.range numberOfNodes) (ringLoop numberOfNodes) draws).2
      = some draws ∧
    (generate numberOfNodes 2 draws).state.emitted = ringEdges numberOfNodes ∧
    (generate numberOfNodes 2 draws).state.links =
      String.intercalate "," ((ringEdges numberOfNodes).map edgeText) ∧
    (generate numberOfNodes 2 draws).state.emitted.length = numberOfNodes ∧
    (∀ i, i < numberOfNodes → degree (generate numberOfNodes 2 draws).state.emitted i = 2) ∧
    (numberOfNodes = 5 →
      (generate numberOfNodes 2 draws).state.links = "n0-n1,n1-n2,n2-n3,n3-n4,n4-n0") := by
  have hsmall := connectAll_small numberOfNodes 2 (le_refl 2) (List.range numberOfNodes)
    (ringLoop numberOfNodes) draws
  have hfin : (generate numberOfNodes 2 draws).finished = true := by
    rw [(generate_state numberOfNodes 2 draws).2.2, hsmall]
    rfl
  have hE : (generate numberOfNodes 2 draws).state.emitted = ringEdges numberOfNodes := by
    rw [(generate_small numberOfNodes 2 draws (le_refl 2)).2]
    exact ringLoop_emitted numberOfNodes hn
  have hL := generate_links numberOfNodes 2 draws (by omega) hfin
  rw [hE] at hL
  refine ⟨hfin, by rw [hsmall], hE, hL, ?_, ?_, ?_⟩
  · rw [hE]
    unfold ringEdges
    simp only [List.length_append, List.length_map, List.length_range, List.length_singleton]
    omega
  · intro i hi
    have := (generate_inv numberOfNodes 2 draws (by omega)).1.deg i
    rw [this, (generate_small numberOfNodes 2 draws (le_refl 2)).1]
    exact ringLoop_length numberOfNodes i hn hi
  · intro h5
    rw [hL, h5]
    decide

theorem ring_description_witness :
    (generate 5 2 [7, 7, 7]).state.links = "n0-n1,n1-n2,n2-n3,n3-n4,n4-n0" :=
  (ring_description 5 [7, 7, 7] (by decide)).2.2.2.2.2.2 rfl

/-- C16. Whenever the generator runs and finishes, whatever descriptions and
number of routers were supplied, the generated text is both `links` and
`bcConnections`, the number of routers is zero, lines 504-525 leave both
descriptions as they are, and `same` is true; with at least two nodes the
generated text is the texts of the generated edges, in order, joined by
commas. -/
theorem generated_topology_same (cfg cfg1 : Config) (draws : List Nat)
    (hd : cfg.minConnectionsPerNode > -1) (h : applyGenerator cfg draws = .ok cfg1) :
    cfg1.links =
      (generate cfg.numberOfNodes.toNat cfg.minConnectionsPerNode.toNat draws).state.links ∧
    cfg1.bcConnections = cfg1.links ∧
    cfg1.numberOfRouters = 0 ∧
    cfg1.numberOfNodes = cfg.numberOfNodes ∧
    (resolveDescriptions cfg1.links cfg1.bcConnections).same = true ∧
    (resolveDescriptions cfg1.links cfg1.bcConnections).links = cfg1.links ∧
    (resolveDescriptions cfg1.links cfg1.bcConnections).bcConnections = cfg1.links ∧
    (2 ≤ cfg.numberOfNodes →
      cfg1.links = String.intercalate ","
        ((generate cfg.numberOfNodes.toNat cfg.minConnectionsPerNode.toNat draws).state.emitted.map
          edgeText)) := by
  unfold applyGenerator at h
  rw [if_pos hd] at h
  simp only at h
  split_ifs at h with hfin
  simp only [Except.ok.injEq] at h
  have e1 : cfg1.bcConnections = cfg1.links := by rw [← h]
  have e0 : cfg1.links =
      (generate cfg.numberOfNodes.toNat cfg.minConnectionsPerNode.toNat draws).state.links := by
    rw [← h]
  refine ⟨e0, e1, by rw [← h], by rw [← h], ?_, ?_, ?_, ?_⟩
  · rw [e1]
    exact (resolveDescriptions_cases cfg1.links cfg1.links).1.mpr (Or.inl rfl)
  · rw [e1]
    by_cases he : cfg1.links = ""
    · rw [he]; decide
    · exact ((resolveDescriptions_cases cfg1.links cfg1.links).2.2.2.1 he he).1
  · rw [e1]
    by_cases he : cfg1.links = ""
    · rw [he]; decide
    · exact ((resolveDescriptions_cases cfg1.links cfg1.links).2.2.2.1 he he).2
  · intro hn
    rw [e0]
    exact generate_links _ _ draws (by omega) hfin

theorem generated_topology_same_witness :
    ∃ cfg1, applyGenerator
        { numberOfNodes := 4, numberOfRouters := 3, links := "n0-r0", bcConnections := "n0-n1",
          minConnectionsPerNode := 2 } [] = .ok cfg1 ∧
      cfg1.links = "n0-n1,n1-n2,n2-n3,n3-n0" ∧ cfg1.bcConnections = cfg1.links ∧
      cfg1.numberOfRouters = 0 :=
  ⟨_, rfl, rfl,
    (generated_topology_same
      { numberOfNodes := 4, numberOfRouters := 3, links := "n0-r0", bcConnections := "n0-n1",
        minConnectionsPerNode := 2 } _ [] (by decide) rfl).2.1,
    (generated_topology_same
      { numberOfNodes := 4, numberOfRouters := 3, links := "n0-r0", bcConnections := "n0-n1",
        minConnectionsPerNode := 2 } _ [] (by decide) rfl).2.2.1⟩

/-! ## Addresses and neighbours after the wiring loop -/

theorem pushAt_two (table : Nat → List Nat) (e : Nat × Nat) (a1 a2 v : Nat) :
    pushAt (pushAt table e.1 a1) e.2 a2 v =
      table v ++ ((if e.1 = v then [a1] else []) ++ (if e.2 = v then [a2] else [])) := by
  obtain ⟨x, y⟩ := e
  simp only [pushAt_apply]
  by_cases hy : y = v
  · by_cases hx : x = v
    · subst hy; subst hx
      simp
    · subst hy
      have hx2 : ¬ y = x := fun e0 => hx e0.symm
      simp [hx, hx2]
  · by_cases hx : x = v
    · subst hx
      have hy2 : ¬ x = y := fun e0 => hy e0.symm
      simp [hy, hy2]
    · have hx2 : ¬ v = x := fun e0 => hx e0.symm
      have hy2 : ¬ v = y := fun e0 => hy e0.symm
      simp [hx, hy, hx2, hy2]

theorem ownersRecorded_wireLinks (nH nR : Nat) (same : Bool) (tokens : List String)
    (w w1 : Wiring) (hw : OwnersRecorded w) (h : wireLinks nH nR same tokens w = .ok w1) :
    OwnersRecorded w1 := by
  induction tokens generalizing w with
  | nil =>
    simp only [wireLinks, Except.ok.injEq] at h
    rw [← h]
    exact hw
  | cons token more ih =>
    simp only [wireLinks] at h
    split at h
    · simp at h
    · rename_i values hv
      exact ih (wireLink same w values) (ownersRecorded_wireLink same w values hw) h

/-- What the wiring loop leaves in the tables, in terms of the parsed links. -/
theorem wireLinks_spec (nH nR : Nat) (same : Bool) (tokens : List String) (w w1 : Wiring)
    (h : wireLinks nH nR same tokens w = .ok w1) :
    ∃ physical, parseAll (parseLink nH nR) tokens = .ok physical ∧
      w1.nextAddress = w.nextAddress + 2 * physical.length ∧
      (∀ v, w1.nodeIps v = w.nodeIps v ++ ownedAddresses w.nextAddress physical v) ∧
      (same = true → ∀ v, w1.nodeConnections v =
        w.nodeConnections v ++ partnerAddresses w.nextAddress physical v) ∧
      (same = false → w1.nodeConnections = w.nodeConnections) := by
  induction tokens generalizing w with
  | nil =>
    simp only [wireLinks, Except.ok.injEq] at h
    rw [← h]
    exact ⟨[], rfl, rfl, fun v => by simp [ownedAddresses],
      fun _ v => by simp [partnerAddresses], fun _ => rfl⟩
  | cons token more ih =>
    simp only [wireLinks] at h
    split at h
    · simp at h
    · rename_i values hv
      obtain ⟨physical, p1, p2, p3, p4, p5⟩ := ih (wireLink same w values) h
      refine ⟨values :: physical, ?_, ?_, ?_, ?_, ?_⟩
      · simp only [parseAll, hv, p1]
      · rw [p2]
        simp only [wireLink, List.length_cons]
        omega
      · intro v
        rw [p3 v]
        simp only [wireLink, ownedAddresses]
        rw [pushAt_two, List.append_assoc]
      · intro hs v
        rw [p4 hs v]
        simp only [wireLink, hs, if_true, partnerAddresses]
        rw [pushAt_two, List.append_assoc]
      · intro hs
        rw [p5 hs]
        simp only [wireLink, hs, Bool.false_eq_true, if_false]

theorem parseAll_mem (parse : String → Except Failure (Nat × Nat)) (tokens : List String)
    (edges : List (Nat × Nat)) (h : parseAll parse tokens = .ok edges) :
    ∀ e ∈ edges, ∃ t ∈ tokens, parse t = .ok e := by
  induction tokens generalizing edges with
  | nil =>
    simp only [parseAll, Except.ok.injEq] at h
    rw [← h]
    intro e he
    simp at he
  | cons token more ih =>
    simp only [parseAll] at h
    split at h
    · simp at h
    · rename_i edge hedge
      split at h
      · simp at h
      · rename_i rest hrest
        simp only [Except.ok.injEq] at h
        rw [← h]
        intro e he
        rcases List.mem_cons.mp he with rfl | he
        · exact ⟨token, List.mem_cons_self _ _, hedge⟩
        · obtain ⟨t, ht, hp⟩ := ih rest hrest e he
          exact ⟨t, List.mem_cons_of_mem _ ht, hp⟩

theorem head_ownedAddresses (next : Nat) (edges : List (Nat × Nat)) (v : Nat) :
    (ownedAddresses next edges v).head? = primaryAddress next edges v := by
  induction edges generalizing next with
  | nil => rfl
  | cons e more ih =>
    simp only [ownedAddresses, primaryAddress]
    by_cases h1 : e.1 = v
    · simp [h1]
    · by_cases h2 : e.2 = v
      · simp [h1, h2]
      · simp [h1, h2, ih]

theorem connectPair_primary (w w1 : Wiring) (a b : Nat) (hab : a ≠ b)
    (h : connectPair w (a, b) = .ok w1) :
    w1.nodeIps = w.nodeIps ∧
    ∀ x, (w1.nodeConnections x).map some =
      (w.nodeConnections x).map some ++
        (partners [(a, b)] x).map (fun p => (w.nodeIps p).head?) := by
  unfold connectPair at h
  simp only at h
  split at h
  · simp at h
  · rename_i ip1 rest1 hb
    split at h
    · simp at h
    · rename_i ip0 rest0 ha
      simp only [Except.ok.injEq] at h
      rw [← h]
      refine ⟨rfl, ?_⟩
      intro x
      have hba : b ≠ a := fun e => hab e.symm
      simp only [pushAt_apply, partners, List.filterMap_cons, List.filterMap_nil]
      by_cases hx : x = b
      · subst hx
        simp [hba, hab, ha]
      · by_cases hx2 : x = a
        · subst hx2
          simp [hx, hb]
        · have e1 : ¬ a = x := fun e => hx2 e.symm
          have e2 : ¬ b = x := fun e => hx e.symm
          simp [hx, hx2, e1, e2]

theorem resolveConnections_primary (nH : Nat) (tokens : List String) (w w1 : Wiring)
    (h : resolveConnections nH tokens w = .ok w1) :
    ∃ overlay, parseAll (parseConnection nH) tokens = .ok overlay ∧
      ∀ x, (w1.nodeConnections x).map some =
        (w.nodeConnections x).map some ++
          (partners overlay x).map (fun p => (w.nodeIps p).head?) := by
  induction tokens generalizing w with
  | nil =>
    simp only [resolveConnections, Except.ok.injEq] at h
    rw [← h]
    exact ⟨[], rfl, fun x => by simp [partners]⟩
  | cons token more ih =>
    simp only [resolveConnections] at h
    split at h
    · simp at h
    · rename_i values hv
      split at h
      · simp at h
      · rename_i w2 hc
        obtain ⟨a, b⟩ := values
        have hab : a ≠ b := by
          obtain ⟨_, _, -, -, -, hab⟩ := (parseToken_ok_iff _ token a b).mp hv
          exact hab
        obtain ⟨e1, e2⟩ := connectPair_primary w w2 a b hab hc
        obtain ⟨overlay, p1, p2⟩ := ih w2 h
        refine ⟨(a, b) :: overlay, ?_, ?_⟩
        · simp only [parseAll, hv, p1]
        · intro x
          rw [p2 x, e2 x, e1, partners_cons (a, b) overlay x, List.map_append,
            List.append_assoc]

/-- C14. When `same` is false and the topology is built, both descriptions
parse to lists of edges and, for every host, the neighbour list holds, for each
connection of the host in order, the primary address of the host at the other
end: the address that host was given at its first occurrence in the list of
links, whether or not a link joins the two. With two hosts, one router, the
links `n0-r0,r0-n1` and the connection `n0-n1`, `same` is false and the only
neighbour of host 0 is the address of host 1 on the link `r0-n1`. -/
theorem neighbour_is_primary_address :
    (∀ (numberOfNodes numberOfRouters : Nat) (links bcConnections : String) (w : Wiring),
      (resolveDescriptions links bcConnections).same = false →
      buildTopology numberOfNodes numberOfRouters links bcConnections = .ok w →
      ∃ physical overlay,
        parseAll (parseLink numberOfNodes numberOfRouters)
          (stringSplit (resolveDescriptions links bcConnections).links ',') = .ok physical ∧
        parseAll (parseConnection numberOfNodes)
          (stringSplit (resolveDescriptions links bcConnections).bcConnections ',')
            = .ok overlay ∧
        ∀ host, (w.nodeConnections host).map some =
          (partners overlay host).map (primaryAddress firstAddress physical)) ∧
    (resolveDescriptions "n0-r0,r0-n1" "n0-n1").same = false ∧
    (buildTopology 2 1 "n0-r0,r0-n1" "n0-n1").map (fun w => w.nodeConnections 0)
      = .ok [firstAddress + 3] ∧
    primaryAddress firstAddress [(0, 2), (2, 1)] 1 = some (firstAddress + 3) ∧
    parseAll (parseLink 2 1) (stringSplit "n0-r0,r0-n1" ',') = .ok [(0, 2), (2, 1)] := by
  refine ⟨?_, by decide, by decide, by decide, by decide⟩
  intro nH nR links bcConnections w hsame h
  unfold buildTopology at h
  simp only [hsame] at h
  split at h
  · simp at h
  · rename_i w0 hwire
    simp only [Bool.false_eq_true, if_false] at h
    obtain ⟨physical, q1, -, q3, -, q5⟩ := wireLinks_spec _ _ _ _ _ w0 hwire
    obtain ⟨overlay, p1, p2⟩ := resolveConnections_primary _ _ w0 w h
    refine ⟨physical, overlay, q1, p1, fun host => ?_⟩
    have key := p2 host
    rw [q5 rfl] at key
    simp only [Wiring.init, List.map_nil, List.nil_append] at key
    rw [key]
    apply List.map_congr_left
    intro p _
    rw [q3 p]
    simp only [Wiring.init, List.nil_append]
    exact head_ownedAddresses firstAddress physical p

theorem neighbour_is_primary_address_witness :
    ∃ w, buildTopology 3 1 "n0-r0,r0-n1,n2-r0" "n0-n1,n2-n0" = .ok w ∧
      ∃ physical overlay,
        parseAll (parseLink 3 1)
          (stringSplit (resolveDescriptions "n0-r0,r0-n1,n2-r0" "n0-n1,n2-n0").links ',')
            = .ok physical ∧
        parseAll (parseConnection 3)
          (stringSplit (resolveDescriptions "n0-r0,r0-n1,n2-r0" "n0-n1,n2-n0").bcConnections ',')
            = .ok overlay ∧
        ∀ host, (w.nodeConnections host).map some =
          (partners overlay host).map (primaryAddress firstAddress physical) :=
  ⟨_, rfl, neighbour_is_primary_address.1 3 1 "n0-r0,r0-n1,n2-r0" "n0-n1,n2-n0" _
    (by decide) rfl⟩

theorem resolveDescriptions_same (description : String) :
    resolveDescriptions description description =
      { links := description, bcConnections := description, same := true } := by
  by_cases h : description = ""
  · subst h; decide
  · simp [resolveDescriptions, h]

theorem partnerAddresses_owner (M : Nat → Option Nat) (next : Nat) (edges : List (Nat × Nat))
    (h : Nat) (hloop : ∀ e ∈ edges, e.1 ≠ e.2)
    (hown : ∀ v a, a ∈ ownedAddresses next edges v → M a = some v) :
    (partnerAddresses next edges h).map M = (partners edges h).map some := by
  induction edges generalizing next with
  | nil => rfl
  | cons e more ih =>
    have hne : e.1 ≠ e.2 := hloop e (List.mem_cons_self _ _)
    have h1 : M next = some e.1 := hown e.1 next (by simp [ownedAddresses])
    have h2 : M (next + 1) = some e.2 := hown e.2 (next + 1) (by simp [ownedAddresses])
    have hrec := ih (next + 2) (fun x hx => hloop x (List.mem_cons_of_mem _ hx))
      (fun v a ha => hown v a (by
        simp only [ownedAddresses, List.mem_append]
        exact Or.inr ha))
    rw [partners_cons, List.map_append, ← hrec]
    simp only [partnerAddresses, partners, List.filterMap_cons, List.filterMap_nil,
      List.map_append]
    by_cases c1 : e.1 = h
    · have c2 : ¬ e.2 = h := fun e0 => hne (c1.trans e0.symm)
      simp [c1, c2, h2]
    · by_cases c2 : e.2 = h
      · simp [c1, c2, h1]
      · simp [c1, c2]

theorem linkEndpoint_node_lt (nH nR : Nat) (sub : String) (v : Nat)
    (hk : kindChar sub = 'n') (h : linkEndpoint nH nR sub = .ok v) : v < nH := by
  cases hi : readIndex sub with
  | error e => simp [linkEndpoint, hi] at h
  | ok i =>
    rw [linkEndpoint_host nH nR sub i hi hk] at h
    split_ifs at h with hc
    simp only [Except.ok.injEq] at h
    omega

theorem hostOnly_edges (nH nR : Nat) (description : String) (physical : List (Nat × Nat))
    (hh : HostOnly description)
    (hp : parseAll (parseLink nH nR) (stringSplit description ',') = .ok physical) :
    ∀ e ∈ physical, e.1 < nH ∧ e.2 < nH := by
  intro e he
  obtain ⟨t, ht, hpt⟩ := parseAll_mem _ _ _ hp e he
  obtain ⟨a, b⟩ := e
  obtain ⟨s0, s1, hs, h0, h1, -⟩ := (parseToken_ok_iff _ t a b).mp hpt
  have k0 : kindChar s0 = 'n' := hh t ht s0 (by rw [hs]; simp)
  have k1 : kindChar s1 = 'n' := hh t ht s1 (by rw [hs]; simp)
  exact ⟨linkEndpoint_node_lt nH nR s0 a k0 h0, linkEndpoint_node_lt nH nR s1 b k1 h1⟩

theorem parseAll_distinct (nH nR : Nat) (tokens : List String) (physical : List (Nat × Nat))
    (hp : parseAll (parseLink nH nR) tokens = .ok physical) : ∀ e ∈ physical, e.1 ≠ e.2 := by
  intro e he
  obtain ⟨t, -, hpt⟩ := parseAll_mem _ _ _ hp e he
  obtain ⟨a, b⟩ := e
  obtain ⟨_, _, -, -, -, hab⟩ := (parseToken_ok_iff _ t a b).mp hpt
  exact hab

theorem mem_partners (edges : List (Nat × Nat)) (h p : Nat) (hp : p ∈ partners edges h) :
    ∃ e ∈ edges, p = e.1 ∨ p = e.2 := by
  unfold partners at hp
  rw [List.mem_filterMap] at hp
  obtain ⟨e, he, hv⟩ := hp
  refine ⟨e, he, ?_⟩
  split_ifs at hv <;> simp only [Option.some.injEq] at hv
  · exact Or.inr hv.symm
  · exact Or.inl hv.symm

/-- C17. When one description without router sub-tokens is given for both the
links and the connections and the topology is built, `same` is true, the
description parses to a list of edges, and the neighbour list of every host
holds, in the order of the edges, the address given to the other endpoint of
each edge of the host: as many entries as the host has edges, each owned by the
host at the other end, which is a host. With two hosts, no router and `n0-n1`
for both there is one edge and each host has exactly one neighbour, the address
of the other host. -/
theorem same_description_neighbours :
    (∀ (numberOfNodes numberOfRouters : Nat) (description : String) (w : Wiring),
      HostOnly description →
      buildTopology numberOfNodes numberOfRouters description description = .ok w →
      (resolveDescriptions description description).same = true ∧
      ∃ physical,
        parseAll (parseLink numberOfNodes numberOfRouters) (stringSplit description ',')
          = .ok physical ∧
        ∀ host,
          w.nodeConnections host = partnerAddresses firstAddress physical host ∧
          (w.nodeConnections host).length = degree physical host ∧
          (w.nodeConnections host).map w.ipNodeNumberMap = (partners physical host).map some ∧
          ∀ p ∈ partners physical host, p < numberOfNodes) ∧
    (resolveDescriptions "n0-n1" "n0-n1").same = true ∧
    parseAll (parseLink 2 0) (stringSplit "n0-n1" ',') = .ok [(0, 1)] ∧
    (buildTopology 2 0 "n0-n1" "n0-n1").map
        (fun w => (w.nodeConnections 0, w.nodeConnections 1, w.nodeIps 0, w.nodeIps 1))
      = .ok ([firstAddress + 1], [firstAddress], [firstAddress], [firstAddress + 1]) := by
  refine ⟨?_, by decide, by decide, by decide⟩
  intro nH nR description w hh h
  rw [buildTopology_eq, resolveDescriptions_same] at h
  rw [resolveDescriptions_same]
  refine ⟨rfl, ?_⟩
  unfold wireTopology at h
  simp only at h
  split at h
  · simp at h
  · rename_i w0 hwire
    simp only [if_true, Except.ok.injEq] at h
    subst h
    obtain ⟨physical, q1, -, q3, q4, -⟩ := wireLinks_spec _ _ _ _ _ w0 hwire
    have hown := ownersRecorded_wireLinks _ _ _ _ _ w0 ownersRecorded_init hwire
    refine ⟨physical, q1, fun host => ?_⟩
    have e1 : w0.nodeConnections host = partnerAddresses firstAddress physical host := by
      rw [q4 rfl host]
      simp [Wiring.init]
    have e2 : (w0.nodeConnections host).map w0.ipNodeNumberMap
        = (partners physical host).map some := by
      rw [e1]
      apply partnerAddresses_owner _ _ _ _ (parseAll_distinct _ _ _ _ q1)
      intro v a ha
      apply (hown v a _).1
      rw [q3 v]
      simp only [Wiring.init, List.nil_append]
      exact ha
    refine ⟨e1, ?_, e2, ?_⟩
    · rw [degree_eq_partners]
      have := congrArg List.length e2
      simpa using this
    · intro p hp
      obtain ⟨e, he, hpe⟩ := mem_partners physical host p hp
      have := hostOnly_edges nH nR description physical hh q1 e he
      rcases hpe with rfl | rfl
      · exact this.1
      · exact this.2

theorem same_description_neighbours_witness :
    ∃ w, buildTopology 3 0 "n0-n1,n1-n2" "n0-n1,n1-n2" = .ok w ∧
      w.nodeConnections 1 = partnerAddresses firstAddress [(0, 1), (1, 2)] 1 := by
  refine ⟨_, rfl, ?_⟩
  obtain ⟨-, physical, h1, h2⟩ := same_description_neighbours.1 3 0 "n0-n1,n1-n2" _
    (by
      intro t ht s hs
      have e : stringSplit "n0-n1,n1-n2" ',' = ["n0-n1", "n1-n2"] := by decide
      rw [e] at ht
      simp only [List.mem_cons, List.mem_singleton, List.not_mem_nil, or_false] at ht
      rcases ht with rfl | rfl
      · have e2 : stringSplit "n0-n1" '-' = ["n0", "n1"] := by decide
        rw [e2] at hs
        simp only [List.mem_cons, List.mem_singleton, List.not_mem_nil, or_false] at hs
        rcases hs with rfl | rfl <;> decide
      · have e2 : stringSplit "n1-n2" '-' = ["n1", "n2"] := by decide
        rw [e2] at hs
        simp only [List.mem_cons, List.mem_singleton, List.not_mem_nil, or_false] at hs
        rcases hs with rfl | rfl <;> decide)
    rfl
  have e : physical = [(0, 1), (1, 2)] := by
    have : parseAll (parseLink 3 0) (stringSplit "n0-n1,n1-n2" ',') = .ok [(0, 1), (1, 2)] := by
      decide
    rw [this] at h1
    simp only [Except.ok.injEq] at h1
    exact h1.symm
  rw [(h2 1).1, e]

theorem addressLog_get (same : Bool) (physical : List (Nat × Nat)) (w : Wiring) (j : Nat) :
    (addressLog same physical w).get? j =
      if j < physical.length then some (w.nextAddress + 2 * j, w.nextAddress + 2 * j + 1)
      else none := by
  induction physical generalizing w j with
  | nil => simp [addressLog]
  | cons e more ih =>
    cases j with
    | zero => simp [addressLog]
    | succ j =>
      simp only [addressLog, List.get?, List.length_cons]
      rw [ih]
      have hn : (wireLink same w e).nextAddress = w.nextAddress + 2 := rfl
      rw [hn]
      by_cases hj : j < more.length
      · rw [if_pos hj, if_pos (by omega)]
        congr 2 <;> omega
      · rw [if_neg hj, if_neg (by omega)]

theorem addressOf_eq (same : Bool) (physical : List (Nat × Nat)) (w : Wiring) (j : Nat)
    (second : Bool) :
    addressOf (addressLog same physical w) j second =
      if j < physical.length then
        some (w.nextAddress + 2 * j + (if second then 1 else 0))
      else none := by
  unfold addressOf
  rw [addressLog_get]
  by_cases hj : j < physical.length
  · rw [if_pos hj, if_pos hj]
    cases second <;> simp
  · rw [if_neg hj, if_neg hj]
    rfl

theorem ownedAddresses_mem (next : Nat) (physical : List (Nat × Nat)) (j : Nat) (e : Nat × Nat)
    (h : physical.get? j = some e) :
    next + 2 * j ∈ ownedAddresses next physical e.1 ∧
    next + 2 * j + 1 ∈ ownedAddresses next physical e.2 := by
  induction physical generalizing next j with
  | nil => simp at h
  | cons x more ih =>
    cases j with
    | zero =>
      simp only [List.get?, Option.some.injEq] at h
      subst h
      simp [ownedAddresses]
    | succ j =>
      simp only [List.get?] at h
      obtain ⟨a, b⟩ := ih (next + 2) j h
      have e1 : next + 2 * (j + 1) = next + 2 + 2 * j := by omega
      simp only [ownedAddresses, List.mem_append]
      rw [e1]
      exact ⟨Or.inr a, Or.inr b⟩

/-- C18. Address assignment is injective. In the wiring loop over any list of
links, repeated links included, round `j` takes two addresses from the pool, the
first for the first endpoint and the next for the second: with the pool at
`next` before the loop they are `next + 2 j` and `next + 2 j + 1`, so two
different pairs of a link number and an endpoint never have the same address.
After the loop of an accepted description each of these addresses is among the
addresses of its endpoint and is mapped to it by the reverse map. -/
theorem address_assignment_injective :
    (∀ (same : Bool) (physical : List (Nat × Nat)) (w : Wiring),
      (addressLog same physical w).length = physical.length ∧
      (∀ j, j < physical.length →
        addressOf (addressLog same physical w) j false = some (w.nextAddress + 2 * j) ∧
        addressOf (addressLog same physical w) j true = some (w.nextAddress + 2 * j + 1)) ∧
      (∀ j1 second1 j2 second2 a,
        addressOf (addressLog same physical w) j1 second1 = some a →
        addressOf (addressLog same physical w) j2 second2 = some a →
        j1 = j2 ∧ second1 = second2)) ∧
    (∀ (numberOfNodes numberOfRouters : Nat) (same : Bool) (tokens : List String)
        (w : Wiring),
      wireLinks numberOfNodes numberOfRouters same tokens Wiring.init = .ok w →
      ∃ physical, parseAll (parseLink numberOfNodes numberOfRouters) tokens = .ok physical ∧
        w.nextAddress = firstAddress + 2 * physical.length ∧
        ∀ j e, physical.get? j = some e →
          addressOf (addressLog same physical Wiring.init) j false ∈
            (w.nodeIps e.1).map some ∧
          addressOf (addressLog same physical Wiring.init) j true ∈
            (w.nodeIps e.2).map some ∧
          w.ipNodeNumberMap (firstAddress + 2 * j) = some e.1 ∧
          w.ipNodeNumberMap (firstAddress + 2 * j + 1) = some e.2) := by
  constructor
  · intro same physical w
    refine ⟨?_, ?_, ?_⟩
    · induction physical generalizing w with
      | nil => rfl
      | cons e more ih => simp only [addressLog, List.length_cons, ih]
    · intro j hj
      rw [addressOf_eq, addressOf_eq, if_pos hj, if_pos hj]
      simp
    · intro j1 s1 j2 s2 a h1 h2
      rw [addressOf_eq] at h1 h2
      by_cases c1 : j1 < physical.length
      · by_cases c2 : j2 < physical.length
        · rw [if_pos c1] at h1
          rw [if_pos c2] at h2
          simp only [Option.some.injEq] at h1 h2
          cases s1 <;> cases s2 <;> simp at h1 h2 ⊢ <;> omega
        · rw [if_neg c2] at h2
          simp at h2
      · rw [if_neg c1] at h1
        simp at h1
  · intro nH nR same tokens w h
    obtain ⟨physical, q1, q2, q3, -, -⟩ := wireLinks_spec _ _ _ _ _ w h
    have hown := ownersRecorded_wireLinks _ _ _ _ _ w ownersRecorded_init h
    refine ⟨physical, q1, q2, ?_⟩
    intro j e he
    have hj : j < physical.length := by
      by_contra hc
      rw [List.get?_eq_none.mpr (by omega)] at he
      simp at he
    obtain ⟨m1, m2⟩ := ownedAddresses_mem firstAddress physical j e he
    have n1 : firstAddress + 2 * j ∈ w.nodeIps e.1 := by
      rw [q3 e.1]; simp only [Wiring.init, List.nil_append]; exact m1
    have n2 : firstAddress + 2 * j + 1 ∈ w.nodeIps e.2 := by
      rw [q3 e.2]; simp only [Wiring.init, List.nil_append]; exact m2
    rw [addressOf_eq, addressOf_eq, if_pos hj, if_pos hj]
    refine ⟨?_, ?_, (hown _ _ n1).1, (hown _ _ n2).1⟩
    · simp only [Bool.false_eq_true, if_false, Nat.add_zero]
      exact List.mem_map_of_mem some n1
    · simp only [if_true]
      exact List.mem_map_of_mem some n2

theorem address_assignment_injective_witness :
    addressOf (addressLog true [(0, 1), (0, 1)] Wiring.init) 0 true = some (firstAddress + 1) ∧
    addressOf (addressLog true [(0, 1), (0, 1)] Wiring.init) 1 true = some (firstAddress + 3) ∧
    ∃ w, wireLinks 2 0 true ["n0-n1", "n0-n1"] Wiring.init = .ok w ∧
      w.nextAddress = firstAddress + 4 :=
  ⟨((address_assignment_injective.1 true [(0, 1), (0, 1)] Wiring.init).2.1 0 (by decide)).2,
   ((address_assignment_injective.1 true [(0, 1), (0, 1)] Wiring.init).2.1 1 (by decide)).2,
   _, rfl, by
     obtain ⟨physical, h1, h2, -⟩ :=
       address_assignment_injective.2 2 0 true ["n0-n1", "n0-n1"] _ rfl
     have e : physical = [(0, 1), (0, 1)] := by
       have : parseAll (parseLink 2 0) ["n0-n1", "n0-n1"] = .ok [(0, 1), (0, 1)] := by decide
       rw [this] at h1
       simp only [Except.ok.injEq] at h1
       exact h1.symm
     rw [h2, e]
     rfl⟩

/-! ## The run as a whole -/

/-- A run that ends with `return 0`, or that installs anything, has passed
every step before the installation loop. -/
theorem main_passed (cfg : Config) (draws : List Nat)
    (h : (main cfg draws).exit = .ok () ∨ (main cfg draws).installs ≠ []) :
    ∃ tcp cfg1 hashPowers w,
      checkBasics cfg = .ok tcp ∧
      checkMinConnections (applyTopology cfg) = .ok () ∧
      applyGenerator (applyTopology cfg) draws = .ok cfg1 ∧
      checkParameters cfg1 = .ok () ∧
      checkVectors cfg1
        (stringSplit (resolveDescriptions cfg1.links cfg1.bcConnections).links ',').length
          = .ok () ∧
      hashPowersOf cfg1 = .ok hashPowers ∧
      wireTopology cfg1.numberOfNodes.toNat cfg1.numberOfRouters.toNat
        (resolveDescriptions cfg1.links cfg1.bcConnections) = .ok w ∧
      (main cfg draws).installs =
        (List.range cfg1.numberOfNodes.toNat).map (installCall cfg1 tcp hashPowers w) ∧
      (main cfg draws).exit = .ok () := by
  cases hb : checkBasics cfg with
  | error s => exfalso; simp [main, hb, Run.stopped] at h
  | ok tcp =>
    cases hm : checkMinConnections (applyTopology cfg) with
    | error s => exfalso; simp [main, hb, hm, Run.stopped] at h
    | ok u =>
      cases hg : applyGenerator (applyTopology cfg) draws with
      | error s => exfalso; simp [main, hb, hm, hg, Run.stopped] at h
      | ok cfg1 =>
        cases hp : checkParameters cfg1 with
        | error s => exfalso; simp [main, hb, hm, hg, hp, Run.stopped] at h
        | ok u2 =>
          cases hv : checkVectors cfg1
              (stringSplit (resolveDescriptions cfg1.links cfg1.bcConnections).links ',').length with
          | error s => exfalso; simp [main, hb, hm, hg, hp, hv, Run.stopped] at h
          | ok u3 =>
            cases hh : hashPowersOf cfg1 with
            | error s => exfalso; simp [main, hb, hm, hg, hp, hv, hh, Run.stopped] at h
            | ok hashPowers =>
              cases hw : wireTopology cfg1.numberOfNodes.toNat cfg1.numberOfRouters.toNat
                  (resolveDescriptions cfg1.links cfg1.bcConnections) with
              | error f => exfalso; simp [main, hb, hm, hg, hp, hv, hh, hw, Run.stopped] at h
              | ok w =>
                refine ⟨tcp, cfg1, hashPowers, w, rfl, rfl, rfl, hp, hv, hh, hw, ?_, ?_⟩
                · simp [main, hb, hm, hg, hp, hv, hh, hw]
                · simp [main, hb, hm, hg, hp, hv, hh, hw]

/-- C12. Fail-fast: a run that does not end with `return 0` has installed
nothing; and a run that installs anything, or ends with `return 0`, has passed
every check before: the basic values, the minimum number of connections, the
generator, the parameters, the lengths of the lists, the hash powers, every
token of the links and, when `same` is false, every token of the connections
(when `same` is true the connections are the links). -/
theorem fail_fast (cfg : Config) (draws : List Nat) :
    ((main cfg draws).exit ≠ .ok () → (main cfg draws).installs = []) ∧
    ((main cfg draws).exit = .ok () ∨ (main cfg draws).installs ≠ [] →
      ∃ tcp cfg1 hashPowers,
        checkBasics cfg = .ok tcp ∧
        checkMinConnections (applyTopology cfg) = .ok () ∧
        applyGenerator (applyTopology cfg) draws = .ok cfg1 ∧
        checkParameters cfg1 = .ok () ∧
        checkVectors cfg1
          (stringSplit (resolveDescriptions cfg1.links cfg1.bcConnections).links ',').length
            = .ok () ∧
        hashPowersOf cfg1 = .ok hashPowers ∧
        (∀ t ∈ stringSplit (resolveDescriptions cfg1.links cfg1.bcConnections).links ',',
          ∃ e, parseLink cfg1.numberOfNodes.toNat cfg1.numberOfRouters.toNat t = .ok e) ∧
        ((resolveDescriptions cfg1.links cfg1.bcConnections).same = false →
          ∀ t ∈ stringSplit (resolveDescriptions cfg1.links cfg1.bcConnections).bcConnections ',',
            ∃ e, parseConnection cfg1.numberOfNodes.toNat t = .ok e) ∧
        ((resolveDescriptions cfg1.links cfg1.bcConnections).same = true →
          (resolveDescriptions cfg1.links cfg1.bcConnections).bcConnections =
            (resolveDescriptions cfg1.links cfg1.bcConnections).links)) := by
  constructor
  · intro hne
    by_contra hinst
    obtain ⟨_, _, _, _, -, -, -, -, -, -, -, -, hexit⟩ := main_passed cfg draws (Or.inr hinst)
    exact hne hexit
  · intro h
    obtain ⟨tcp, cfg1, hp, w, h1, h2, h3, h4, h5, h6, h7, -, -⟩ := main_passed cfg draws h
    obtain ⟨t1, t2⟩ := wireTopology_ok _ _ _ w h7
    exact ⟨tcp, cfg1, hp, h1, h2, h3, h4, h5, h6, t1, t2,
      fun hs => ((resolveDescriptions_cases cfg1.links cfg1.bcConnections).2.2.2.2.mpr hs).symm⟩

theorem fail_fast_witness :
    (main { numberOfNodes := 3, links := "n0-n1,n1-n0x,n2-n2" } []).installs = [] :=
  (fail_fast { numberOfNodes := 3, links := "n0-n1,n1-n0x,n2-n2" } []).1 (by decide)

theorem applyTopology_timeout (cfg : Config) :
    (applyTopology cfg).testGetDataTimeoutVictim = cfg.testGetDataTimeoutVictim ∧
    (applyTopology cfg).testGetDataTimeoutAttacker = cfg.testGetDataTimeoutAttacker := by
  unfold applyTopology
  split_ifs <;> exact ⟨rfl, rfl⟩

theorem applyGenerator_timeout (cfg cfg1 : Config) (draws : List Nat)
    (h : applyGenerator cfg draws = .ok cfg1) :
    cfg1.testGetDataTimeoutVictim = cfg.testGetDataTimeoutVictim ∧
    cfg1.testGetDataTimeoutAttacker = cfg.testGetDataTimeoutAttacker ∧
    cfg1.numberOfNodes = cfg.numberOfNodes := by
  unfold applyGenerator at h
  by_cases h1 : cfg.minConnectionsPerNode > -1
  · rw [if_pos h1] at h
    simp only at h
    split_ifs at h with h2
    simp only [Except.ok.injEq] at h
    rw [← h]
    exact ⟨rfl, rfl, rfl⟩
  · rw [if_neg h1] at h
    simp only [Except.ok.injEq] at h
    rw [← h]
    exact ⟨rfl, rfl, rfl⟩

theorem checkParameters_attacker (cfg : Config) (h : checkParameters cfg = .ok ())
    (hv : cfg.testGetDataTimeoutVictim < 0) : cfg.testGetDataTimeoutAttacker < 0 := by
  unfold checkParameters at h
  by_contra hc
  have h2 : ¬ (cfg.testGetDataTimeoutAttacker < 0 ∧ cfg.testGetDataTimeoutVictim < 0) ∧
      (cfg.testGetDataTimeoutVictim < 0 ∨
        cfg.testGetDataTimeoutVictim ≥ cfg.numberOfNodes) :=
    ⟨fun hh => hc hh.1, Or.inl hv⟩
  by_cases c1 : ¬ (cfg.testGetDataTimeoutAttacker < 0 ∧ cfg.testGetDataTimeoutVictim < 0) ∧
      (cfg.testGetDataTimeoutAttacker < 0 ∨
        cfg.testGetDataTimeoutAttacker ≥ cfg.numberOfNodes)
  · rw [if_pos c1] at h
    cases h
  · rw [if_neg c1, if_pos h2] at h
    cases h

/-- C20. When no timeout victim is given (the value is negative) and the run is
accepted, there is a call of `installBCS` for every host, and every call
carries a victim number equal to the number of nodes, above the node number of
every call, and no call has the flag of the timeout attacker. -/
theorem victim_sentinel (cfg : Config) (draws : List Nat)
    (hvictim : cfg.testGetDataTimeoutVictim < 0) (hok : (main cfg draws).exit = .ok ()) :
    (main cfg draws).installs ≠ [] ∧
    ∀ c ∈ (main cfg draws).installs,
      c.testGetDataTimeoutVictim = c.numberOfNodes ∧
      (c.nodeNumber : Int) < c.numberOfNodes ∧
      (∀ c2 ∈ (main cfg draws).installs,
        (c2.nodeNumber : Int) ≠ c.testGetDataTimeoutVictim) ∧
      c.testGetDataTimeout = false := by
  obtain ⟨tcp, cfg1, hp, w, h1, -, h3, h4, -, -, -, hinst, -⟩ :=
    main_passed cfg draws (Or.inl hok)
  obtain ⟨g1, g2, g3⟩ := applyGenerator_timeout _ _ _ h3
  obtain ⟨t1, t2⟩ := applyTopology_timeout cfg
  have hv1 : cfg1.testGetDataTimeoutVictim < 0 := by rw [g1, t1]; exact hvictim
  have ha1 : cfg1.testGetDataTimeoutAttacker < 0 := checkParameters_attacker cfg1 h4 hv1
  have hn : 2 ≤ cfg1.numberOfNodes := by
    rw [g3]
    exact applyTopology_nodes cfg (checkBasics_ok cfg tcp h1).1
  have hcall : ∀ c ∈ (main cfg draws).installs,
      c.testGetDataTimeoutVictim = cfg1.numberOfNodes ∧ c.numberOfNodes = cfg1.numberOfNodes ∧
      (c.nodeNumber : Int) < cfg1.numberOfNodes ∧ c.testGetDataTimeout = false := by
    intro c hc
    rw [hinst, List.mem_map] at hc
    obtain ⟨h, hh, rfl⟩ := hc
    rw [List.mem_range] at hh
    refine ⟨?_, rfl, ?_, ?_⟩
    · simp only [installCall, victimOf, hv1, if_true]
    · simp only [installCall]
      omega
    · simp only [installCall, decide_eq_false_iff_not]
      omega
  constructor
  · rw [hinst]
    intro he
    have := congrArg List.length he
    simp only [List.length_map, List.length_range, List.length_nil] at this
    omega
  · intro c hc
    obtain ⟨a1, a2, a3, a4⟩ := hcall c hc
    refine ⟨by rw [a1, a2], by rw [a2]; exact a3, ?_, a4⟩
    intro c2 hc2
    obtain ⟨-, -, b3, -⟩ := hcall c2 hc2
    rw [a1]
    omega

theorem victim_sentinel_witness :
    (main { topology := 4 } []).installs.map
        (fun c => (c.nodeNumber, c.testGetDataTimeoutVictim, c.testGetDataTimeout))
      = [(0, 5, false), (1, 5, false), (2, 5, false), (3, 5, false), (4, 5, false)] ∧
    ∀ c ∈ (main { topology := 4 } []).installs, c.testGetDataTimeoutVictim = c.numberOfNodes :=
  ⟨by decide, fun c hc => ((victim_sentinel { topology := 4 } [] (by decide) (by decide)).2 c hc).1⟩

/-! ## The parameters of a run that reaches the installation -/

theorem applyTopology_same (cfg : Config) : SameParameters (applyTopology cfg) cfg := by
  unfold applyTopology
  split_ifs <;> exact ⟨rfl, rfl, rfl, rfl, rfl, rfl, rfl, rfl, rfl, rfl, rfl, rfl, rfl⟩

theorem applyGenerator_same (cfg cfg1 : Config) (draws : List Nat)
    (h : applyGenerator cfg draws = .ok cfg1) :
    SameParameters cfg1 cfg ∧ cfg1.numberOfNodes = cfg.numberOfNodes := by
  unfold applyGenerator at h
  by_cases h1 : cfg.minConnectionsPerNode > -1
  · rw [if_pos h1] at h
    simp only at h
    split_ifs at h with h2
    simp only [Except.ok.injEq] at h
    rw [← h]
    exact ⟨⟨rfl, rfl, rfl, rfl, rfl, rfl, rfl, rfl, rfl, rfl, rfl, rfl, rfl⟩, rfl⟩
  · rw [if_neg h1] at h
    simp only [Except.ok.injEq] at h
    rw [← h]
    exact ⟨⟨rfl, rfl, rfl, rfl, rfl, rfl, rfl, rfl, rfl, rfl, rfl, rfl, rfl⟩, rfl⟩

theorem ite_error_ok {α : Type} {c : Prop} [Decidable c] {e : Stop} {x : Except Stop α} {u : α}
    (h : (if c then Except.error e else x) = Except.ok u) : ¬ c ∧ x = Except.ok u := by
  by_cases hc : c
  · rw [if_pos hc] at h; cases h
  · rw [if_neg hc] at h; exact ⟨hc, h⟩

theorem ite_error_error {α : Type} {c : Prop} [Decidable c] {e s : Stop} {x : Except Stop α}
    (h : (if c then Except.error e else x) = Except.error s) : s = e ∨ x = Except.error s := by
  by_cases hc : c
  · rw [if_pos hc] at h
    simp only [Except.error.injEq] at h
    exact Or.inl h.symm
  · rw [if_neg hc] at h; exact Or.inr h

theorem checkParameters_valid (cfg : Config) (h : checkParameters cfg = .ok ()) :
    ParametersValid cfg := by
  unfold checkParameters at h
  obtain ⟨-, h⟩ := ite_error_ok h
  obtain ⟨-, h⟩ := ite_error_ok h
  obtain ⟨-, h⟩ := ite_error_ok h
  obtain ⟨-, h⟩ := ite_error_ok h
  obtain ⟨c5, h⟩ := ite_error_ok h
  obtain ⟨c6, h⟩ := ite_error_ok h
  obtain ⟨c7, h⟩ := ite_error_ok h
  obtain ⟨c8, h⟩ := ite_error_ok h
  obtain ⟨c9, h⟩ := ite_error_ok h
  obtain ⟨c10, h⟩ := ite_error_ok h
  obtain ⟨c11, h⟩ := ite_error_ok h
  obtain ⟨c12, h⟩ := ite_error_ok h
  obtain ⟨c13, h⟩ := ite_error_ok h
  obtain ⟨c14, -⟩ := ite_error_ok h
  exact ⟨by omega, by omega, by omega, by omega, le_of_not_lt c10, by omega, by omega,
    lt_of_not_le c12, lt_of_not_le c13, lt_of_not_le c14⟩

theorem checkParameters_error (cfg : Config) (s : Stop) (h : checkParameters cfg = .error s) :
    s = .config := by
  unfold checkParameters at h
  rcases ite_error_error h with h | h
  · exact h
  rcases ite_error_error h with h | h
  · exact h
  rcases ite_error_error h with h | h
  · exact h
  rcases ite_error_error h with h | h
  · exact h
  rcases ite_error_error h with h | h
  · exact h
  rcases ite_error_error h with h | h
  · exact h
  rcases ite_error_error h with h | h
  · exact h
  rcases ite_error_error h with h | h
  · exact h
  rcases ite_error_error h with h | h
  · exact h
  rcases ite_error_error h with h | h
  · exact h
  rcases ite_error_error h with h | h
  · exact h
  rcases ite_error_error h with h | h
  · exact h
  rcases ite_error_error h with h | h
  · exact h
  rcases ite_error_error h with h | h
  · exact h
  cases h

theorem parametersInvalid_not_valid (cfg : Config) (h : ParametersInvalid cfg) :
    ¬ ParametersValid cfg := by
  intro ⟨v1, v2, v3, v4, v5, v6, v7, v8, v9, v10⟩
  rcases h with h | h | h | h | h | h | h | h | h | h
  · omega
  · omega
  · omega
  · omega
  · exact absurd v5 (not_le.mpr h)
  · omega
  · omega
  · exact absurd v8 (not_lt.mpr h)
  · exact absurd v9 (not_lt.mpr h)
  · exact absurd v10 (not_lt.mpr h)

theorem checkParameters_invalid (cfg : Config) (h : ParametersInvalid cfg) :
    checkParameters cfg = .error .config := by
  cases hc : checkParameters cfg with
  | ok u => exact absurd (checkParameters_valid cfg hc) (parametersInvalid_not_valid cfg h)
  | error s => rw [checkParameters_error cfg s hc]

theorem parametersValid_of_same (a b : Config) (hs : SameParameters a b)
    (h : ParametersValid a) : ParametersValid b := by
  obtain ⟨e1, e2, e3, e4, e5, e6, e7, e8, e9, -, -, -, -⟩ := hs
  unfold ParametersValid at h ⊢
  rw [← e1, ← e2, ← e3, ← e4, ← e5, ← e6, ← e7, ← e8, ← e9]
  exact h

theorem parametersInvalid_of_same (a b : Config) (hs : SameParameters a b)
    (h : ParametersInvalid b) : ParametersInvalid a := by
  obtain ⟨e1, e2, e3, e4, e5, e6, e7, e8, e9, -, -, -, -⟩ := hs
  unfold ParametersInvalid at h ⊢
  rw [e1, e2, e3, e4, e5, e6, e7, e8, e9]
  exact h

theorem sameParameters_trans (a b c : Config) (h1 : SameParameters a b)
    (h2 : SameParameters b c) : SameParameters a c := by
  obtain ⟨a1, a2, a3, a4, a5, a6, a7, a8, a9, a10, a11, a12, a13⟩ := h1
  obtain ⟨b1, b2, b3, b4, b5, b6, b7, b8, b9, b10, b11, b12, b13⟩ := h2
  exact ⟨a1.trans b1, a2.trans b2, a3.trans b3, a4.trans b4, a5.trans b5, a6.trans b6,
    a7.trans b7, a8.trans b8, a9.trans b9, a10.trans b10, a11.trans b11, a12.trans b12,
    a13.trans b13⟩

/-- C22. Configuration validation: a run that installs anything or ends with
`return 0` has `0 ≤ transactionSize ≤ blockSize`, no negative number of
transactions per block or fee, and a positive end time, get-data timeout, mean
block and transaction intervals and block reward. A configuration that breaks
one of these installs nothing and does not end with `return 0`; when the run
gets as far as lines 527-601 it stops there with a configuration error. -/
theorem parameters_validated (cfg : Config) (draws : List Nat) :
    ((main cfg draws).exit = .ok () ∨ (main cfg draws).installs ≠ [] →
      ParametersValid cfg) ∧
    (ParametersInvalid cfg →
      (main cfg draws).exit ≠ .ok () ∧ (main cfg draws).installs = []) ∧
    (ParametersInvalid cfg → ∀ tcp cfg1, checkBasics cfg = .ok tcp →
      checkMinConnections (applyTopology cfg) = .ok () →
      applyGenerator (applyTopology cfg) draws = .ok cfg1 →
      (main cfg draws).exit = .error .config) := by
  have key : (main cfg draws).exit = .ok () ∨ (main cfg draws).installs ≠ [] →
      ParametersValid cfg := by
    intro h
    obtain ⟨tcp, cfg1, hp, w, -, -, h3, h4, -, -, -, -, -⟩ := main_passed cfg draws h
    have hs := sameParameters_trans _ _ _ (applyGenerator_same _ _ _ h3).1
      (applyTopology_same cfg)
    exact parametersValid_of_same cfg1 cfg hs (checkParameters_valid cfg1 h4)
  refine ⟨key, ?_, ?_⟩
  · intro hbad
    constructor
    · intro hok
      exact parametersInvalid_not_valid cfg hbad (key (Or.inl hok))
    · by_contra hne
      exact parametersInvalid_not_valid cfg hbad (key (Or.inr hne))
  · intro hbad tcp cfg1 h1 h2 h3
    have hs := sameParameters_trans _ _ _ (applyGenerator_same _ _ _ h3).1
      (applyTopology_same cfg)
    have h4 := checkParameters_invalid cfg1 (parametersInvalid_of_same cfg1 cfg hs hbad)
    simp [main, h1, h2, h3, h4, Run.stopped]

theorem parameters_validated_witness :
    (main { transactionSize := 600 } []).exit = .error .config ∧
    (main { transactionSize := 600 } []).installs = [] :=
  ⟨(parameters_validated { transactionSize := 600 } []).2.2 (Or.inl (by decide)) true _
      (by decide) (by decide) rfl,
   ((parameters_validated { transactionSize := 600 } []).2.1 (Or.inl (by decide))).2⟩

/-- C28 fails as stated: line 568 rejects only a negative `transactionSize`, as
its message says, so with `transactionSize = 0` and the default
`numberTransactionsBlock = 0` every check passes and both hosts are installed
with a transaction size of zero, which is not strictly positive. -/
theorem zero_transaction_size_accepted :
    checkParameters { transactionSize := 0 } = .ok () ∧
    (main { transactionSize := 0 } []).exit = .ok () ∧
    (main { transactionSize := 0 } []).installs.map
        (fun c => (c.nodeNumber, c.numberTransactionsBlock, c.blockSize, c.transactionSize))
      = [(0, 0, 500, 0), (1, 0, 500, 0)] := by
  decide

theorem checkParameters_transactionSize (t : Int) (h0 : 0 ≤ t) (h1 : t ≤ 500) :
    checkParameters { transactionSize := t } = .ok () := by
  have a : ¬ t < 0 := by omega
  have b : ¬ t > 500 := by omega
  unfold checkParameters
  simp only [a, b, if_false]
  norm_num

/-- C28 as amended. For every configuration that passes validation, with
`numberTransactionsBlock` zero or not, `transactionSize` is not negative and
not above `blockSize`, and every call of `installBCS` receives it unchanged
together with `blockSize` and `numberTransactionsBlock`. Validation does not
ask for more: with the other values at their defaults every `transactionSize`
from 0 to 500, zero included, passes the checks of lines 544-601. -/
theorem transaction_size_validated (cfg : Config) (draws : List Nat)
    (h : (main cfg draws).exit = .ok ()) :
    0 ≤ cfg.transactionSize ∧ cfg.transactionSize ≤ cfg.blockSize ∧
    (∀ c ∈ (main cfg draws).installs,
      c.transactionSize = cfg.transactionSize ∧ c.blockSize = cfg.blockSize ∧
      c.numberTransactionsBlock = cfg.numberTransactionsBlock) ∧
    (∀ t : Int, 0 ≤ t → t ≤ 500 → checkParameters { transactionSize := t } = .ok ()) := by
  obtain ⟨tcp, cfg1, hp, w, -, -, h3, h4, -, -, -, hinst, -⟩ :=
    main_passed cfg draws (Or.inl h)
  have hsame := sameParameters_trans _ _ _ (applyGenerator_same _ _ _ h3).1
    (applyTopology_same cfg)
  have hvalid := parametersValid_of_same _ _ hsame (checkParameters_valid cfg1 h4)
  refine ⟨hvalid.1, hvalid.2.1, ?_, checkParameters_transactionSize⟩
  intro c hc
  rw [hinst] at hc
  obtain ⟨k, -, rfl⟩ := List.mem_map.mp hc
  exact ⟨hsame.2.2.2.1, hsame.2.2.1, hsame.2.1⟩

theorem transaction_size_validated_witness :
    0 ≤ (0 : Int) ∧ (0 : Int) ≤ 500 ∧
    checkParameters { transactionSize := 0 } = .ok () :=
  ⟨(transaction_size_validated { transactionSize := 0 } [] (by decide)).1,
   (transaction_size_validated { transactionSize := 0 } [] (by decide)).2.1,
   (transaction_size_validated { transactionSize := 0 } [] (by decide)).2.2.2 0
     (by decide) (by decide)⟩

/-! ## Hash powers and the calls of `installBCS` -/

theorem addInt32_small (x y : Int) (h0 : intMin ≤ x + y) (h1 : x + y ≤ intMax) :
    addInt32 x y = x + y := by
  unfold addInt32
  unfold intMin at h0
  unfold intMax at h1
  omega

theorem foldl_addInt32_sum (values : List Int) (total : Int) (h0 : 0 ≤ total)
    (hpos : ∀ v ∈ values, 0 ≤ v) (hsum : total + values.sum ≤ intMax) :
    values.foldl addInt32 total = total + values.sum := by
  induction values generalizing total with
  | nil => simp
  | cons v more ih =>
    have hv : 0 ≤ v := hpos v (List.mem_cons_self _ _)
    have hm : 0 ≤ more.sum := List.sum_nonneg (fun x hx => hpos x (List.mem_cons_of_mem _ hx))
    rw [List.sum_cons] at hsum
    have e : addInt32 total v = total + v :=
      addInt32_small total v (by unfold intMin; omega) (by omega)
    rw [List.foldl_cons, e, ih (total + v) (by omega)
      (fun x hx => hpos x (List.mem_cons_of_mem _ hx)) (by omega), List.sum_cons]
    omega

theorem readHashPowers_spec (texts : List String) (acc : List Int) (total : Int)
    (hp : List Int × Int) (h : readHashPowers texts acc total = .ok hp) :
    ∃ values, hp.1 = acc ++ values ∧ values.length = texts.length ∧
      hp.2 = values.foldl addInt32 total ∧ (∀ v ∈ values, 0 ≤ v) ∧
      ∀ i text, texts.get? i = some text →
        ∃ v, values.get? i = some v ∧ stoi text.data = .ok v := by
  induction texts generalizing acc total with
  | nil =>
    simp only [readHashPowers, Except.ok.injEq] at h
    rw [← h]
    exact ⟨[], by simp, rfl, rfl, by simp, by simp⟩
  | cons text more ih =>
    simp only [readHashPowers] at h
    split at h
    · cases h
    · cases h
    · rename_i power hpower
      split_ifs at h with hneg
      obtain ⟨values, e1, e2, e3, e4, e5⟩ := ih _ _ h
      refine ⟨power :: values, ?_, ?_, ?_, ?_, ?_⟩
      · rw [e1, List.append_assoc]; rfl
      · simp only [List.length_cons, e2]
      · rw [e3]; rfl
      · intro v hv
        rcases List.mem_cons.mp hv with rfl | hv
        · omega
        · exact e4 v hv
      · intro i t ht
        cases i with
        | zero =>
          simp only [List.get?, Option.some.injEq] at ht
          subst ht
          exact ⟨power, rfl, hpower⟩
        | succ i =>
          simp only [List.get?] at ht
          exact e5 i t ht

theorem defaultHashPowers (n : Nat) :
    (List.range n).foldl (fun (acc : List Int × Int) _ => (acc.1 ++ [10], addInt32 acc.2 10))
      ([], 0) = (List.replicate n 10, (List.replicate n (10 : Int)).foldl addInt32 0) := by
  induction n with
  | zero => rfl
  | succ n ih =>
    rw [List.range_succ, List.foldl_append, ih]
    simp only [List.foldl_cons, List.foldl_nil]
    rw [List.replicate_succ', List.foldl_append]
    rfl

/-- What `hashPowersOf` returns when it returns: one share per node, none
negative, and the total computed by 32-bit additions. -/
theorem hashPowersOf_spec (cfg : Config) (hp : List Int × Int) (hn : 0 ≤ cfg.numberOfNodes)
    (h : hashPowersOf cfg = .ok hp) :
    hp.1.length = cfg.numberOfNodes.toNat ∧ (∀ v ∈ hp.1, 0 ≤ v) ∧
    hp.2 = hp.1.foldl addInt32 0 ∧
    (cfg.hashPowers.length = 0 → hp.1 = List.replicate cfg.numberOfNodes.toNat 10) ∧
    (cfg.hashPowers.length > 0 →
      ((stringSplit cfg.hashPowers ',').length : Int) = cfg.numberOfNodes ∧
      ∀ i text, (stringSplit cfg.hashPowers ',').get? i = some text →
        ∃ v, hp.1.get? i = some v ∧ stoi text.data = .ok v ∧ 0 ≤ v) := by
  unfold hashPowersOf at h
  by_cases hs : cfg.hashPowers.length > 0
  · rw [if_pos hs] at h
    by_cases hl : ((stringSplit cfg.hashPowers ',').length : Int) ≠ cfg.numberOfNodes
    · rw [if_pos hl] at h; cases h
    · rw [if_neg hl] at h
      have hl2 : ((stringSplit cfg.hashPowers ',').length : Int) = cfg.numberOfNodes :=
        not_not.mp hl
      obtain ⟨values, e1, e2, e3, e4, e5⟩ := readHashPowers_spec _ _ _ hp h
      rw [List.nil_append] at e1
      rw [e1]
      refine ⟨by rw [e2]; omega, e4, e3, fun h0 => absurd hs (by omega), fun _ => ⟨hl2, ?_⟩⟩
      intro i text ht
      obtain ⟨v, hv, hst⟩ := e5 i text ht
      exact ⟨v, hv, hst, e4 v (List.get?_mem hv)⟩
  · rw [if_neg hs] at h
    simp only [Except.ok.injEq] at h
    rw [defaultHashPowers] at h
    rw [← h]
    refine ⟨by simp, ?_, rfl, fun _ => rfl, fun h1 => absurd h1 hs⟩
    intro v hv
    rw [List.eq_of_mem_replicate hv]
    decide

/-- The calls of an accepted run, one per node number below the number of
nodes, with the values each receives. -/
theorem main_calls (cfg : Config) (draws : List Nat) (h : (main cfg draws).exit = .ok ()) :
    ∃ cfg1 hashPowers w,
      applyGenerator (applyTopology cfg) draws = .ok cfg1 ∧
      2 ≤ cfg1.numberOfNodes ∧
      hashPowersOf cfg1 = .ok hashPowers ∧
      buildTopology cfg1.numberOfNodes.toNat cfg1.numberOfRouters.toNat cfg1.links
        cfg1.bcConnections = .ok w ∧
      (main cfg draws).installs.length = cfg1.numberOfNodes.toNat ∧
      (main cfg draws).installs.map (fun c => c.nodeNumber)
        = List.range cfg1.numberOfNodes.toNat ∧
      ∀ h, h < cfg1.numberOfNodes.toNat →
        ∃ c, (main cfg draws).installs.get? h = some c ∧
          c.nodeNumber = h ∧ c.numberOfNodes = cfg1.numberOfNodes ∧
          c.neighbourIps = w.nodeConnections h ∧
          hashPowers.1.get? h = some c.hashPower ∧
          c.totalHashPower = hashPowers.2 ∧
          (c.testGetDataTimeout = true ↔ cfg.testGetDataTimeoutAttacker = (h : Int)) := by
  obtain ⟨tcp, cfg1, hp, w, h1, -, h3, -, -, h6, h7, hinst, -⟩ :=
    main_passed cfg draws (Or.inl h)
  have hn : 2 ≤ cfg1.numberOfNodes := by
    rw [(applyGenerator_same _ _ _ h3).2]
    exact applyTopology_nodes cfg (checkBasics_ok cfg tcp h1).1
  have hatt : cfg1.testGetDataTimeoutAttacker = cfg.testGetDataTimeoutAttacker :=
    (sameParameters_trans _ _ _ (applyGenerator_same _ _ _ h3).1
      (applyTopology_same cfg)).2.2.2.2.2.2.2.2.2.2.1
  obtain ⟨hlen, -, -, -, -⟩ := hashPowersOf_spec cfg1 hp (by omega) h6
  refine ⟨cfg1, hp, w, h3, hn, h6, by rw [buildTopology_eq]; exact h7, ?_, ?_, ?_⟩
  · rw [hinst, List.length_map, List.length_range]
  · rw [hinst, List.map_map]
    conv_rhs => rw [← List.map_id (List.range cfg1.numberOfNodes.toNat)]
    rfl
  · intro k hk
    refine ⟨installCall cfg1 tcp hp w k, ?_, rfl, rfl, rfl, ?_, rfl, ?_⟩
    · rw [hinst, List.get?_map, List.get?_range hk]
      rfl
    · obtain ⟨v, hv⟩ : ∃ v, hp.1.get? k = some v := by
        cases hg : hp.1.get? k with
        | none =>
          rw [List.get?_eq_none] at hg
          omega
        | some v => exact ⟨v, rfl⟩
      simp only [installCall, hv, Option.getD_some]
    · simp only [installCall, decide_eq_true_eq, hatt]

/-- C21. On an accepted run `installBCS` is called exactly once for every host,
in the order of the host numbers 0, 1, ..., and for nothing else: the list of
the node numbers of the calls is the list of the numbers below the number of
hosts. The call for host `h` receives the node number `h`, the number of hosts,
the neighbour list of `h` in the topology built from the two descriptions, the
hash power of `h`, and a timeout-attacker flag that is true exactly when `h` is
the attacker. -/
theorem install_once_per_host (cfg : Config) (draws : List Nat)
    (h : (main cfg draws).exit = .ok ()) :
    ∃ cfg1 hashPowers w,
      applyGenerator (applyTopology cfg) draws = .ok cfg1 ∧
      2 ≤ cfg1.numberOfNodes ∧
      hashPowersOf cfg1 = .ok hashPowers ∧
      buildTopology cfg1.numberOfNodes.toNat cfg1.numberOfRouters.toNat cfg1.links
        cfg1.bcConnections = .ok w ∧
      (main cfg draws).installs.length = cfg1.numberOfNodes.toNat ∧
      (main cfg draws).installs.map (fun c => c.nodeNumber)
        = List.range cfg1.numberOfNodes.toNat ∧
      ∀ h, h < cfg1.numberOfNodes.toNat →
        ∃ c, (main cfg draws).installs.get? h = some c ∧
          c.nodeNumber = h ∧ c.numberOfNodes = cfg1.numberOfNodes ∧
          c.neighbourIps = w.nodeConnections h ∧
          hashPowers.1.get? h = some c.hashPower ∧
          c.totalHashPower = hashPowers.2 ∧
          (c.testGetDataTimeout = true ↔ cfg.testGetDataTimeoutAttacker = (h : Int)) :=
  main_calls cfg draws h

theorem install_once_per_host_witness :
    (main { topology := 2, testGetDataTimeoutAttacker := 1, testGetDataTimeoutVictim := 0 }
        []).installs.map (fun c => (c.nodeNumber, c.neighbourIps, c.testGetDataTimeout))
      = [(0, [firstAddress + 3], false), (1, [firstAddress], true)] ∧
    ∃ cfg1, applyGenerator (applyTopology
        { topology := 2, testGetDataTimeoutAttacker := 1, testGetDataTimeoutVictim := 0 }) []
          = .ok cfg1 ∧ 2 ≤ cfg1.numberOfNodes := by
  refine ⟨by decide, ?_⟩
  obtain ⟨cfg1, _, _, h1, h2, _⟩ := install_once_per_host
    { topology := 2, testGetDataTimeoutAttacker := 1, testGetDataTimeoutVictim := 0 } []
    (by decide)
  exact ⟨cfg1, h1, h2⟩

/-- C23 fails as stated: with the hash powers `1.5,2x` on two hosts the run is
accepted although neither element is an integer; `stoi` reads the leading digits
only, so the shares are 1 and 2 and the total is 3. -/
theorem hash_power_text_accepted :
    (main { links := "n0-n1", hashPowers := "1.5,2x" } []).exit = .ok () ∧
    (main { links := "n0-n1", hashPowers := "1.5,2x" } []).installs.map
        (fun c => (c.nodeNumber, c.hashPower, c.totalHashPower)) = [(0, 1, 3), (1, 2, 3)] := by
  decide

/-- C23 as amended. When no hash powers are given every host's share is 10, and
the total is `10 * numberOfNodes` when that fits an `int`. When they are given,
the run is accepted only if the list has exactly `numberOfNodes` elements, each
of which `stoi` reads as a number that is not negative; the share of host `i` is
the number read from element `i`; and the total passed to every host is the sum
of the shares when that sum fits an `int`. In an accepted run the call for host
`i` receives share `i` and this total. -/
theorem hash_powers (cfg : Config) (draws : List Nat) (h : (main cfg draws).exit = .ok ()) :
    ∃ (cfg1 : Config) (hashPowers : List Int × Int),
      applyGenerator (applyTopology cfg) draws = .ok cfg1 ∧
      cfg1.hashPowers = cfg.hashPowers ∧
      hashPowers.1.length = cfg1.numberOfNodes.toNat ∧
      (main cfg draws).installs.map (fun c => c.hashPower) = hashPowers.1 ∧
      (∀ c ∈ (main cfg draws).installs, c.totalHashPower = hashPowers.2) ∧
      (∀ v ∈ hashPowers.1, 0 ≤ v) ∧
      (hashPowers.1.sum ≤ intMax → hashPowers.2 = hashPowers.1.sum) ∧
      (cfg.hashPowers.length = 0 →
        hashPowers.1 = List.replicate cfg1.numberOfNodes.toNat 10 ∧
        (10 * cfg1.numberOfNodes ≤ intMax → hashPowers.2 = 10 * cfg1.numberOfNodes)) ∧
      (cfg.hashPowers.length > 0 →
        ((stringSplit cfg.hashPowers ',').length : Int) = cfg1.numberOfNodes ∧
        ∀ i text, (stringSplit cfg.hashPowers ',').get? i = some text →
          ∃ v, hashPowers.1.get? i = some v ∧ stoi text.data = .ok v ∧ 0 ≤ v) := by
  obtain ⟨cfg1, hp, w, h1, h2, h3, -, h5, -, h7⟩ := main_calls cfg draws h
  have hsame : cfg1.hashPowers = cfg.hashPowers :=
    (sameParameters_trans _ _ _ (applyGenerator_same _ _ _ h1).1
      (applyTopology_same cfg)).2.2.2.2.2.2.2.2.2.1
  obtain ⟨s1, s2, s3, s4, s5⟩ := hashPowersOf_spec cfg1 hp (by omega) h3
  have hsum : hp.1.sum ≤ intMax → hp.2 = hp.1.sum := by
    intro hle
    rw [s3, foldl_addInt32_sum hp.1 0 (le_refl 0) s2 (by omega)]
    omega
  refine ⟨cfg1, hp, h1, hsame, s1, ?_, ?_, s2, hsum, ?_, ?_⟩
  · apply List.ext_get?
    intro k
    rw [List.get?_map]
    by_cases hk : k < cfg1.numberOfNodes.toNat
    · obtain ⟨c, c1, -, -, -, c5, -, -⟩ := h7 k hk
      rw [c1, c5]
      rfl
    · rw [List.get?_eq_none.mpr (by omega), List.get?_eq_none.mpr (by omega)]
      rfl
  · intro c hc
    obtain ⟨k, hk⟩ := List.get?_of_mem hc
    have hlt : k < cfg1.numberOfNodes.toNat := by
      by_contra hge
      rw [List.get?_eq_none.mpr (by omega)] at hk
      cases hk
    obtain ⟨c2, c1, -, -, -, -, c6, -⟩ := h7 k hlt
    rw [hk] at c1
    simp only [Option.some.injEq] at c1
    rw [c1]
    exact c6
  · intro h0
    rw [← hsame] at h0
    have hrep := s4 h0
    refine ⟨hrep, fun hle => ?_⟩
    have hs : hp.1.sum = 10 * cfg1.numberOfNodes := by
      rw [hrep, List.sum_replicate, nsmul_eq_mul]
      have : ((cfg1.numberOfNodes.toNat : Nat) : Int) = cfg1.numberOfNodes :=
        Int.toNat_of_nonneg (by omega)
      rw [this]
      ring
    rw [hsum (by rw [hs]; exact hle), hs]
  · intro h0
    rw [← hsame] at h0 ⊢
    exact s5 h0

theorem hash_powers_witness :
    ∃ (cfg1 : Config) (hashPowers : List Int × Int),
      applyGenerator (applyTopology { links := "n0-n1", hashPowers := "5,7" }) [] = .ok cfg1 ∧
      (main { links := "n0-n1", hashPowers := "5,7" } []).installs.map (fun c => c.hashPower)
        = hashPowers.1 ∧
      (hashPowers.1.sum ≤ intMax → hashPowers.2 = hashPowers.1.sum) := by
  obtain ⟨cfg1, hp, h1, -, -, h4, -, -, h7, -⟩ :=
    hash_powers { links := "n0-n1", hashPowers := "5,7" } [] (by decide)
  exact ⟨cfg1, hp, h1, h4, h7⟩

/-! ## The provided topologies -/

theorem wellFormed_spec (nH nR : Nat) (links bcConnections : String)
    (h : wellFormed nH nR links bcConnections = true) :
    ∃ physical overlay w,
      parseAll (parseLink nH nR) (stringSplit links ',') = .ok physical ∧
      parseAll (parseConnection nH) (stringSplit bcConnections ',') = .ok overlay ∧
      Covered physical overlay ∧
      buildTopology nH nR links bcConnections = .ok w := by
  unfold wellFormed at h
  split at h
  · rename_i physical overlay w h1 h2 h3
    exact ⟨physical, overlay, w, h1, h2, of_decide_eq_true h, h3⟩
  · cases h

theorem applyTopology_preset (cfg : Config) (h2 : 2 ≤ cfg.topology) (h9 : cfg.topology ≤ 9) :
    (applyTopology cfg).numberOfNodes = (preset cfg.topology).numberOfNodes ∧
    (applyTopology cfg).numberOfRouters = (preset cfg.topology).numberOfRouters ∧
    (applyTopology cfg).links = (preset cfg.topology).links ∧
    (applyTopology cfg).bcConnections = (preset cfg.topology).bcConnections := by
  unfold preset applyTopology
  simp only []
  split_ifs
  all_goals first
    | exact ⟨rfl, rfl, rfl, rfl⟩
    | (exfalso; omega)

set_option maxRecDepth 100000 in
theorem presets_wellFormed :
    ∀ k ∈ [(2 : Int), 3, 4, 5, 6, 7, 8, 9],
      wellFormed (preset k).numberOfNodes.toNat (preset k).numberOfRouters.toNat
        (preset k).links (preset k).bcConnections = true ∧
      (main { topology := k } []).exit = .ok () := by
  decide

theorem checkBasics_topology (cfg : Config) (h : cfg.topology > 9 ∨ cfg.topology < 1) :
    checkBasics cfg = .error .config := by
  unfold checkBasics
  split_ifs <;> rfl

/-- C29. Every provided topology 2 to 9 is well formed: with the numbers of
nodes and routers it sets, its links pass the link parser, its connections
pass the connection parser, every node named in a connection is an endpoint of
a link, and the construction of the topology returns; this holds whatever the
other command line values are. A topology number above 9 or below 1 stops the
run at the first checks, with no call of `installBCS`. -/
theorem provided_topologies_well_formed :
    (∀ cfg : Config, 2 ≤ cfg.topology → cfg.topology ≤ 9 →
      ∃ physical overlay w,
        parseAll (parseLink (applyTopology cfg).numberOfNodes.toNat
            (applyTopology cfg).numberOfRouters.toNat)
          (stringSplit (applyTopology cfg).links ',') = .ok physical ∧
        parseAll (parseConnection (applyTopology cfg).numberOfNodes.toNat)
          (stringSplit (applyTopology cfg).bcConnections ',') = .ok overlay ∧
        Covered physical overlay ∧
        buildTopology (applyTopology cfg).numberOfNodes.toNat
          (applyTopology cfg).numberOfRouters.toNat (applyTopology cfg).links
          (applyTopology cfg).bcConnections = .ok w) ∧
    (∀ k ∈ [(2 : Int), 3, 4, 5, 6, 7, 8, 9], (main { topology := k } []).exit = .ok ()) ∧
    (∀ (cfg : Config) (draws : List Nat), cfg.topology > 9 ∨ cfg.topology < 1 →
      checkBasics cfg = .error .config ∧
      (main cfg draws).exit = .error .config ∧ (main cfg draws).installs = []) := by
  refine ⟨fun cfg h2 h9 => ?_, fun k hk => (presets_wellFormed k hk).2, fun cfg draws h => ?_⟩
  · obtain ⟨e1, e2, e3, e4⟩ := applyTopology_preset cfg h2 h9
    rw [e1, e2, e3, e4]
    apply wellFormed_spec
    have hk : cfg.topology ∈ [(2 : Int), 3, 4, 5, 6, 7, 8, 9] := by
      simp only [List.mem_cons, List.mem_singleton, List.mem_nil_iff, or_false]
      omega
    exact (presets_wellFormed _ hk).1
  · have hb := checkBasics_topology cfg h
    refine ⟨hb, ?_, ?_⟩ <;>
    · unfold main
      rw [hb]
      rfl

theorem provided_topologies_well_formed_witness :
    (∃ physical overlay, parseAll (parseLink 2 3)
        (stringSplit (applyTopology { topology := 3 }).links ',') = .ok physical ∧
      parseAll (parseConnection 2)
        (stringSplit (applyTopology { topology := 3 }).bcConnections ',') = .ok overlay ∧
      Covered physical overlay) ∧
    (main { topology := 10 } []).exit = .error .config := by
  obtain ⟨physical, overlay, _, h1, h2, h3, _⟩ :=
    provided_topologies_well_formed.1 { topology := 3 } (by decide) (by decide)
  exact ⟨⟨physical, overlay, h1, h2, h3⟩,
    (provided_topologies_well_formed.2.2 { topology := 10 } [] (Or.inl (by decide))).2.1⟩

/-! ## The order of wiring and of resolving connections -/

theorem wireLinks_of_parseAll (nH nR : Nat) (same : Bool) (tokens : List String)
    (physical : List (Nat × Nat)) (w : Wiring)
    (h : parseAll (parseLink nH nR) tokens = .ok physical) :
    ∃ w1, wireLinks nH nR same tokens w = .ok w1 := by
  induction tokens generalizing physical w with
  | nil => exact ⟨w, rfl⟩
  | cons token more ih =>
    simp only [parseAll] at h
    split at h
    · cases h
    · rename_i edge he
      split at h
      · cases h
      · rename_i edges hes
        simp only [wireLinks, he]
        exact ih edges _ hes

theorem parseAll_of_tokens (parse : String → Except Failure (Nat × Nat)) (tokens : List String)
    (h : ∀ t ∈ tokens, ∃ e, parse t = .ok e) : ∃ edges, parseAll parse tokens = .ok edges := by
  induction tokens with
  | nil => exact ⟨[], rfl⟩
  | cons token more ih =>
    obtain ⟨e, he⟩ := h token (List.mem_cons_self _ _)
    obtain ⟨edges, hes⟩ := ih (fun t ht => h t (List.mem_cons_of_mem _ ht))
    exact ⟨e :: edges, by simp only [parseAll, he, hes]⟩

theorem parseAll_get (parse : String → Except Failure (Nat × Nat)) (tokens : List String)
    (edges : List (Nat × Nat)) (h : parseAll parse tokens = .ok edges) :
    edges.length = tokens.length ∧
    ∀ j t, tokens.get? j = some t → ∃ e, edges.get? j = some e ∧ parse t = .ok e := by
  induction tokens generalizing edges with
  | nil =>
    simp only [parseAll, Except.ok.injEq] at h
    subst h
    exact ⟨rfl, fun j t ht => by simp at ht⟩
  | cons token more ih =>
    simp only [parseAll] at h
    split at h
    · cases h
    · rename_i edge he
      split at h
      · cases h
      · rename_i rest hrest
        simp only [Except.ok.injEq] at h
        subst h
        obtain ⟨i1, i2⟩ := ih rest hrest
        refine ⟨by simp only [List.length_cons, i1], fun j t ht => ?_⟩
        cases j with
        | zero =>
          simp only [List.get?, Option.some.injEq] at ht
          subst ht
          exact ⟨edge, rfl, he⟩
        | succ j =>
          simp only [List.get?] at ht
          exact i2 j t ht

theorem ownedAddresses_ne_nil (next : Nat) (physical : List (Nat × Nat)) (v : Nat)
    (h : ∃ p ∈ physical, p.1 = v ∨ p.2 = v) : ownedAddresses next physical v ≠ [] := by
  obtain ⟨p, hp, hv⟩ := h
  obtain ⟨j, hj⟩ := List.get?_of_mem hp
  obtain ⟨m1, m2⟩ := ownedAddresses_mem next physical j p hj
  rcases hv with hv | hv
  · rw [hv] at m1
    exact List.ne_nil_of_mem m1
  · rw [hv] at m2
    exact List.ne_nil_of_mem m2

theorem connectPair_ok (w : Wiring) (values : Nat × Nat) (h1 : w.nodeIps values.1 ≠ [])
    (h2 : w.nodeIps values.2 ≠ []) :
    ∃ w1, connectPair w values = .ok w1 ∧ w1.nodeIps = w.nodeIps := by
  unfold connectPair
  cases e2 : w.nodeIps values.2 with
  | nil => exact absurd e2 h2
  | cons ip1 r1 =>
    cases e1 : w.nodeIps values.1 with
    | nil => exact absurd e1 h1
    | cons ip0 r0 => exact ⟨_, rfl, rfl⟩

theorem resolveConnections_of_owned (nH : Nat) (tokens : List String)
    (overlay : List (Nat × Nat)) (w : Wiring)
    (h : parseAll (parseConnection nH) tokens = .ok overlay)
    (howned : ∀ e ∈ overlay, w.nodeIps e.1 ≠ [] ∧ w.nodeIps e.2 ≠ []) :
    ∃ w1, resolveConnections nH tokens w = .ok w1 := by
  induction tokens generalizing overlay w with
  | nil => exact ⟨w, rfl⟩
  | cons token more ih =>
    simp only [parseAll] at h
    split at h
    · cases h
    · rename_i edge he
      split at h
      · cases h
      · rename_i rest hrest
        simp only [Except.ok.injEq] at h
        subst h
        obtain ⟨o1, o2⟩ := howned edge (List.mem_cons_self _ _)
        obtain ⟨w1, c1, c2⟩ := connectPair_ok w edge o1 o2
        simp only [resolveConnections, he, c1]
        apply ih rest w1 hrest
        intro e hmem
        rw [c2]
        exact howned e (List.mem_cons_of_mem _ hmem)

/-- With `same` false, the wiring of all links followed by the resolution of the
connections, on covered edges. -/
theorem covered_build (nH nR : Nat) (links bcConnections : String)
    (physical overlay : List (Nat × Nat))
    (hsame : (resolveDescriptions links bcConnections).same = false)
    (hp : parseAll (parseLink nH nR) (stringSplit links ',') = .ok physical)
    (ho : parseAll (parseConnection nH) (stringSplit bcConnections ',') = .ok overlay)
    (hc : Covered physical overlay) :
    ∃ w0 w,
      wireLinks nH nR false (stringSplit links ',') Wiring.init = .ok w0 ∧
      (∀ v, w0.nodeIps v = ownedAddresses firstAddress physical v) ∧
      (∀ e ∈ overlay, (∃ a, (w0.nodeIps e.1).head? = some a) ∧
        ∃ a, (w0.nodeIps e.2).head? = some a) ∧
      resolveConnections nH (stringSplit bcConnections ',') w0 = .ok w ∧
      buildTopology nH nR links bcConnections = .ok w := by
  obtain ⟨c1, -, -, c4, -⟩ := resolveDescriptions_cases links bcConnections
  have hne : ¬ (links = bcConnections ∨ links = "" ∨ bcConnections = "") := by
    intro hx
    rw [c1.mpr hx] at hsame
    cases hsame
  obtain ⟨hl, hb⟩ := c4 (fun hx => hne (Or.inr (Or.inl hx))) (fun hx => hne (Or.inr (Or.inr hx)))
  obtain ⟨w0, hw0⟩ := wireLinks_of_parseAll nH nR false _ physical Wiring.init hp
  obtain ⟨physical1, p1, -, p3, -, -⟩ := wireLinks_spec nH nR false _ _ _ hw0
  rw [hp] at p1
  simp only [Except.ok.injEq] at p1
  subst p1
  have hips : ∀ v, w0.nodeIps v = ownedAddresses firstAddress physical v := by
    intro v
    rw [p3 v]
    rfl
  have hne2 : ∀ e ∈ overlay, w0.nodeIps e.1 ≠ [] ∧ w0.nodeIps e.2 ≠ [] := by
    intro e he
    rw [hips, hips]
    exact ⟨ownedAddresses_ne_nil _ _ _ (hc e he).1, ownedAddresses_ne_nil _ _ _ (hc e he).2⟩
  obtain ⟨w, hw⟩ := resolveConnections_of_owned nH _ overlay w0 ho hne2
  refine ⟨w0, w, hw0, hips, ?_, hw, ?_⟩
  · intro e he
    obtain ⟨n1, n2⟩ := hne2 e he
    constructor
    · cases hx : w0.nodeIps e.1 with
      | nil => exact absurd hx n1
      | cons a r => exact ⟨a, rfl⟩
    · cases hx : w0.nodeIps e.2 with
      | nil => exact absurd hx n2
      | cons a r => exact ⟨a, rfl⟩
  · unfold buildTopology
    simp only [hl, hb, hsame, hw0, Bool.false_eq_true, if_false]
    exact hw

/-- C25. With `same` false, when both descriptions pass their parsers and every
node named in a connection is an endpoint of at least one link, the wiring loop
returns on the whole list of links before any connection is looked at; after it
both endpoints of every connection own a first address, so the lookup
`nodeIps.at(v).at(0)` succeeds for each of them; the resolution of the
connections on that wiring returns, and it is the result of the construction. -/
theorem overlay_after_wiring (nH nR : Nat) (links bcConnections : String)
    (physical overlay : List (Nat × Nat))
    (hsame : (resolveDescriptions links bcConnections).same = false)
    (hp : parseAll (parseLink nH nR) (stringSplit links ',') = .ok physical)
    (ho : parseAll (parseConnection nH) (stringSplit bcConnections ',') = .ok overlay)
    (hc : Covered physical overlay) :
    ∃ w0 w,
      wireLinks nH nR false (stringSplit links ',') Wiring.init = .ok w0 ∧
      (∀ v, w0.nodeIps v = ownedAddresses firstAddress physical v) ∧
      (∀ e ∈ overlay, (∃ a, (w0.nodeIps e.1).head? = some a) ∧
        ∃ a, (w0.nodeIps e.2).head? = some a) ∧
      resolveConnections nH (stringSplit bcConnections ',') w0 = .ok w ∧
      buildTopology nH nR links bcConnections = .ok w :=
  covered_build nH nR links bcConnections physical overlay hsame hp ho hc

theorem overlay_after_wiring_witness :
    ∃ w0 w,
      wireLinks 3 1 false (stringSplit "n0-r0,r0-n1,n2-r0" ',') Wiring.init = .ok w0 ∧
      (∀ v, w0.nodeIps v = ownedAddresses firstAddress [(0, 3), (3, 1), (2, 3)] v) ∧
      (∀ e ∈ [(2, 0), (1, 2)], (∃ a, (w0.nodeIps e.1).head? = some a) ∧
        ∃ a, (w0.nodeIps e.2).head? = some a) ∧
      resolveConnections 3 (stringSplit "n2-n0,n1-n2" ',') w0 = .ok w ∧
      buildTopology 3 1 "n0-r0,r0-n1,n2-r0" "n2-n0,n1-n2" = .ok w :=
  overlay_after_wiring 3 1 "n0-r0,r0-n1,n2-r0" "n2-n0,n1-n2" [(0, 3), (3, 1), (2, 3)]
    [(2, 0), (1, 2)] (by decide) (by decide) (by decide) (by decide)

/-! ## One edge per token -/

theorem tokens_of_parseAll (parse : String → Except Failure (Nat × Nat)) (tokens : List String)
    (edges : List (Nat × Nat)) (h : parseAll parse tokens = .ok edges) :
    ∀ t ∈ tokens, ∃ e, parse t = .ok e := by
  intro t ht
  obtain ⟨j, hj⟩ := List.get?_of_mem ht
  obtain ⟨e, -, he⟩ := (parseAll_get parse tokens edges h).2 j t hj
  exact ⟨e, he⟩

/-- The edges and the wiring of a description in which every token is accepted. -/
theorem tokens_wired (nH nR : Nat) (same : Bool) (links : String)
    (hvalid : ∀ t ∈ stringSplit links ',', ∃ e, parseLink nH nR t = .ok e) :
    ∃ physical w,
      parseAll (parseLink nH nR) (stringSplit links ',') = .ok physical ∧
      wireLinks nH nR same (stringSplit links ',') Wiring.init = .ok w ∧
      physical.length = (stringSplit links ',').length ∧
      w.nextAddress = firstAddress + 2 * (stringSplit links ',').length ∧
      ∀ j t, (stringSplit links ',').get? j = some t →
        ∃ e, physical.get? j = some e ∧ parseLink nH nR t = .ok e ∧
          (∃ s0 s1, stringSplit t '-' = [s0, s1] ∧
            linkEndpoint nH nR s0 = .ok e.1 ∧ linkEndpoint nH nR s1 = .ok e.2) ∧
          (addressLog same physical Wiring.init).get? j
            = some (firstAddress + 2 * j, firstAddress + 2 * j + 1) ∧
          firstAddress + 2 * j ∈ w.nodeIps e.1 ∧
          firstAddress + 2 * j + 1 ∈ w.nodeIps e.2 ∧
          w.ipNodeNumberMap (firstAddress + 2 * j) = some e.1 ∧
          w.ipNodeNumberMap (firstAddress + 2 * j + 1) = some e.2 := by
  obtain ⟨physical, hp⟩ := parseAll_of_tokens _ _ hvalid
  obtain ⟨w, hw⟩ := wireLinks_of_parseAll nH nR same _ physical Wiring.init hp
  obtain ⟨physical1, p1, p2, p3, -, -⟩ := wireLinks_spec nH nR same _ _ _ hw
  rw [hp] at p1
  simp only [Except.ok.injEq] at p1
  subst p1
  obtain ⟨g1, g2⟩ := parseAll_get _ _ _ hp
  have hrec := ownersRecorded_wireLinks nH nR same _ _ _ ownersRecorded_init hw
  refine ⟨physical, w, hp, hw, g1, by rw [p2, g1]; rfl, fun j t ht => ?_⟩
  obtain ⟨e, he, hpe⟩ := g2 j t ht
  obtain ⟨m1, m2⟩ := ownedAddresses_mem firstAddress physical j e he
  have hj : j < physical.length := by
    by_contra hge
    rw [List.get?_eq_none.mpr (by omega)] at he
    cases he
  have n1 : firstAddress + 2 * j ∈ w.nodeIps e.1 := by
    rw [p3]
    exact List.mem_append_right _ m1
  have n2 : firstAddress + 2 * j + 1 ∈ w.nodeIps e.2 := by
    rw [p3]
    exact List.mem_append_right _ m2
  refine ⟨e, he, hpe, ?_, ?_, n1, n2, (hrec _ _ n1).1, (hrec _ _ n2).1⟩
  · have hx : parseToken (linkEndpoint nH nR) t = .ok (e.1, e.2) := hpe
    obtain ⟨s0, s1, q1, q2, q3, -⟩ := (parseToken_ok_iff _ _ _ _).mp hx
    exact ⟨s0, s1, q1, q2, q3⟩
  · rw [addressLog_get, if_pos hj]
    rfl

/-- C27. For a links description in which every one of the `k` comma separated
tokens is accepted, the parser gives exactly `k` edges, in the order of the
tokens; edge `j` has the endpoints of the two sub-tokens of token `j`, in the
order they are written; and round `j` of the wiring loop gives that edge the
two addresses `firstAddress + 2 j` and `firstAddress + 2 j + 1`, owned by its
first and second endpoint, so that a token written twice is wired twice, each
time with a pair of addresses of its own. -/
theorem edges_in_token_order (nH nR : Nat) (same : Bool) (links : String)
    (hvalid : ∀ t ∈ stringSplit links ',', ∃ e, parseLink nH nR t = .ok e) :
    ∃ physical w,
      parseAll (parseLink nH nR) (stringSplit links ',') = .ok physical ∧
      wireLinks nH nR same (stringSplit links ',') Wiring.init = .ok w ∧
      physical.length = (stringSplit links ',').length ∧
      w.nextAddress = firstAddress + 2 * (stringSplit links ',').length ∧
      ∀ j t, (stringSplit links ',').get? j = some t →
        ∃ e, physical.get? j = some e ∧ parseLink nH nR t = .ok e ∧
          (∃ s0 s1, stringSplit t '-' = [s0, s1] ∧
            linkEndpoint nH nR s0 = .ok e.1 ∧ linkEndpoint nH nR s1 = .ok e.2) ∧
          (addressLog same physical Wiring.init).get? j
            = some (firstAddress + 2 * j, firstAddress + 2 * j + 1) ∧
          firstAddress + 2 * j ∈ w.nodeIps e.1 ∧
          firstAddress + 2 * j + 1 ∈ w.nodeIps e.2 ∧
          w.ipNodeNumberMap (firstAddress + 2 * j) = some e.1 ∧
          w.ipNodeNumberMap (firstAddress + 2 * j + 1) = some e.2 :=
  tokens_wired nH nR same links hvalid

theorem edges_in_token_order_witness :
    parseAll (parseLink 2 1) (stringSplit "n0-n1,r0-n1,n0-n1" ',')
      = .ok [(0, 1), (2, 1), (0, 1)] ∧
    ∃ w, wireLinks 2 1 false (stringSplit "n0-n1,r0-n1,n0-n1" ',') Wiring.init = .ok w ∧
      w.nextAddress = firstAddress + 6 ∧
      w.nodeIps 0 = [firstAddress, firstAddress + 4] ∧
      w.nodeIps 1 = [firstAddress + 1, firstAddress + 3, firstAddress + 5] := by
  refine ⟨by decide, ?_⟩
  obtain ⟨physical, w, h1, h2, -, h4, -⟩ :=
    edges_in_token_order 2 1 false "n0-n1,r0-n1,n0-n1"
      (tokens_of_parseAll _ _ [(0, 1), (2, 1), (0, 1)] (by decide))
  have hp : physical = [(0, 1), (2, 1), (0, 1)] := by
    have hd : parseAll (parseLink 2 1) (stringSplit "n0-n1,r0-n1,n0-n1" ',')
        = .ok [(0, 1), (2, 1), (0, 1)] := by decide
    rw [h1] at hd
    simpa using hd
  refine ⟨w, h2, h4, ?_, ?_⟩
  · obtain ⟨physical1, q1, -, q3, -, -⟩ := wireLinks_spec 2 1 false _ _ _ h2
    rw [h1] at q1
    simp only [Except.ok.injEq] at q1
    rw [q3, ← q1, hp]
    rfl
  · obtain ⟨physical1, q1, -, q3, -, -⟩ := wireLinks_spec 2 1 false _ _ _ h2
    rw [h1] at q1
    simp only [Except.ok.injEq] at q1
    rw [q3, ← q1, hp]
    rfl

/-! ## `stringSplit` -/

/-- The character `std::replace` leaves in the place of `c`. -/
theorem isSpace_replace (separator c : Char) :
    isSpace (if c = separator then ' ' else c) = delimiter separator c := by
  unfold delimiter
  by_cases h : c = separator
  · simp only [h, if_true, decide_True, Bool.true_or]
    rfl
  · simp only [h, if_false, decide_False, Bool.false_or]

theorem modifyHead_nil_append (runs : List (List Char)) :
    runs.modifyHead (fun run => [] ++ run) = runs := by
  cases runs <;> rfl

theorem modifyHead_snoc (cur : List Char) (c : Char) (runs : List (List Char)) :
    (runs.modifyHead (List.cons c)).modifyHead (fun run => cur ++ run) =
      runs.modifyHead (fun run => (cur ++ [c]) ++ run) := by
  cases runs with
  | nil => rfl
  | cons r more => simp [List.modifyHead]

theorem extractWords_runs (separator : Char) (cur l : List Char) :
    extractWords cur (l.map (fun c => if c = separator then ' ' else c)) =
      ((((l.splitOnP (delimiter separator)).modifyHead (fun run => cur ++ run)).filter
        (fun run => !run.isEmpty)).map String.mk) := by
  induction l generalizing cur with
  | nil =>
    simp only [List.map_nil, extractWords, List.splitOnP_nil, List.modifyHead,
      List.append_nil]
    cases cur <;> rfl
  | cons c rest ih =>
    rw [List.map_cons, List.splitOnP_cons]
    simp only [extractWords, isSpace_replace]
    by_cases hd : delimiter separator c = true
    · simp only [hd, if_true, List.modifyHead, List.append_nil]
      rw [ih [], modifyHead_nil_append]
      cases cur <;> rfl
    · simp only [hd, if_false, Bool.false_eq_true]
      have hc : c ≠ separator := by
        intro hx
        apply hd
        simp [delimiter, hx]
      rw [if_neg hc, ih (cur ++ [c]), modifyHead_snoc]

theorem stringSplit_runs (str : String) (separator : Char) :
    stringSplit str separator = maximalRuns separator str := by
  unfold stringSplit maximalRuns
  rw [extractWords_runs, modifyHead_nil_append]

theorem extractWords_mem (cur l : List Char) (hcur : ∀ c ∈ cur, isSpace c = false) :
    ∀ w ∈ extractWords cur l,
      w.data ≠ [] ∧ ∀ c ∈ w.data, isSpace c = false ∧ (c ∈ cur ∨ c ∈ l) := by
  induction l generalizing cur with
  | nil =>
    intro w hw
    simp only [extractWords] at hw
    split_ifs at hw with h0
    · cases hw
    · simp only [List.mem_singleton] at hw
      subst hw
      exact ⟨h0, fun c hc => ⟨hcur c hc, Or.inl hc⟩⟩
  | cons c rest ih =>
    intro w hw
    simp only [extractWords] at hw
    by_cases hs : isSpace c = true
    · simp only [hs, if_true] at hw
      have hrest : w ∈ extractWords [] rest →
          w.data ≠ [] ∧ ∀ x ∈ w.data, isSpace x = false ∧ (x ∈ cur ∨ x ∈ c :: rest) := by
        intro hm
        obtain ⟨i1, i2⟩ := ih [] (fun x hx => by cases hx) w hm
        refine ⟨i1, fun x hx => ⟨(i2 x hx).1, ?_⟩⟩
        rcases (i2 x hx).2 with h | h
        · cases h
        · exact Or.inr (List.mem_cons_of_mem _ h)
      split_ifs at hw with h0
      · exact hrest hw
      · rcases List.mem_cons.mp hw with rfl | hm
        · exact ⟨h0, fun x hx => ⟨hcur x hx, Or.inl hx⟩⟩
        · exact hrest hm
    · simp only [hs, if_false, Bool.false_eq_true] at hw
      have hs2 : isSpace c = false := by simpa using hs
      have hcur2 : ∀ x ∈ cur ++ [c], isSpace x = false := by
        intro x hx
        rcases List.mem_append.mp hx with h | h
        · exact hcur x h
        · rw [List.mem_singleton.mp h]
          exact hs2
      obtain ⟨i1, i2⟩ := ih (cur ++ [c]) hcur2 w hw
      refine ⟨i1, fun x hx => ⟨(i2 x hx).1, ?_⟩⟩
      rcases (i2 x hx).2 with h | h
      · rcases List.mem_append.mp h with h | h
        · exact Or.inl h
        · rw [List.mem_singleton.mp h]
          exact Or.inr (List.mem_cons_self _ _)
      · exact Or.inr (List.mem_cons_of_mem _ h)

theorem stringSplit_mem (str : String) (separator : Char) :
    ∀ w ∈ stringSplit str separator,
      w ≠ "" ∧ ∀ c ∈ w.data, c ≠ separator ∧ isSpace c = false ∧ c ∈ str.data := by
  intro w hw
  obtain ⟨h1, h2⟩ := extractWords_mem [] _ (fun x hx => by cases hx) w hw
  refine ⟨fun h0 => h1 (by rw [h0]), fun c hc => ?_⟩
  obtain ⟨hs, hm⟩ := h2 c hc
  rcases hm with hm | hm
  · cases hm
  · obtain ⟨x, hx, hxc⟩ := List.mem_map.mp hm
    by_cases hsep : x = separator
    · rw [if_pos hsep] at hxc
      rw [← hxc] at hs
      exact absurd hs (by decide)
    · rw [if_neg hsep] at hxc
      rw [← hxc]
      exact ⟨hsep, by rw [hxc]; exact hs, hx⟩

/-- A white space character ends the word being read: what follows is read
from an empty word. -/
theorem extractWords_space (cur l1 : List Char) (d : Char) (l2 : List Char)
    (hd : isSpace d = true) :
    extractWords cur (l1 ++ d :: l2) = extractWords cur l1 ++ extractWords [] l2 := by
  induction l1 generalizing cur with
  | nil =>
    simp only [List.nil_append, extractWords, hd, if_true]
    split_ifs <;> rfl
  | cons c rest ih =>
    simp only [List.cons_append, extractWords]
    by_cases hs : isSpace c = true
    · simp only [hs, if_true]
      split_ifs
      · exact ih []
      · exact congrArg (List.cons (String.mk cur)) (ih [])
    · simp only [hs, if_false, Bool.false_eq_true]
      exact ih (cur ++ [c])

theorem stringSplit_separator (separator : Char) (a b : List Char) :
    stringSplit (String.mk (a ++ separator :: b)) separator =
      stringSplit (String.mk a) separator ++ stringSplit (String.mk b) separator := by
  unfold stringSplit
  simp only [List.map_append, List.map_cons, if_true]
  exact extractWords_space [] _ ' ' _ (by decide)

theorem stringSplit_nil (separator : Char) : stringSplit (String.mk []) separator = [] := rfl

theorem intercalate_go_append (x acc s : String) (l : List String) :
    String.intercalate.go (x ++ acc) s l = x ++ String.intercalate.go acc s l := by
  induction l generalizing acc with
  | nil => rfl
  | cons a more ih =>
    simp only [String.intercalate.go]
    rw [← ih]
    simp only [String.append_assoc]

theorem intercalate_cons_cons (s a b : String) (more : List String) :
    String.intercalate s (a :: b :: more) = a ++ s ++ String.intercalate s (b :: more) := by
  simp only [String.intercalate, String.intercalate.go]
  rw [← intercalate_go_append]

theorem extractWords_ne_nil (cur : List Char) (c : Char) (rest : List Char)
    (hc : isSpace c = false) : extractWords cur (c :: rest) ≠ [] := by
  intro h
  have hall : ∀ (l cur : List Char), cur ≠ [] → extractWords cur l ≠ [] := by
    intro l
    induction l with
    | nil =>
      intro cur hcur
      simp only [extractWords, if_neg hcur]
      exact List.cons_ne_nil _ _
    | cons x more ih =>
      intro cur hcur
      simp only [extractWords]
      by_cases hs : isSpace x = true
      · simp only [hs, if_true, if_neg hcur]
        exact List.cons_ne_nil _ _
      · simp only [hs, if_false, Bool.false_eq_true]
        exact ih (cur ++ [x]) (by simp)
  simp only [extractWords, hc, Bool.false_eq_true, if_false] at h
  exact hall rest (cur ++ [c]) (by simp) h

/-- Joining what `extractWords` reads gives back the word being read followed
by the characters read, when these are separated. -/
theorem join_extractWords (separator : Char) (cur l : List Char)
    (hspace : ∀ c ∈ l, isSpace c = false)
    (hhead : cur = [] → l.head? ≠ some separator)
    (hlast : l.getLast? ≠ some separator)
    (hchain : l.Chain' (fun a b => ¬ (a = separator ∧ b = separator))) :
    String.intercalate (String.singleton separator)
      (extractWords cur (l.map (fun c => if c = separator then ' ' else c)))
        = String.mk (cur ++ l) := by
  induction l generalizing cur with
  | nil =>
    simp only [List.map_nil, extractWords, List.append_nil]
    split_ifs with h0
    · rw [h0]
      rfl
    · rfl
  | cons c rest ih =>
    rw [List.map_cons]
    by_cases hsep : c = separator
    · subst hsep
      have hcur : cur ≠ [] := fun h0 => hhead h0 rfl
      cases rest with
      | nil => exact absurd rfl hlast
      | cons c2 r2 =>
        have hc2 : c2 ≠ c := by
          intro hx
          exact (List.chain'_cons.mp hchain).1 ⟨rfl, hx⟩
        have hih := ih [] (fun x hx => hspace x (List.mem_cons_of_mem _ hx))
          (fun _ => by simp only [List.head?_cons, ne_eq, Option.some.injEq]; exact hc2)
          (by rw [List.getLast?_cons_cons] at hlast; exact hlast)
          (List.chain'_cons.mp hchain).2
        have hne : extractWords []
            ((c2 :: r2).map (fun x => if x = c then ' ' else x)) ≠ [] := by
          rw [List.map_cons, if_neg hc2]
          exact extractWords_ne_nil [] c2 _ (hspace c2 (by simp))
        have hstep : ∀ l : List Char,
            extractWords cur (' ' :: l) = String.mk cur :: extractWords [] l := by
          intro l
          simp only [extractWords, show isSpace ' ' = true from rfl, if_true, if_neg hcur]
        rw [if_pos rfl, hstep]
        obtain ⟨w, ws, hw⟩ := List.exists_cons_of_ne_nil hne
        rw [hw, intercalate_cons_cons, ← hw, hih]
        apply String.ext
        simp [String.singleton]
    · have hs : isSpace c = false := hspace c (List.mem_cons_self _ _)
      simp only [if_neg hsep, extractWords, hs, Bool.false_eq_true, if_false]
      rw [ih (cur ++ [c]) (fun x hx => hspace x (List.mem_cons_of_mem _ hx))
        (fun h0 => by simp at h0) ?_ hchain.tail]
      · simp
      · cases rest with
        | nil => simp
        | cons c2 r2 =>
          rw [List.getLast?_cons_cons] at hlast
          exact hlast

theorem join_stringSplit (str : String) (separator : Char) (h : Separated separator str) :
    String.intercalate (String.singleton separator) (stringSplit str separator) = str := by
  obtain ⟨h1, h2, h3, h4⟩ := h
  unfold stringSplit
  rw [join_extractWords separator [] str.data h1 (fun _ => h2) h3 h4]
  rfl

/-- C30. `stringSplit str separator` is, in order, the list of the maximal runs
of characters of `str` that are neither the separator nor white space. Every
element is non-empty and has no separator and no white space in it. The empty
string gives the empty list. A separator in the string only ends an element:
the result is the elements before it followed by the elements after it, so a
separator at the start, at the end or next to another separator does not add
an element. For a string with no white space, no separator at either end and
no two separators in a row, joining the result with the separator gives back
the string. -/
theorem stringSplit_maximal_runs (str : String) (separator : Char) :
    stringSplit str separator = maximalRuns separator str ∧
    (∀ w ∈ stringSplit str separator,
      w ≠ "" ∧ ∀ c ∈ w.data, c ≠ separator ∧ isSpace c = false ∧ c ∈ str.data) ∧
    stringSplit "" separator = [] ∧
    (∀ a b : List Char,
      stringSplit (String.mk (a ++ separator :: b)) separator =
        stringSplit (String.mk a) separator ++ stringSplit (String.mk b) separator) ∧
    (∀ a : List Char,
      stringSplit (String.mk (separator :: a)) separator = stringSplit (String.mk a) separator ∧
      stringSplit (String.mk (a ++ [separator])) separator
        = stringSplit (String.mk a) separator) ∧
    (∀ a b : List Char,
      stringSplit (String.mk (a ++ separator :: separator :: b)) separator =
        stringSplit (String.mk (a ++ separator :: b)) separator) ∧
    (Separated separator str →
      String.intercalate (String.singleton separator) (stringSplit str separator) = str) := by
  refine ⟨stringSplit_runs str separator, stringSplit_mem str separator, rfl,
    stringSplit_separator separator, fun a => ⟨?_, ?_⟩, fun a b => ?_,
    join_stringSplit str separator⟩
  · have h := stringSplit_separator separator [] a
    rw [stringSplit_nil, List.nil_append, List.nil_append] at h
    exact h
  · have h := stringSplit_separator separator a []
    rw [stringSplit_nil, List.append_nil] at h
    exact h
  · rw [stringSplit_separator separator a (separator :: b),
      stringSplit_separator separator a b]
    have h := stringSplit_separator separator [] b
    rw [stringSplit_nil, List.nil_append, List.nil_append] at h
    rw [h]

theorem stringSplit_maximal_runs_witness :
    stringSplit ",n0-r0,, r1-n1 ," ',' = ["n0-r0", "r1-n1"] ∧
    Separated ',' "n0-r0,r1-n1" ∧
    String.intercalate (String.singleton ',') (stringSplit "n0-r0,r1-n1" ',')
      = "n0-r0,r1-n1" := by
  have hs : Separated ',' "n0-r0,r1-n1" := by
    refine ⟨by decide, by decide, by decide, by simp⟩
  exact ⟨by decide, hs, (stringSplit_maximal_runs "n0-r0,r1-n1" ',').2.2.2.2.2.2 hs⟩

/-! ## The rejection loop can always finish -/

theorem ringKeys_addLink (n : Nat) (s : GenState) (a b : Nat) (h : RingKeys n s) :
    RingKeys n (addLink s a b) :=
  fun i hi => (extends_addLink s a b).1 i _ (h i hi)

theorem ringKeys_ringLoop (n : Nat) (hn : 2 ≤ n) : RingKeys n (ringLoop n) := by
  intro i hi
  by_cases hlast : i + 1 < n
  · rw [Nat.mod_eq_of_lt hlast]
    exact ringLoop_succ_mem n i hlast
  · have hi1 : i = n - 1 := by omega
    have hmod : (i + 1) % n = 0 := by
      have : i + 1 = n := by omega
      rw [this, Nat.mod_self]
    rw [hmod, ringLoop_eq n (by omega), hi1]
    unfold ringStep
    rw [if_pos rfl]
    split_ifs with h0
    · exact h0
    · have hne : n - 1 ≠ 0 := by omega
      simp only [addLink, setLink, if_neg hne, if_true]
      rw [mem_setKey]
      exact Or.inr rfl

theorem ringKeys_generate (n d : Nat) (draws : List Nat) (hn : 2 ≤ n) :
    RingKeys n (generate n d draws).state :=
  fun i hi => (generate_inv n d draws hn).2.1.1 i _ (ringKeys_ringLoop n hn i hi)

/-- A set of fewer than `d` keys that holds the next node of the ring leaves,
with `d` below the number of nodes, a node the rejection loop accepts. -/
theorem candidate_exists (n d i : Nat) (keys : KeySet) (hlen : keys.length < d) (hd : d < n)
    (hsucc : (i + 1) % n ∈ keys) :
    ∃ r, r < n ∧ r ≠ i ∧ r ≠ (i + 1) % n ∧ r ∉ keys := by
  have hcard : ((i :: keys).toFinset).card < (Finset.range n).card := by
    have h1 : ((i :: keys).toFinset).card ≤ (i :: keys).length := List.toFinset_card_le _
    rw [Finset.card_range]
    simp only [List.length_cons] at h1
    omega
  have hsub : ¬ (Finset.range n ⊆ (i :: keys).toFinset) := by
    intro hs
    have := Finset.card_le_card hs
    omega
  obtain ⟨r, hr, hnot⟩ := Finset.not_subset.mp hsub
  rw [List.mem_toFinset, List.mem_cons, not_or] at hnot
  refine ⟨r, Finset.mem_range.mp hr, hnot.1, ?_, hnot.2⟩
  intro hx
  rw [hx] at hnot
  exact hnot.2 hsucc

theorem drawNeighbour_accepts (n i : Nat) (keys : KeySet) (r : Nat) (rest : List Nat)
    (hr : r < n) (h1 : r ≠ i) (h2 : r ≠ (i + 1) % n) (h3 : r ∉ keys) :
    drawNeighbour n i keys (r :: rest) = some (r, rest) := by
  simp only [drawNeighbour, Nat.mod_eq_of_lt hr, h1, h2, h3, or_self, if_false]

theorem drawNeighbour_complete (n i : Nat) (keys : KeySet)
    (hcand : ∃ r, r < n ∧ r ≠ i ∧ r ≠ (i + 1) % n ∧ r ∉ keys) (draws0 : List Nat) :
    ∃ more x rest, ∀ extra,
      drawNeighbour n i keys (draws0 ++ more ++ extra) = some (x, rest ++ extra) := by
  induction draws0 with
  | nil =>
    obtain ⟨r, hr, h1, h2, h3⟩ := hcand
    exact ⟨[r], r, [], fun extra => drawNeighbour_accepts n i keys r extra hr h1 h2 h3⟩
  | cons x more0 ih =>
    by_cases hrej : x % n = i ∨ x % n = (i + 1) % n ∨ x % n ∈ keys
    · obtain ⟨more, y, rest, h⟩ := ih
      refine ⟨more, y, rest, fun extra => ?_⟩
      simp only [List.cons_append, drawNeighbour, if_pos hrej]
      exact h extra
    · refine ⟨[], x % n, more0, fun extra => ?_⟩
      rw [List.append_nil]
      simp only [List.cons_append, drawNeighbour, if_neg hrej]
      rfl

theorem connectLoop_complete (n d i : Nat) (hd : d < n) (fuel : Nat) :
    ∀ (j : Nat) (keys : KeySet) (s : GenState) (draws0 : List Nat),
      fuel = d - j → keys.length = j → (i + 1) % n ∈ keys → RingKeys n s →
      ∃ more s1 rest, RingKeys n s1 ∧ ∀ extra,
        connectLoop n d i fuel j keys s (draws0 ++ more ++ extra) = (s1, some (rest ++ extra)) := by
  induction fuel with
  | zero =>
    intro j keys s draws0 hf _ _ hs
    refine ⟨[], s, draws0, hs, fun extra => ?_⟩
    have hj : ¬ j < d := by omega
    simp only [connectLoop, if_neg hj, List.append_nil]
  | succ fuel ih =>
    intro j keys s draws0 hf hlen hsucc hs
    have hj : j < d := by omega
    obtain ⟨more1, x, rest1, hdraw⟩ := drawNeighbour_complete n i keys
      (candidate_exists n d i keys (by omega) hd hsucc) draws0
    have hx : x ∉ keys := by
      have h0 := hdraw []
      rw [List.append_nil] at h0
      exact (drawNeighbour_spec n i keys _ x _ h0).2.2
    obtain ⟨more2, s1, rest2, hs1, hloop⟩ := ih (j + 1) (setKey keys x) (addLink s i x) rest1
      (by omega) (by rw [length_setKey_new keys x hx, hlen])
      ((mem_setKey keys x _).mpr (Or.inl hsucc)) (ringKeys_addLink n s i x hs)
    refine ⟨more1 ++ more2, s1, rest2, hs1, fun extra => ?_⟩
    have e : draws0 ++ (more1 ++ more2) ++ extra = draws0 ++ more1 ++ (more2 ++ extra) := by
      simp only [List.append_assoc]
    rw [e]
    simp only [connectLoop, if_pos hj, hdraw]
    rw [← List.append_assoc]
    exact hloop extra

theorem connectNode_complete (n d i : Nat) (hd : d < n) (hi : i < n) (s : GenState)
    (draws0 : List Nat) (hs : RingKeys n s) :
    ∃ more s1 rest, RingKeys n s1 ∧ ∀ extra,
      connectNode n d i s (draws0 ++ more ++ extra) = (s1, some (rest ++ extra)) := by
  by_cases h2 : d > 2
  · obtain ⟨more, s1, rest, hs1, h⟩ := connectLoop_complete n d i hd
      (d - (s.allLinks i).length) (s.allLinks i).length (s.allLinks i) s draws0 rfl rfl
      (hs i hi) hs
    refine ⟨more, s1, rest, hs1, fun extra => ?_⟩
    simp only [connectNode, if_pos h2]
    exact h extra
  · refine ⟨[], s, draws0, hs, fun extra => ?_⟩
    simp only [connectNode, if_neg h2, List.append_nil]

theorem connectAll_complete (n d : Nat) (hd : d < n) (nodes : List Nat) :
    ∀ (s : GenState) (draws0 : List Nat), (∀ i ∈ nodes, i < n) → RingKeys n s →
      ∃ more s1 rest, connectAll n d nodes s (draws0 ++ more) = (s1, some rest) := by
  induction nodes with
  | nil =>
    intro s draws0 _ _
    exact ⟨[], s, draws0, by simp only [connectAll, List.append_nil]⟩
  | cons i more ih =>
    intro s draws0 hnodes hs
    obtain ⟨more1, s1, rest1, hs1, hnode⟩ := connectNode_complete n d i hd
      (hnodes i (List.mem_cons_self _ _)) s draws0 hs
    obtain ⟨more2, s2, rest2, hall⟩ := ih s1 rest1
      (fun x hx => hnodes x (List.mem_cons_of_mem _ hx)) hs1
    refine ⟨more1 ++ more2, s2, rest2, ?_⟩
    rw [← List.append_assoc]
    simp only [connectAll, hnode more2]
    exact hall

theorem generate_complete (n d : Nat) (hd : d < n) (draws0 : List Nat) :
    ∃ more, (generate n d (draws0 ++ more)).finished = true := by
  have hn : 2 ≤ n ∨ n < 2 := by omega
  rcases hn with hn | hn
  · obtain ⟨more, s1, rest, h⟩ := connectAll_complete n d hd (List.range n) (ringLoop n) draws0
      (fun i hi => List.mem_range.mp hi) (ringKeys_ringLoop n hn)
    refine ⟨more, ?_⟩
    rw [(generate_state n d (draws0 ++ more)).2.2, h]
    rfl
  · refine ⟨[], ?_⟩
    rw [(generate_state n d (draws0 ++ [])).2.2, connectAll_small n d (by omega)]
    rfl

/-- C24. With `minConnectionsPerNode` above 2 and below the number of nodes, in
every state the generator reaches on any sequence of draws, a node `i` whose
degree is below `minConnectionsPerNode` leaves some node `r` that is not `i`,
not the successor of `i` and not yet connected to `i`; a draw giving `r` is
accepted by the rejection loop at once. Hence whatever draws have been
consumed, some finite sequence of further draws lets the generation finish. -/
theorem candidate_pool_not_empty (n d : Nat) (h2 : 2 < d) (hd : d < n) :
    (∀ (draws : List Nat) (i : Nat), i < n →
      degree (generate n d draws).state.emitted i < d →
      ∃ r, r < n ∧ r ≠ i ∧ r ≠ (i + 1) % n ∧
        r ∉ (generate n d draws).state.allLinks i ∧
        ∀ rest, drawNeighbour n i ((generate n d draws).state.allLinks i) (r :: rest)
          = some (r, rest)) ∧
    (∀ draws0 : List Nat, ∃ more, (generate n d (draws0 ++ more)).finished = true) := by
  refine ⟨fun draws i hi hdeg => ?_, generate_complete n d hd⟩
  have hn : 2 ≤ n := by omega
  rw [(generate_inv n d draws hn).1.deg i] at hdeg
  obtain ⟨r, hr, r1, r2, r3⟩ := candidate_exists n d i _ hdeg hd
    (ringKeys_generate n d draws hn i hi)
  exact ⟨r, hr, r1, r2, r3, fun rest => drawNeighbour_accepts n i _ r rest hr r1 r2 r3⟩

theorem candidate_pool_not_empty_witness :
    (generate 5 3 [0, 1, 2]).finished = false ∧
    (∃ r, r < 5 ∧ r ∉ (generate 5 3 [0, 1, 2]).state.allLinks 1) ∧
    ∃ more, (generate 5 3 ([0, 1, 2] ++ more)).finished = true := by
  have h := candidate_pool_not_empty 5 3 (by decide) (by decide)
  obtain ⟨r, hr, -, -, hnot, -⟩ := h.1 [0, 1, 2] 1 (by decide) (by decide)
  exact ⟨by decide, ⟨r, hr, hnot⟩, h.2 [0, 1, 2]⟩

/-! ## The generated description is read back as the generated edges -/

theorem extractWords_word (cur w rest : List Char) (hw : ∀ c ∈ w, isSpace c = false) :
    extractWords cur (w ++ rest) = extractWords (cur ++ w) rest := by
  induction w generalizing cur with
  | nil => simp only [List.nil_append, List.append_nil]
  | cons c more ih =>
    have hc : isSpace c = false := hw c (List.mem_cons_self _ _)
    have hstep : extractWords cur (c :: (more ++ rest)) =
        extractWords (cur ++ [c]) (more ++ rest) := by
      simp only [extractWords, hc, Bool.false_eq_true, if_false]
    rw [List.cons_append, hstep,
      ih (cur ++ [c]) (fun x hx => hw x (List.mem_cons_of_mem _ hx)), List.append_assoc]
    rfl

theorem map_replace_clean (separator : Char) (w : List Char) (h : ∀ c ∈ w, c ≠ separator) :
    w.map (fun c => if c = separator then ' ' else c) = w := by
  induction w with
  | nil => rfl
  | cons c more ih =>
    rw [List.map_cons, if_neg (h c (List.mem_cons_self _ _)),
      ih (fun x hx => h x (List.mem_cons_of_mem _ hx))]

/-- A non-empty string without separator and white space is its own only
substring. -/
theorem stringSplit_clean (w : String) (separator : Char) (h1 : w.data ≠ [])
    (h2 : ∀ c ∈ w.data, c ≠ separator ∧ isSpace c = false) :
    stringSplit w separator = [w] := by
  unfold stringSplit
  rw [map_replace_clean separator w.data (fun c hc => (h2 c hc).1)]
  have h := extractWords_word [] w.data [] (fun c hc => (h2 c hc).2)
  rw [List.append_nil, List.nil_append] at h
  rw [h]
  simp only [extractWords, if_neg h1]

theorem stringSplit_intercalate (separator : Char) (tokens : List String)
    (h : ∀ t ∈ tokens, t.data ≠ [] ∧ ∀ c ∈ t.data, c ≠ separator ∧ isSpace c = false) :
    stringSplit (String.intercalate (String.singleton separator) tokens) separator = tokens := by
  induction tokens with
  | nil => rfl
  | cons a more ih =>
    cases more with
    | nil =>
      have e : String.intercalate (String.singleton separator) [a] = a := rfl
      rw [e]
      exact stringSplit_clean a separator (h a (List.mem_cons_self _ _)).1
        (h a (List.mem_cons_self _ _)).2
    | cons b rest =>
      have hrest := ih (fun t ht => h t (List.mem_cons_of_mem _ ht))
      have e : a ++ String.singleton separator ++
          String.intercalate (String.singleton separator) (b :: rest) =
          String.mk (a.data ++ separator ::
            (String.intercalate (String.singleton separator) (b :: rest)).data) := by
        apply String.ext
        simp [String.singleton]
      rw [intercalate_cons_cons, e, stringSplit_separator]
      have ha : stringSplit (String.mk a.data) separator = [a] :=
        stringSplit_clean a separator (h a (List.mem_cons_self _ _)).1
          (h a (List.mem_cons_self _ _)).2
      rw [ha]
      have hb : String.mk (String.intercalate (String.singleton separator) (b :: rest)).data
          = String.intercalate (String.singleton separator) (b :: rest) := rfl
      rw [hb, hrest]
      rfl

theorem numeral_clean (i : Nat) (separator : Char) (hsep : separator.isDigit = false)
    (hn : separator ≠ 'n') :
    ("n" ++ toString i).data ≠ [] ∧
    ∀ c ∈ ("n" ++ toString i).data, c ≠ separator ∧ isSpace c = false := by
  have hd : ("n" ++ toString i).data = 'n' :: (toString i).data := rfl
  rw [hd]
  refine ⟨List.cons_ne_nil _ _, fun c hc => ?_⟩
  rcases List.mem_cons.mp hc with rfl | hc
  · exact ⟨fun hx => hn hx.symm, by decide⟩
  · have hdig := (toString_digits i).2.1 c hc
    refine ⟨fun hx => ?_, digit_not_space c hdig⟩
    rw [hx, hsep] at hdig
    cases hdig

theorem edgeText_data (e : Nat × Nat) :
    (edgeText e).data = ("n" ++ toString e.1).data ++ '-' :: ("n" ++ toString e.2).data := by
  unfold edgeText
  simp only [String.data_append]
  simp

theorem edgeText_clean (e : Nat × Nat) :
    (edgeText e).data ≠ [] ∧ ∀ c ∈ (edgeText e).data, c ≠ ',' ∧ isSpace c = false := by
  rw [edgeText_data]
  obtain ⟨-, a2⟩ := numeral_clean e.1 ',' (by decide) (by decide)
  obtain ⟨-, b2⟩ := numeral_clean e.2 ',' (by decide) (by decide)
  refine ⟨by simp, fun c hc => ?_⟩
  rcases List.mem_append.mp hc with hc | hc
  · exact a2 c hc
  · rcases List.mem_cons.mp hc with rfl | hc
    · exact ⟨by decide, by decide⟩
    · exact b2 c hc

theorem stringSplit_edgeText (e : Nat × Nat) :
    stringSplit (edgeText e) '-' = ["n" ++ toString e.1, "n" ++ toString e.2] := by
  have h : edgeText e =
      String.mk (("n" ++ toString e.1).data ++ '-' :: ("n" ++ toString e.2).data) := by
    apply String.ext
    exact edgeText_data e
  obtain ⟨a1, a2⟩ := numeral_clean e.1 '-' (by decide) (by decide)
  obtain ⟨b1, b2⟩ := numeral_clean e.2 '-' (by decide) (by decide)
  rw [h, stringSplit_separator]
  have ha : stringSplit (String.mk ("n" ++ toString e.1).data) '-' = ["n" ++ toString e.1] :=
    stringSplit_clean _ '-' a1 a2
  have hb : stringSplit (String.mk ("n" ++ toString e.2).data) '-' = ["n" ++ toString e.2] :=
    stringSplit_clean _ '-' b1 b2
  rw [ha, hb]
  rfl

theorem parseLink_edgeText (n : Nat) (e : Nat × Nat) (hmax : (n : Int) ≤ intMax)
    (h1 : e.1 < n) (h2 : e.2 < n) (hne : e.1 ≠ e.2) :
    parseLink n 0 (edgeText e) = .ok e := by
  have hx : parseToken (linkEndpoint n 0) (edgeText e) = .ok (e.1, e.2) := by
    rw [parseToken_ok_iff]
    refine ⟨_, _, stringSplit_edgeText e, ?_, ?_, hne⟩
    · rw [linkEndpoint_host_numeral n 0 e.1 (by omega), if_pos h1]
    · rw [linkEndpoint_host_numeral n 0 e.2 (by omega), if_pos h2]
  exact hx

theorem parseAll_map (parse : String → Except Failure (Nat × Nat)) (text : Nat × Nat → String)
    (edges : List (Nat × Nat)) (h : ∀ e ∈ edges, parse (text e) = .ok e) :
    parseAll parse (edges.map text) = .ok edges := by
  induction edges with
  | nil => rfl
  | cons e more ih =>
    simp only [List.map_cons, parseAll, h e (List.mem_cons_self _ _),
      ih (fun x hx => h x (List.mem_cons_of_mem _ hx))]

theorem emittedBelow_addLink (n : Nat) (s : GenState) (a b : Nat) (hs : EmittedBelow n s)
    (ha : a < n) (hb : b < n) : EmittedBelow n (addLink s a b) := by
  intro e he
  simp only [addLink, List.mem_append, List.mem_singleton] at he
  rcases he with he | rfl
  · exact hs e he
  · exact ⟨ha, hb⟩

theorem emittedBelow_ringStep (n : Nat) (s : GenState) (i : Nat) (hs : EmittedBelow n s)
    (hi : i < n) : EmittedBelow n (ringStep n s i) := by
  unfold ringStep
  split_ifs with h1 h2 h3
  · exact hs
  · exact emittedBelow_addLink n s i 0 hs hi (by omega)
  · exact hs
  · exact emittedBelow_addLink n s i (i + 1) hs hi (by omega)

theorem emittedBelow_rounds (n : Nat) (rounds : List Nat) (s : GenState)
    (hs : EmittedBelow n s) (hr : ∀ i ∈ rounds, i < n) :
    EmittedBelow n (rounds.foldl (ringStep n) s) := by
  induction rounds generalizing s with
  | nil => exact hs
  | cons i more ih =>
    rw [List.foldl_cons]
    exact ih _ (emittedBelow_ringStep n s i hs (hr i (List.mem_cons_self _ _)))
      (fun x hx => hr x (List.mem_cons_of_mem _ hx))

theorem drawNeighbour_lt (n i : Nat) (keys : KeySet) (draws : List Nat) (r : Nat)
    (rest : List Nat) (hn : 0 < n) (h : drawNeighbour n i keys draws = some (r, rest)) :
    r < n := by
  induction draws with
  | nil => cases h
  | cons x more ih =>
    simp only [drawNeighbour] at h
    split_ifs at h with hrej
    · exact ih h
    · simp only [Option.some.injEq, Prod.mk.injEq] at h
      rw [← h.1]
      exact Nat.mod_lt _ hn

theorem emittedBelow_connectLoop (n d i : Nat) (hi : i < n) (fuel : Nat) :
    ∀ (j : Nat) (keys : KeySet) (s : GenState) (draws : List Nat), EmittedBelow n s →
      EmittedBelow n (connectLoop n d i fuel j keys s draws).1 := by
  induction fuel with
  | zero =>
    intro j keys s draws hs
    exact hs
  | succ fuel ih =>
    intro j keys s draws hs
    simp only [connectLoop]
    split_ifs with hj
    · cases hdraw : drawNeighbour n i keys draws with
      | none => exact hs
      | some p =>
        obtain ⟨r, rest⟩ := p
        exact ih _ _ _ _ (emittedBelow_addLink n s i r hs hi
          (drawNeighbour_lt n i keys draws r rest (by omega) hdraw))
    · exact hs

theorem emittedBelow_connectNode (n d i : Nat) (hi : i < n) (s : GenState) (draws : List Nat)
    (hs : EmittedBelow n s) : EmittedBelow n (connectNode n d i s draws).1 := by
  unfold connectNode
  split_ifs
  · exact emittedBelow_connectLoop n d i hi _ _ _ _ _ hs
  · exact hs

theorem emittedBelow_connectAll (n d : Nat) (nodes : List Nat) :
    ∀ (s : GenState) (draws : List Nat), (∀ i ∈ nodes, i < n) → EmittedBelow n s →
      EmittedBelow n (connectAll n d nodes s draws).1 := by
  induction nodes with
  | nil =>
    intro s draws _ hs
    exact hs
  | cons i more ih =>
    intro s draws hnodes hs
    have h1 := emittedBelow_connectNode n d i (hnodes i (List.mem_cons_self _ _)) s draws hs
    simp only [connectAll]
    cases hnode : connectNode n d i s draws with
    | mk s1 left =>
      rw [hnode] at h1
      cases left with
      | none => exact h1
      | some rest => exact ih s1 rest (fun x hx => hnodes x (List.mem_cons_of_mem _ hx)) h1

theorem emittedBelow_generate (n d : Nat) (draws : List Nat) :
    EmittedBelow n (generate n d draws).state := by
  have h := emittedBelow_connectAll n d (List.range n) (ringLoop n) draws
    (fun i hi => List.mem_range.mp hi)
    (emittedBelow_rounds n (List.range n) GenState.init (fun e he => by cases he)
      (fun i hi => List.mem_range.mp hi))
  unfold EmittedBelow
  rw [(generate_state n d draws).2.1]
  exact h

theorem generated_links_parse (n d : Nat) (draws : List Nat) (hn : 2 ≤ n)
    (hmax : (n : Int) ≤ intMax) (hfin : (generate n d draws).finished = true) :
    stringSplit (generate n d draws).state.links ','
      = (generate n d draws).state.emitted.map edgeText ∧
    parseAll (parseLink n 0) (stringSplit (generate n d draws).state.links ',')
      = .ok (generate n d draws).state.emitted := by
  have hsplit : stringSplit (generate n d draws).state.links ','
      = (generate n d draws).state.emitted.map edgeText := by
    rw [generate_links n d draws hn hfin]
    apply stringSplit_intercalate ','
    intro t ht
    obtain ⟨e, -, rfl⟩ := List.mem_map.mp ht
    exact edgeText_clean e
  refine ⟨hsplit, ?_⟩
  rw [hsplit]
  apply parseAll_map
  intro e he
  obtain ⟨b1, b2⟩ := emittedBelow_generate n d draws e he
  exact parseLink_edgeText n e hmax b1 b2 ((generate_inv n d draws hn).1.noloop e he)

/-- C26. For at least two nodes (a number that fits an `int`), every
`minConnectionsPerNode` and every sequence of draws on which the generator
finishes, the string `links` it leaves splits at the commas into one token per
edge written, the link parser with no routers accepts every token, and the
edges it returns are, one for one and in the same order, the edges the
generator wrote, which are the edges recorded in `allLinks`. -/
theorem generator_parser_round_trip (n d : Nat) (draws : List Nat) (hn : 2 ≤ n)
    (hmax : (n : Int) ≤ intMax) (hfin : (generate n d draws).finished = true) :
    stringSplit (generate n d draws).state.links ','
      = (generate n d draws).state.emitted.map edgeText ∧
    parseAll (parseLink n 0) (stringSplit (generate n d draws).state.links ',')
      = .ok (generate n d draws).state.emitted ∧
    (∀ a b, b ∈ (generate n d draws).state.allLinks a ↔
      ((a, b) ∈ (generate n d draws).state.emitted ∨
        (b, a) ∈ (generate n d draws).state.emitted)) :=
  ⟨(generated_links_parse n d draws hn hmax hfin).1,
    (generated_links_parse n d draws hn hmax hfin).2,
    (generate_inv n d draws hn).1.adj⟩

theorem generator_parser_round_trip_witness :
    (generate 4 3 [2, 3, 0, 0]).state.links = "n0-n1,n1-n2,n2-n3,n3-n0,n0-n2,n1-n3" ∧
    parseAll (parseLink 4 0) (stringSplit (generate 4 3 [2, 3, 0, 0]).state.links ',')
      = .ok (generate 4 3 [2, 3, 0, 0]).state.emitted ∧
    (generate 4 3 [2, 3, 0, 0]).state.emitted
      = [(0, 1), (1, 2), (2, 3), (3, 0), (0, 2), (1, 3)] :=
  ⟨by decide,
    (generator_parser_round_trip 4 3 [2, 3, 0, 0] (by decide) (by decide) (by decide)).2.1,
    by decide⟩

end BlockChainNetworkSim
